import Mathlib

/-!
Verification of the minimum-cut engines of this repository.

The development shallowly embeds the C++ sources:
* `src/Min_Cut/kargeroptattempt/stoer_wagner.cpp` (linear-scan Stoer–Wagner),
* `src/Min_Cut/mincut/algorithms/stoer_wagner/stoer_wagner_pq.cpp` (priority-queue variant),
* `src/Min_Cut/mincut/kargeroptattempt/kargercppver.cpp` (rejection-sampling Karger),
* `src/mincut/kargeroptattempt/kargercppopt.cpp` (shuffle-based Karger).

Adjacency matrices `vector<vector<int>>` are embedded as functions
`ℕ → ℕ → ℤ` together with an explicit size `V` (`V = G.size()` in the C++).
C++ `int` arithmetic is embedded as ideal integer arithmetic; the constant
`INT_MAX = 2^31 - 1` from `<climits>` is kept literally since the code uses
it as the initial value of its running minimum.
-/

/-- The C++ `INT_MAX` from `<climits>` (32-bit `int`). -/
def INT_MAX : ℤ := 2 ^ 31 - 1

/-- A weight matrix: entry `(i, j)` of the C++ `vector<vector<int>> G`.
Entries outside the `V × V` block are irrelevant to the embedded code. -/
def Mat : Type := ℕ → ℕ → ℤ

/-- Pointwise update of one matrix cell, modelling `G[a][b] = v`. -/
def matUpd (g : Mat) (a b : ℕ) (v : ℤ) : Mat :=
  fun i j => if i = a ∧ j = b then v else g i j

/-- The merge loop of `stoer_wagner.cpp`:
`for (i = 0; i < n; i++) { G[prev][i] += G[last][i]; G[i][prev] = G[prev][i]; }`,
executed sequentially (the order of the two writes per iteration matters
when `last < prev`, and the embedding keeps that order). -/
def mergeLoop (prev last : ℕ) : ℕ → Mat → Mat
  | 0, g => g
  | n + 1, g =>
      let g1 := mergeLoop prev last n g
      let g2 := matUpd g1 prev n (g1 prev n + g1 last n)
      matUpd g2 n prev (g2 prev n)

/-- Deletion of row and column `last` (`G[i].erase(...)` for every row,
then `G.erase(...)`): entry `(i, j)` of the shrunken matrix is entry
`(i, j)` of the old one with indices `≥ last` shifted up by one. -/
def delIdx (last : ℕ) (g : Mat) : Mat :=
  fun i j => g (if i < last then i else i + 1) (if j < last then j else j + 1)

namespace SWLin

/-- State of one Stoer–Wagner phase in `stoer_wagner.cpp`:
the `added` flags, the `weight` array, and the two `int` variables
`prev` and `last` (kept as `ℤ` because they are C++ `int`s initialised
to `-1` and `0`). -/
structure PhaseState where
  added : ℕ → Bool
  wt : ℕ → ℤ
  prev : ℤ
  last : ℤ

/-- The scan `for (i = 0; i < n; i++) if (weight[i] > maxval && added[i] == 0)
{ maxval = weight[i]; mosttightvertex = i; }` of `stoer_wagner.cpp`,
threading the pair `(mosttightvertex, maxval)`. -/
def scanLoop (added : ℕ → Bool) (wt : ℕ → ℤ) : ℕ → ℤ × ℤ → ℤ × ℤ
  | 0, st => st
  | n + 1, st =>
      let st' := scanLoop added wt n st
      if wt n > st'.2 ∧ added n = false then ((n : ℤ), wt n) else st'

/-- One iteration of the `while (unadded)` loop of `stoer_wagner.cpp`:
select the most tightly connected un-added vertex by a linear scan
(seeded with `mosttightvertex = -1`, `maxval = -1`), mark it added,
and add its row to the weights of the still un-added vertices. -/
def stepPhase (V : ℕ) (g : Mat) (s : PhaseState) : PhaseState :=
  let m := (scanLoop s.added s.wt V (-1, -1)).1
  let mtv := m.toNat
  let added' := fun i => if i = mtv then true else s.added i
  let wt' := fun i => if i < V ∧ added' i = false then s.wt i + g mtv i else s.wt i
  ⟨added', wt', s.last, m⟩

/-- The phase initialisation of `stoer_wagner.cpp`: `added[0] = 1`,
`weight[i] += G[i][0]` for every `i < V`, `prev = -1`, `last = 0`. -/
def initPhase (V : ℕ) (g : Mat) : PhaseState :=
  ⟨fun i => if i = 0 then true else false,
   fun i => if i < V then g i 0 else 0,
   -1, 0⟩

/-- The phase state after `k` iterations of the inner `while (unadded)` loop;
the loop of `stoer_wagner.cpp` runs exactly `V - 1` iterations. -/
def phaseRun (V : ℕ) (g : Mat) (k : ℕ) : PhaseState :=
  (stepPhase V g)^[k] (initPhase V g)

/-- The outer `while (V > 1)` loop of `stoer_wagner.cpp`, threading the
mutable matrix and the running minimum (initially `INT_MAX`), and
returning the pair (returned value, final state of the caller's matrix). -/
def swLoop : ℕ → Mat → ℤ → ℤ × Mat
  | 0, g, mc => (mc, g)
  | 1, g, mc => (mc, g)
  | V + 2, g, mc =>
      let s := phaseRun (V + 2) g (V + 1)
      let mc' := min mc (s.wt s.last.toNat)
      let g' := delIdx s.last.toNat (mergeLoop s.prev.toNat s.last.toNat (V + 2) g)
      swLoop (V + 1) g' mc'

/-- The function `stoer_wagner` of `stoer_wagner.cpp`.  It receives the
matrix by non-const reference and mutates it, so the embedding returns
both the `int` result and the final state of the caller's matrix. -/
def stoer_wagner (V : ℕ) (g : Mat) : ℤ × Mat :=
  swLoop V g INT_MAX

end SWLin

/-! ### The mathematical cut specification -/

/-- Whether the matrix is symmetric on the `V × V` block. -/
def symmOn (V : ℕ) (g : Mat) : Prop :=
  ∀ i < V, ∀ j < V, g i j = g j i

/-- Whether the matrix is entrywise non-negative on the `V × V` block. -/
def nonnegOn (V : ℕ) (g : Mat) : Prop :=
  ∀ i < V, ∀ j < V, 0 ≤ g i j

/-- The weight of the cut `(S, Sᶜ)`: total weight of ordered pairs
`(i, j)` with `i ∈ S` on one side and `j ∉ S` on the other, each
undirected crossing edge counted once (via the side of `S`). -/
def cutVal (V : ℕ) (g : Mat) (S : Finset ℕ) : ℤ :=
  ∑ i ∈ Finset.range V, ∑ j ∈ Finset.range V,
    if i ∈ S ∧ j ∉ S then g i j else 0

/-- The nontrivial vertex subsets of `{0, …, V-1}`: the candidate cuts. -/
def properCuts (V : ℕ) : Finset (Finset ℕ) :=
  (Finset.range V).powerset.filter (fun S => S.Nonempty ∧ S ≠ Finset.range V)

/-- The exact global minimum cut weight of the `V`-vertex graph `g`
(for `V < 2` there is no cut and the value defaults to `INT_MAX`,
matching the sentinel the code returns in that case). -/
def minCut (V : ℕ) (g : Mat) : ℤ :=
  if h : ((properCuts V).image (cutVal V g)).Nonempty
  then ((properCuts V).image (cutVal V g)).min' h
  else INT_MAX

/-! ### Maximum-adjacency orders -/

/-- Accumulated adjacency of vertex `x` to the first `k` vertices of the
order `a`: the value `weight[x]` holds after those `k` vertices were added. -/
def keyW (g : Mat) (a : ℕ → ℕ) (k x : ℕ) : ℤ :=
  ∑ t ∈ Finset.range k, g (a t) x

/-- A maximum-adjacency order of the `V`-vertex graph `g`: it starts at
vertex `0`, enumerates the vertices without repetition, and each added
vertex has maximal accumulated adjacency to the already-added ones. -/
structure IsMAOrder (V : ℕ) (g : Mat) (a : ℕ → ℕ) : Prop where
  start : a 0 = 0
  lt : ∀ k < V, a k < V
  inj : ∀ k < V, ∀ l < V, a k = a l → k = l
  max : ∀ k, 1 ≤ k → k < V → ∀ m < V, (∀ t < k, a t ≠ m) → keyW g a k m ≤ keyW g a k (a k)

/-- One crossing term of the cut `(S, Sᶜ)`. -/
def crossF (g : Mat) (S : Finset ℕ) (p q : ℕ) : ℤ :=
  if p ∈ S ∧ q ∉ S then g p q else 0

/-- Cut weight of `(S, Sᶜ)` restricted to the vertex subset `U`. -/
def cutIn (g : Mat) (S U : Finset ℕ) : ℤ :=
  ∑ p ∈ U, ∑ q ∈ U, crossF g S p q

/-- The first `t + 1` vertices of the order `a`, as a set. -/
def Aset (a : ℕ → ℕ) (t : ℕ) : Finset ℕ :=
  (Finset.range (t + 1)).image a

theorem cutVal_eq_cutIn (V : ℕ) (g : Mat) (S : Finset ℕ) :
    cutVal V g S = cutIn g S (Finset.range V) := rfl

theorem crossF_nonneg (g : Mat) (S : Finset ℕ) (V : ℕ) (hn : nonnegOn V g)
    (p q : ℕ) (hp : p < V) (hq : q < V) : 0 ≤ crossF g S p q := by
  unfold crossF
  split
  · exact hn p hp q hq
  · exact le_refl 0

theorem side_const (S : Finset ℕ) (a : ℕ → ℕ) (i : ℕ) :
    ∀ t, i ≤ t → (∀ m, i < m → m ≤ t → ((a m ∈ S) ↔ (a (m - 1) ∈ S))) →
      ((a t ∈ S) ↔ (a i ∈ S)) := by
  intro t
  induction t with
  | zero =>
      intro h _
      have hi : i = 0 := Nat.le_zero.mp h
      rw [hi]
  | succ t ih =>
      intro hle hcal
      rcases Nat.eq_or_lt_of_le hle with h | h
      · rw [h]
      · have ht : i ≤ t := by omega
        have : (a (t + 1) ∈ S) ↔ (a t ∈ S) := by
          have := hcal (t + 1) (by omega) (le_refl _)
          simpa using this
        exact this.trans (ih ht (fun m hm hm' => hcal m hm (by omega)))

theorem mem_Aset {a : ℕ → ℕ} {t x : ℕ} : x ∈ Aset a t ↔ ∃ u, u ≤ t ∧ a u = x := by
  unfold Aset
  simp only [Finset.mem_image, Finset.mem_range, Nat.lt_succ_iff]

theorem Aset_mono {a : ℕ → ℕ} {i j : ℕ} (h : i ≤ j) : Aset a i ⊆ Aset a j := by
  intro x hx
  rcases mem_Aset.mp hx with ⟨u, hu, hau⟩
  exact mem_Aset.mpr ⟨u, le_trans hu h, hau⟩

theorem cutIn_eq_prod (g : Mat) (S U : Finset ℕ) :
    cutIn g S U = ∑ p ∈ U ×ˢ U, crossF g S p.1 p.2 := by
  unfold cutIn
  rw [Finset.sum_product']

theorem cutIn_extend (V : ℕ) (g : Mat) (S : Finset ℕ) (a : ℕ → ℕ)
    (hs : symmOn V g) (hn : nonnegOn V g) (h : IsMAOrder V g a)
    (i j : ℕ) (hij : i < j) (hjV : j < V)
    (hside : ∀ t, i ≤ t → t < j → ((a t ∈ S) ↔ (a i ∈ S)))
    (hopp : ¬ ((a j ∈ S) ↔ (a i ∈ S))) :
    cutIn g S (Aset a i) + ∑ t ∈ Finset.Ico i j, g (a t) (a j) ≤ cutIn g S (Aset a j) := by
  have haV : ∀ t, t ≤ j → a t < V := fun t ht => h.lt t (lt_of_le_of_lt ht hjV)
  have hainj : ∀ t, t ≤ j → ∀ u, u ≤ j → a t = a u → t = u := by
    intro t ht u hu he
    exact h.inj t (lt_of_le_of_lt ht hjV) u (lt_of_le_of_lt hu hjV) he
  -- each pair between the segment [i, j) and a j crosses the cut
  have hcross : ∀ t ∈ Finset.Ico i j,
      crossF g S (a t) (a j) + crossF g S (a j) (a t) = g (a t) (a j) := by
    intro t ht
    rcases Finset.mem_Ico.mp ht with ⟨ht1, ht2⟩
    have hts : (a t ∈ S) ↔ (a i ∈ S) := hside t ht1 ht2
    unfold crossF
    by_cases hiS : a i ∈ S
    · have h1 : a t ∈ S := hts.mpr hiS
      have h2 : a j ∉ S := fun hj => hopp ⟨fun _ => hiS, fun _ => hj⟩
      rw [if_pos ⟨h1, h2⟩, if_neg (fun hc => h2 hc.1)]
      ring
    · have h1 : a t ∉ S := fun ht' => hiS (hts.mp ht')
      have h2 : a j ∈ S := by
        by_contra hj
        exact hopp ⟨fun hj' => absurd hj' hj, fun hi' => absurd hi' hiS⟩
      rw [if_neg (fun hc => h1 hc.1), if_pos ⟨h2, h1⟩]
      rw [hs (a j) (haV j (le_refl j)) (a t) (haV t (le_of_lt ht2))]
      ring
  -- the two families of extra ordered pairs
  have hinj1 : ∀ x ∈ Finset.Ico i j, ∀ y ∈ Finset.Ico i j,
      (fun t => ((a t, a j) : ℕ × ℕ)) x = (fun t => (a t, a j)) y → x = y := by
    intro x hx y hy he
    have : a x = a y := (Prod.mk.injEq _ _ _ _).mp he |>.1
    exact hainj x (le_of_lt (Finset.mem_Ico.mp hx).2) y (le_of_lt (Finset.mem_Ico.mp hy).2) this
  have hinj2 : ∀ x ∈ Finset.Ico i j, ∀ y ∈ Finset.Ico i j,
      (fun t => ((a j, a t) : ℕ × ℕ)) x = (fun t => (a j, a t)) y → x = y := by
    intro x hx y hy he
    have : a x = a y := (Prod.mk.injEq _ _ _ _).mp he |>.2
    exact hainj x (le_of_lt (Finset.mem_Ico.mp hx).2) y (le_of_lt (Finset.mem_Ico.mp hy).2) this
  have hsum1 : ∑ p ∈ (Finset.Ico i j).image (fun t => ((a t, a j) : ℕ × ℕ)),
      crossF g S p.1 p.2 = ∑ t ∈ Finset.Ico i j, crossF g S (a t) (a j) :=
    Finset.sum_image hinj1
  have hsum2 : ∑ p ∈ (Finset.Ico i j).image (fun t => ((a j, a t) : ℕ × ℕ)),
      crossF g S p.1 p.2 = ∑ t ∈ Finset.Ico i j, crossF g S (a j) (a t) :=
    Finset.sum_image hinj2
  have hajnot : a j ∉ Aset a i := by
    intro hmem
    rcases mem_Aset.mp hmem with ⟨u, hu, hau⟩
    have : u = j := hainj u (by omega) j (le_refl j) hau
    omega
  have hd12 : Disjoint ((Finset.Ico i j).image (fun t => ((a t, a j) : ℕ × ℕ)))
      ((Finset.Ico i j).image (fun t => ((a j, a t) : ℕ × ℕ))) := by
    rw [Finset.disjoint_left]
    intro p hp1 hp2
    rcases Finset.mem_image.mp hp1 with ⟨t, ht, hte⟩
    rcases Finset.mem_image.mp hp2 with ⟨u, hu, hue⟩
    have hpe : ((a t, a j) : ℕ × ℕ) = (a j, a u) := hte.trans hue.symm
    have h1 : a t = a j := ((Prod.mk.injEq _ _ _ _).mp hpe).1
    have : t = j := hainj t (le_of_lt (Finset.mem_Ico.mp ht).2) j (le_refl j) h1
    have := (Finset.mem_Ico.mp ht).2
    omega
  have hdisjE : Disjoint (Aset a i ×ˢ Aset a i)
      (((Finset.Ico i j).image (fun t => ((a t, a j) : ℕ × ℕ))) ∪
        ((Finset.Ico i j).image (fun t => ((a j, a t) : ℕ × ℕ)))) := by
    rw [Finset.disjoint_left]
    intro p hp hpe
    rcases Finset.mem_product.mp hp with ⟨hp1, hp2⟩
    rcases Finset.mem_union.mp hpe with hq | hq
    · rcases Finset.mem_image.mp hq with ⟨t, _, hte⟩
      apply hajnot
      rw [← hte] at hp2
      exact hp2
    · rcases Finset.mem_image.mp hq with ⟨t, _, hte⟩
      apply hajnot
      rw [← hte] at hp1
      exact hp1
  have hsubset : (Aset a i ×ˢ Aset a i) ∪
      (((Finset.Ico i j).image (fun t => ((a t, a j) : ℕ × ℕ))) ∪
        ((Finset.Ico i j).image (fun t => ((a j, a t) : ℕ × ℕ)))) ⊆ Aset a j ×ˢ Aset a j := by
    intro p hp
    have hAij : Aset a i ⊆ Aset a j := Aset_mono (le_of_lt hij)
    have hajin : a j ∈ Aset a j := mem_Aset.mpr ⟨j, le_refl j, rfl⟩
    rcases Finset.mem_union.mp hp with hq | hq
    · rcases Finset.mem_product.mp hq with ⟨hp1, hp2⟩
      exact Finset.mem_product.mpr ⟨hAij hp1, hAij hp2⟩
    · rcases Finset.mem_union.mp hq with hr | hr
      · rcases Finset.mem_image.mp hr with ⟨t, ht, hte⟩
        have hat : a t ∈ Aset a j :=
          mem_Aset.mpr ⟨t, le_of_lt (Finset.mem_Ico.mp ht).2, rfl⟩
        rw [← hte]
        exact Finset.mem_product.mpr ⟨hat, hajin⟩
      · rcases Finset.mem_image.mp hr with ⟨t, ht, hte⟩
        have hat : a t ∈ Aset a j :=
          mem_Aset.mpr ⟨t, le_of_lt (Finset.mem_Ico.mp ht).2, rfl⟩
        rw [← hte]
        exact Finset.mem_product.mpr ⟨hajin, hat⟩
  have hnonnegP : ∀ p ∈ Aset a j ×ˢ Aset a j,
      p ∉ (Aset a i ×ˢ Aset a i) ∪
        (((Finset.Ico i j).image (fun t => ((a t, a j) : ℕ × ℕ))) ∪
          ((Finset.Ico i j).image (fun t => ((a j, a t) : ℕ × ℕ)))) →
      0 ≤ crossF g S p.1 p.2 := by
    intro p hp _
    rcases Finset.mem_product.mp hp with ⟨hp1, hp2⟩
    rcases mem_Aset.mp hp1 with ⟨u, hu, hau⟩
    rcases mem_Aset.mp hp2 with ⟨v, hv, hav⟩
    exact crossF_nonneg g S V hn p.1 p.2 (hau ▸ haV u hu) (hav ▸ haV v hv)
  calc cutIn g S (Aset a i) + ∑ t ∈ Finset.Ico i j, g (a t) (a j)
      = (∑ p ∈ Aset a i ×ˢ Aset a i, crossF g S p.1 p.2) +
        ((∑ t ∈ Finset.Ico i j, crossF g S (a t) (a j)) +
         (∑ t ∈ Finset.Ico i j, crossF g S (a j) (a t))) := by
        rw [cutIn_eq_prod]
        rw [← Finset.sum_add_distrib]
        rw [Finset.sum_congr rfl hcross]
    _ = ∑ p ∈ (Aset a i ×ˢ Aset a i) ∪
          (((Finset.Ico i j).image (fun t => ((a t, a j) : ℕ × ℕ))) ∪
            ((Finset.Ico i j).image (fun t => ((a j, a t) : ℕ × ℕ)))),
          crossF g S p.1 p.2 := by
        rw [Finset.sum_union hdisjE, Finset.sum_union hd12, hsum1, hsum2]
    _ ≤ ∑ p ∈ Aset a j ×ˢ Aset a j, crossF g S p.1 p.2 :=
        Finset.sum_le_sum_of_subset_of_nonneg hsubset hnonnegP
    _ = cutIn g S (Aset a j) := (cutIn_eq_prod g S (Aset a j)).symm

theorem ma_key_step (V : ℕ) (g : Mat) (S : Finset ℕ) (a : ℕ → ℕ)
    (hs : symmOn V g) (hn : nonnegOn V g) (h : IsMAOrder V g a)
    (i j : ℕ) (hij : i < j) (hjV : j < V)
    (hquiet : ∀ m, i < m → m < j → ((a m ∈ S) ↔ (a (m - 1) ∈ S)))
    (hactj : ¬ ((a j ∈ S) ↔ (a (j - 1) ∈ S)))
    (hbase : keyW g a i (a i) ≤ cutIn g S (Aset a i)) :
    keyW g a j (a j) ≤ cutIn g S (Aset a j) := by
  have hside : ∀ t, i ≤ t → t < j → ((a t ∈ S) ↔ (a i ∈ S)) := by
    intro t ht htj
    exact side_const S a i t ht (fun m hm hm' => hquiet m hm (lt_of_le_of_lt hm' htj))
  have hopp : ¬ ((a j ∈ S) ↔ (a i ∈ S)) := by
    have hj1 : (a (j - 1) ∈ S) ↔ (a i ∈ S) := hside (j - 1) (by omega) (by omega)
    intro hc
    exact hactj (hc.trans hj1.symm)
  have hmax : keyW g a i (a j) ≤ keyW g a i (a i) := by
    rcases Nat.eq_zero_or_pos i with hz | hp
    · subst hz
      unfold keyW
      simp
    · apply h.max i hp (lt_trans hij hjV) (a j) (h.lt j hjV)
      intro t ht he
      have : t = j := h.inj t (by omega) j hjV he
      omega
  have hsplit : keyW g a j (a j) =
      keyW g a i (a j) + ∑ t ∈ Finset.Ico i j, g (a t) (a j) := by
    unfold keyW
    rw [Finset.range_eq_Ico]
    exact (Finset.sum_Ico_consecutive _ (Nat.zero_le i) (le_of_lt hij)).symm
  have hext := cutIn_extend V g S a hs hn h i j hij hjV hside hopp
  calc keyW g a j (a j)
      = keyW g a i (a j) + ∑ t ∈ Finset.Ico i j, g (a t) (a j) := hsplit
    _ ≤ keyW g a i (a i) + ∑ t ∈ Finset.Ico i j, g (a t) (a j) := by
        apply add_le_add_right hmax
    _ ≤ cutIn g S (Aset a i) + ∑ t ∈ Finset.Ico i j, g (a t) (a j) := by
        apply add_le_add_right hbase
    _ ≤ cutIn g S (Aset a j) := hext

theorem ma_key_aux (V : ℕ) (g : Mat) (S : Finset ℕ) (a : ℕ → ℕ)
    (hs : symmOn V g) (hn : nonnegOn V g) (h : IsMAOrder V g a) :
    ∀ j, 1 ≤ j → j < V → ¬ ((a j ∈ S) ↔ (a (j - 1) ∈ S)) →
      keyW g a j (a j) ≤ cutIn g S (Aset a j) := by
  intro j
  induction j using Nat.strong_induction_on with
  | _ j IH =>
    intro hj1 hjV hact
    by_cases hex : ∃ m, 1 ≤ m ∧ m < j ∧ ¬ ((a m ∈ S) ↔ (a (m - 1) ∈ S))
    · rcases hex with ⟨m0, hm01, hm0j, hm0a⟩
      have hne : ((Finset.range j).filter
          (fun m => 1 ≤ m ∧ ¬ ((a m ∈ S) ↔ (a (m - 1) ∈ S)))).Nonempty := by
        exact ⟨m0, Finset.mem_filter.mpr ⟨Finset.mem_range.mpr hm0j, hm01, hm0a⟩⟩
      set F := (Finset.range j).filter
          (fun m => 1 ≤ m ∧ ¬ ((a m ∈ S) ↔ (a (m - 1) ∈ S))) with hF
      set i := F.max' hne with hi
      have hiF : i ∈ F := F.max'_mem hne
      have hi1 : 1 ≤ i := (Finset.mem_filter.mp hiF).2.1
      have hij : i < j := Finset.mem_range.mp (Finset.mem_filter.mp hiF).1
      have hiact : ¬ ((a i ∈ S) ↔ (a (i - 1) ∈ S)) := (Finset.mem_filter.mp hiF).2.2
      have hquiet : ∀ m, i < m → m < j → ((a m ∈ S) ↔ (a (m - 1) ∈ S)) := by
        intro m him hmj
        by_contra hc
        have : m ∈ F := Finset.mem_filter.mpr ⟨Finset.mem_range.mpr hmj, by omega, hc⟩
        have := F.le_max' m this
        omega
      have hbase : keyW g a i (a i) ≤ cutIn g S (Aset a i) :=
        IH i hij hi1 (lt_trans hij hjV) hiact
      exact ma_key_step V g S a hs hn h i j hij hjV hquiet hact hbase
    · have hquiet : ∀ m, 0 < m → m < j → ((a m ∈ S) ↔ (a (m - 1) ∈ S)) := by
        intro m hm hmj
        by_contra hc
        exact hex ⟨m, hm, hmj, hc⟩
      have hbase : keyW g a 0 (a 0) ≤ cutIn g S (Aset a 0) := by
        have h1 : keyW g a 0 (a 0) = 0 := by
          unfold keyW
          simp
        have h2 : cutIn g S (Aset a 0) = 0 := by
          unfold Aset
          rw [Finset.range_one, Finset.image_singleton]
          unfold cutIn crossF
          simp
        rw [h1, h2]
      exact ma_key_step V g S a hs hn h 0 j hj1 hjV hquiet hact hbase

theorem ma_key (V : ℕ) (g : Mat) (S : Finset ℕ) (a : ℕ → ℕ)
    (hs : symmOn V g) (hn : nonnegOn V g) (h : IsMAOrder V g a) (hV : 2 ≤ V)
    (hsep : ¬ ((a (V - 1) ∈ S) ↔ (a (V - 2) ∈ S))) :
    keyW g a (V - 1) (a (V - 1)) ≤ cutVal V g S := by
  have hact : ¬ ((a (V - 1) ∈ S) ↔ (a ((V - 1) - 1) ∈ S)) := by
    have he : (V - 1) - 1 = V - 2 := by omega
    rw [he]
    exact hsep
  have hmain := ma_key_aux V g S a hs hn h (V - 1) (by omega) (by omega) hact
  have hAeq : Aset a (V - 1) = Finset.range V := by
    apply Finset.eq_of_subset_of_card_le
    · intro x hx
      rcases mem_Aset.mp hx with ⟨u, hu, hau⟩
      exact Finset.mem_range.mpr (hau ▸ h.lt u (by omega))
    · have he : (V - 1) + 1 = V := by omega
      unfold Aset
      rw [he]
      rw [Finset.card_range]
      rw [Finset.card_image_of_injOn]
      · rw [Finset.card_range]
      · intro x hx y hy he2
        exact h.inj x (Finset.mem_range.mp hx) y (Finset.mem_range.mp hy) he2
  rw [cutVal_eq_cutIn, ← hAeq]
  exact hmain

/-! ### Characterisation of the merge loop -/

theorem mergeLoop_ne (prev last : ℕ) :
    ∀ n (g : Mat) (x y : ℕ), x ≠ prev → y ≠ prev →
      mergeLoop prev last n g x y = g x y := by
  intro n
  induction n with
  | zero => intro g x y _ _; rfl
  | succ n ih =>
      intro g x y hx hy
      show matUpd _ n prev _ x y = g x y
      unfold matUpd
      rw [if_neg (fun hc => hy hc.2)]
      rw [if_neg (fun hc => hx hc.1)]
      exact ih g x y hx hy

theorem mergeLoop_row_ge (prev last : ℕ) :
    ∀ n (g : Mat) (y : ℕ), n ≤ y → y ≠ prev →
      mergeLoop prev last n g prev y = g prev y := by
  intro n
  induction n with
  | zero => intro g y _ _; rfl
  | succ n ih =>
      intro g y hny hy
      show matUpd _ n prev _ prev y = g prev y
      unfold matUpd
      rw [if_neg (fun hc => hy hc.2)]
      rw [if_neg (fun hc => by omega)]
      exact ih g y (by omega) hy

theorem mergeLoop_row (prev last : ℕ) (hpl : prev ≠ last) :
    ∀ n (g : Mat) (y : ℕ), y < n → y ≠ prev →
      mergeLoop prev last n g prev y = g prev y + g last y := by
  intro n
  induction n with
  | zero => intro g y hy _; omega
  | succ n ih =>
      intro g y hy hyp
      show matUpd _ n prev _ prev y = g prev y + g last y
      unfold matUpd
      rw [if_neg (fun hc => hyp hc.2)]
      by_cases hyn : y = n
      · subst hyn
        rw [if_pos ⟨rfl, rfl⟩]
        have h1 : mergeLoop prev last y g prev y = g prev y :=
          mergeLoop_row_ge prev last y g y (le_refl y) hyp
        have h2 : mergeLoop prev last y g last y = g last y :=
          mergeLoop_ne prev last y g last y (fun hc => hpl hc.symm) hyp
        rw [h1, h2]
      · rw [if_neg (fun hc => hyn hc.2)]
        exact ih g y (by omega) hyp

theorem mergeLoop_col (prev last : ℕ) (hpl : prev ≠ last) :
    ∀ n (g : Mat) (x : ℕ), x < n → x ≠ prev →
      mergeLoop prev last n g x prev = g prev x + g last x := by
  intro n
  induction n with
  | zero => intro g x hx _; omega
  | succ n ih =>
      intro g x hx hxp
      show matUpd _ n prev _ x prev = g prev x + g last x
      unfold matUpd
      by_cases hxn : x = n
      · subst hxn
        rw [if_pos ⟨rfl, rfl⟩]
        show matUpd _ prev x _ prev x = g prev x + g last x
        unfold matUpd
        rw [if_pos ⟨rfl, rfl⟩]
        have h1 : mergeLoop prev last x g prev x = g prev x :=
          mergeLoop_row_ge prev last x g x (le_refl x) hxp
        have h2 : mergeLoop prev last x g last x = g last x :=
          mergeLoop_ne prev last x g last x (fun hc => hpl hc.symm) hxp
        rw [h1, h2]
      · rw [if_neg (fun hc => hxn hc.1)]
        show matUpd _ prev n _ x prev = g prev x + g last x
        unfold matUpd
        rw [if_neg (fun hc => hxp hc.1)]
        exact ih g x (by omega) hxp

theorem mergeLoop_nonneg (prev last V : ℕ) (hp : prev < V) (hl : last < V) :
    ∀ n (g : Mat), n ≤ V → (∀ x y, x < V → y < V → 0 ≤ g x y) →
      ∀ x y, x < V → y < V → 0 ≤ mergeLoop prev last n g x y := by
  intro n
  induction n with
  | zero => intro g _ hg x y hx hy; exact hg x y hx hy
  | succ n ih =>
      intro g hn hg x y hx hy
      have hbase : ∀ x y, x < V → y < V → 0 ≤ mergeLoop prev last n g x y :=
        ih g (by omega) hg
      show (0 : ℤ) ≤ matUpd _ n prev _ x y
      unfold matUpd
      split
      · split
        · exact add_nonneg (hbase prev n hp (by omega)) (hbase last n hl (by omega))
        · exact hbase prev n hp (by omega)
      · split
        · exact add_nonneg (hbase prev n hp (by omega)) (hbase last n hl (by omega))
        · exact hbase x y hx hy

/-- Index shift skipping the removed index `l` (the inverse image of the
row/column deletion). -/
def shUp (l k : ℕ) : ℕ := if k < l then k else k + 1

/-- Inverse shift: position of the surviving vertex `y ≠ l` after the
deletion of index `l`. -/
def shDown (l y : ℕ) : ℕ := if y < l then y else y - 1

/-- The matrix the merge-and-delete step of both Stoer–Wagner variants
leaves behind: vertex `last` merged into `prev`, row and column `last`
removed. -/
def contractMat (prev last V : ℕ) (g : Mat) : Mat :=
  delIdx last (mergeLoop prev last V g)

theorem shUp_ne (l k : ℕ) : shUp l k ≠ l := by
  unfold shUp
  split <;> omega

theorem shUp_lt {l k V : ℕ} (hk : k < V - 1) (hl : l < V) : shUp l k < V := by
  unfold shUp
  split <;> omega

theorem shUp_inj {l k k' : ℕ} (h : shUp l k = shUp l k') : k = k' := by
  unfold shUp at h
  by_cases h1 : k < l <;> by_cases h2 : k' < l <;> simp [h1, h2] at h <;> omega

theorem shUp_shDown {l y : ℕ} (h : y ≠ l) : shUp l (shDown l y) = y := by
  unfold shUp shDown
  by_cases h1 : y < l
  · simp [h1]
  · rw [if_neg h1]
    have h2 : ¬ (y - 1 < l) := by omega
    rw [if_neg h2]
    omega

theorem shDown_shUp (l k : ℕ) : shDown l (shUp l k) = k := by
  unfold shUp shDown
  by_cases h1 : k < l
  · simp [h1]
  · rw [if_neg h1]
    have h2 : ¬ (k + 1 < l) := by omega
    rw [if_neg h2]
    omega

theorem shDown_lt {l y V : ℕ} (hy : y < V) (hl : l < V) (hne : y ≠ l) :
    shDown l y < V - 1 := by
  unfold shDown
  split <;> omega

theorem delIdx_apply (l : ℕ) (g : Mat) (i j : ℕ) :
    delIdx l g i j = g (shUp l i) (shUp l j) := rfl

theorem contract_apply_ne {prev last V : ℕ} (g : Mat) (i j : ℕ)
    (hi : shUp last i ≠ prev) (hj : shUp last j ≠ prev) :
    contractMat prev last V g i j = g (shUp last i) (shUp last j) := by
  unfold contractMat
  rw [delIdx_apply]
  exact mergeLoop_ne prev last V g _ _ hi hj

theorem contract_apply_row {prev last V : ℕ} (g : Mat) (i j : ℕ)
    (hpl : prev ≠ last) (hjV : j < V - 1) (hlV : last < V)
    (hi : shUp last i = prev) (hj : shUp last j ≠ prev) :
    contractMat prev last V g i j = g prev (shUp last j) + g last (shUp last j) := by
  unfold contractMat
  rw [delIdx_apply, hi]
  exact mergeLoop_row prev last hpl V g _ (shUp_lt hjV hlV) hj

theorem contract_apply_col {prev last V : ℕ} (g : Mat) (i j : ℕ)
    (hpl : prev ≠ last) (hiV : i < V - 1) (hlV : last < V)
    (hi : shUp last i ≠ prev) (hj : shUp last j = prev) :
    contractMat prev last V g i j = g prev (shUp last i) + g last (shUp last i) := by
  unfold contractMat
  rw [delIdx_apply, hj]
  exact mergeLoop_col prev last hpl V g _ (shUp_lt hiV hlV) hi

theorem contract_symm {prev last V : ℕ} (g : Mat)
    (hpl : prev ≠ last) (hpV : prev < V) (hlV : last < V) (hs : symmOn V g) :
    symmOn (V - 1) (contractMat prev last V g) := by
  intro i hi j hj
  have hiV : shUp last i < V := shUp_lt hi hlV
  have hjV : shUp last j < V := shUp_lt hj hlV
  by_cases hip : shUp last i = prev <;> by_cases hjp : shUp last j = prev
  · have : i = j := shUp_inj (hip.trans hjp.symm)
    rw [this]
  · rw [contract_apply_row g i j hpl hj hlV hip hjp]
    rw [contract_apply_col g j i hpl hj hlV hjp hip]
  · rw [contract_apply_col g i j hpl hi hlV hip hjp]
    rw [contract_apply_row g j i hpl hi hlV hjp hip]
  · rw [contract_apply_ne g i j hip hjp, contract_apply_ne g j i hjp hip]
    exact hs _ hiV _ hjV

theorem contract_nonneg {prev last V : ℕ} (g : Mat)
    (hpV : prev < V) (hlV : last < V) (hn : nonnegOn V g) :
    nonnegOn (V - 1) (contractMat prev last V g) := by
  intro i hi j hj
  unfold contractMat
  rw [delIdx_apply]
  exact mergeLoop_nonneg prev last V hpV hlV V g (le_refl V)
    (fun x y hx hy => hn x hx y hy) _ _ (shUp_lt hi hlV) (shUp_lt hj hlV)

/-- The cut of the original graph corresponding to a cut `T` of the
contracted graph: survivors are shifted back, and the merged vertex
`last` joins the side of `prev`. -/
def contractSet (prev last : ℕ) (T : Finset ℕ) : Finset ℕ :=
  if prev ∈ T.image (shUp last) then insert last (T.image (shUp last))
  else T.image (shUp last)

theorem image_shUp_range {V last : ℕ} (hlV : last < V) :
    (Finset.range (V - 1)).image (shUp last) = (Finset.range V).erase last := by
  ext x
  constructor
  · intro hx
    rcases Finset.mem_image.mp hx with ⟨i, hi, he⟩
    have hiV : i < V - 1 := Finset.mem_range.mp hi
    exact Finset.mem_erase.mpr ⟨he ▸ shUp_ne last i, Finset.mem_range.mpr (he ▸ shUp_lt hiV hlV)⟩
  · intro hx
    rcases Finset.mem_erase.mp hx with ⟨hne, hxV⟩
    refine Finset.mem_image.mpr ⟨shDown last x, ?_, shUp_shDown hne⟩
    exact Finset.mem_range.mpr (shDown_lt (Finset.mem_range.mp hxV) hlV hne)

theorem sum_reindex_shUp {V last : ℕ} (hlV : last < V) (f : ℕ → ℤ) :
    ∑ x ∈ (Finset.range V).erase last, f x =
    ∑ i ∈ Finset.range (V - 1), f (shUp last i) := by
  rw [← image_shUp_range hlV]
  exact Finset.sum_image (fun x _ y _ h => shUp_inj h)

theorem mem_image_shUp {last : ℕ} {T : Finset ℕ} {i : ℕ} :
    shUp last i ∈ T.image (shUp last) ↔ i ∈ T := by
  constructor
  · intro h
    rcases Finset.mem_image.mp h with ⟨x, hx, he⟩
    exact (shUp_inj he) ▸ hx
  · intro h
    exact Finset.mem_image.mpr ⟨i, h, rfl⟩

theorem last_not_mem_image {last : ℕ} {T : Finset ℕ} :
    last ∉ T.image (shUp last) := by
  intro h
  rcases Finset.mem_image.mp h with ⟨x, _, he⟩
  exact shUp_ne last x he

theorem mem_contractSet_ne {prev last x : ℕ} {T : Finset ℕ} (hx : x ≠ last) :
    x ∈ contractSet prev last T ↔ x ∈ T.image (shUp last) := by
  unfold contractSet
  split
  · rw [Finset.mem_insert]
    exact ⟨fun h => h.resolve_left hx, fun h => Or.inr h⟩
  · exact Iff.rfl

theorem mem_contractSet_last {prev last : ℕ} {T : Finset ℕ} :
    last ∈ contractSet prev last T ↔ prev ∈ T.image (shUp last) := by
  unfold contractSet
  split
  · exact ⟨fun _ => by assumption, fun _ => Finset.mem_insert_self _ _⟩
  · exact ⟨fun h => absurd h last_not_mem_image, fun h => by tauto⟩


theorem sum_ite_pull (p : Prop) [Decidable p] (E : Finset ℕ) (h : ℕ → ℤ) :
    ∑ y ∈ E, (if p then h y else 0) = if p then ∑ y ∈ E, h y else 0 := by
  split <;> simp

theorem sum_ite_eq_of_mem (E : Finset ℕ) (b : ℕ) (hb : b ∈ E) (h : ℕ → ℤ) :
    ∑ x ∈ E, (if x = b then h x else 0) = h b := by
  rw [Finset.sum_ite_eq' E b h, if_pos hb]

theorem cutVal_contract (V prev last : ℕ) (g : Mat)
    (hpV : prev < V) (hlV : last < V) (hpl : prev ≠ last) (hs : symmOn V g)
    (T : Finset ℕ) :
    cutVal (V - 1) (contractMat prev last V g) T =
    cutVal V g (contractSet prev last T) := by
  set T' := T.image (shUp last) with hT'
  set S := contractSet prev last T with hSdef
  set cM := contractMat prev last V g with hcM
  set E := (Finset.range V).erase last with hEdef
  have hprevE : prev ∈ E := Finset.mem_erase.mpr ⟨hpl, Finset.mem_range.mpr hpV⟩
  have hlastR : last ∈ Finset.range V := Finset.mem_range.mpr hlV
  have hSne : ∀ x, x ≠ last → (x ∈ S ↔ x ∈ T') := fun x hx => mem_contractSet_ne hx
  have hSlast : last ∈ S ↔ prev ∈ T' := mem_contractSet_last
  -- the three building blocks
  set A := ∑ x ∈ E, ∑ y ∈ E, crossF g T' x y with hA
  set B := ∑ y ∈ E, (if prev ∈ T' ∧ y ∉ T' then g last y else 0) with hB
  set C := ∑ x ∈ E, (if x ∈ T' ∧ prev ∉ T' then g x last else 0) with hC
  have claim1 : cutVal (V - 1) cM T = A + B + C := by
    have hpoint : ∀ i ∈ Finset.range (V - 1), ∀ j ∈ Finset.range (V - 1),
        crossF cM T i j =
          crossF g T' (shUp last i) (shUp last j) +
          (if shUp last i = prev ∧ (prev ∈ T' ∧ shUp last j ∉ T')
            then g last (shUp last j) else 0) +
          (if shUp last j = prev ∧ (shUp last i ∈ T' ∧ prev ∉ T')
            then g (shUp last i) last else 0) := by
      intro i hi j hj
      have hiV : i < V - 1 := Finset.mem_range.mp hi
      have hjV : j < V - 1 := Finset.mem_range.mp hj
      have hxV : shUp last i < V := shUp_lt hiV hlV
      have hyV : shUp last j < V := shUp_lt hjV hlV
      have hmemi : shUp last i ∈ T' ↔ i ∈ T := mem_image_shUp
      have hmemj : shUp last j ∈ T' ↔ j ∈ T := mem_image_shUp
      by_cases hcond : i ∈ T ∧ j ∉ T
      · have hxT : shUp last i ∈ T' := hmemi.mpr hcond.1
        have hyT : shUp last j ∉ T' := fun hc => hcond.2 (hmemj.mp hc)
        have hxy : shUp last i ≠ shUp last j := by
          intro hc
          exact hcond.2 ((shUp_inj hc) ▸ hcond.1)
        have hcF : crossF cM T i j = cM i j := by
          unfold crossF
          rw [if_pos hcond]
        have hcF2 : crossF g T' (shUp last i) (shUp last j) =
            g (shUp last i) (shUp last j) := by
          unfold crossF
          rw [if_pos ⟨hxT, hyT⟩]
        by_cases hip : shUp last i = prev
        · have hjp : shUp last j ≠ prev := fun hc => hxy (hip.trans hc.symm)
          rw [hcF, hcF2, hcM, contract_apply_row g i j hpl hjV hlV hip hjp]
          rw [if_pos ⟨hip, hip ▸ hxT, hyT⟩, if_neg (fun hc => hjp hc.1)]
          rw [hip]
          ring
        · by_cases hjp : shUp last j = prev
          · rw [hcF, hcF2, hcM, contract_apply_col g i j hpl hiV hlV hip hjp]
            rw [if_neg (fun hc => hip hc.1), if_pos ⟨hjp, hxT, hjp ▸ hyT⟩]
            rw [hjp]
            rw [hs prev hpV (shUp last i) hxV, hs (shUp last i) hxV last hlV]
            ring
          · rw [hcF, hcF2, hcM, contract_apply_ne g i j hip hjp]
            rw [if_neg (fun hc => hip hc.1), if_neg (fun hc => hjp hc.1)]
            ring
      · have hcF : crossF cM T i j = 0 := by
          unfold crossF
          rw [if_neg hcond]
        have hcF2 : crossF g T' (shUp last i) (shUp last j) = 0 := by
          unfold crossF
          rw [if_neg (fun hc => hcond ⟨hmemi.mp hc.1, fun hj2 => hc.2 (hmemj.mpr hj2)⟩)]
        have h2 : ¬ (shUp last i = prev ∧ (prev ∈ T' ∧ shUp last j ∉ T')) := by
          intro hc
          exact hcond ⟨hmemi.mp (hc.1 ▸ hc.2.1), fun hj2 => hc.2.2 (hmemj.mpr hj2)⟩
        have h3 : ¬ (shUp last j = prev ∧ (shUp last i ∈ T' ∧ prev ∉ T')) := by
          intro hc
          exact hcond ⟨hmemi.mp hc.2.1, fun hj2 => hc.2.2 (hc.1 ▸ hmemj.mpr hj2)⟩
        rw [hcF, hcF2, if_neg h2, if_neg h3]
        ring
    have h1 : cutVal (V - 1) cM T = ∑ i ∈ Finset.range (V - 1),
        ∑ j ∈ Finset.range (V - 1), crossF cM T i j := rfl
    rw [h1]
    rw [Finset.sum_congr rfl (fun i hi => Finset.sum_congr rfl (fun j hj => hpoint i hi j hj))]
    have hsplitj : ∀ i ∈ Finset.range (V - 1),
        (∑ j ∈ Finset.range (V - 1),
          (crossF g T' (shUp last i) (shUp last j) +
           (if shUp last i = prev ∧ (prev ∈ T' ∧ shUp last j ∉ T')
             then g last (shUp last j) else 0) +
           (if shUp last j = prev ∧ (shUp last i ∈ T' ∧ prev ∉ T')
             then g (shUp last i) last else 0))) =
        (∑ y ∈ E, crossF g T' (shUp last i) y) +
        (if shUp last i = prev then B else 0) +
        (if shUp last i ∈ T' ∧ prev ∉ T' then g (shUp last i) last else 0) := by
      intro i _
      rw [Finset.sum_add_distrib, Finset.sum_add_distrib]
      congr 1
      · congr 1
        · rw [sum_reindex_shUp hlV (fun y => crossF g T' (shUp last i) y)]
        · have hform : ∀ j, (if shUp last i = prev ∧ (prev ∈ T' ∧ shUp last j ∉ T')
              then g last (shUp last j) else 0) =
              (if shUp last i = prev then
                (if prev ∈ T' ∧ shUp last j ∉ T' then g last (shUp last j) else 0) else 0) := by
            intro j
            by_cases hip : shUp last i = prev
            · simp only [hip, true_and, if_true]
            · simp only [hip, false_and, if_false]
          rw [Finset.sum_congr rfl (fun j _ => hform j)]
          rw [sum_ite_pull (shUp last i = prev) (Finset.range (V - 1))
            (fun j => if prev ∈ T' ∧ shUp last j ∉ T' then g last (shUp last j) else 0)]
          congr 1
          rw [hB, sum_reindex_shUp hlV (fun y => if prev ∈ T' ∧ y ∉ T' then g last y else 0)]
      · have hform : ∀ j, (if shUp last j = prev ∧ (shUp last i ∈ T' ∧ prev ∉ T')
            then g (shUp last i) last else 0) =
            (if shUp last j = prev then
              (if shUp last i ∈ T' ∧ prev ∉ T' then g (shUp last i) last else 0) else 0) := by
          intro j
          by_cases hjp : shUp last j = prev
          · simp only [hjp, true_and, if_true]
          · simp only [hjp, false_and, if_false]
        rw [Finset.sum_congr rfl (fun j _ => hform j)]
        rw [← sum_reindex_shUp hlV (fun y => if y = prev then
          (if shUp last i ∈ T' ∧ prev ∉ T' then g (shUp last i) last else 0) else 0)]
        rw [sum_ite_eq_of_mem E prev hprevE
          (fun _ => if shUp last i ∈ T' ∧ prev ∉ T' then g (shUp last i) last else 0)]
    rw [Finset.sum_congr rfl hsplitj]
    rw [Finset.sum_add_distrib, Finset.sum_add_distrib]
    congr 1
    · congr 1
      · rw [hA, ← sum_reindex_shUp hlV (fun x => ∑ y ∈ E, crossF g T' x y)]
      · rw [← sum_reindex_shUp hlV (fun x => if x = prev then B else 0)]
        rw [sum_ite_eq_of_mem E prev hprevE (fun _ => B)]
    · rw [hC, ← sum_reindex_shUp hlV (fun x => if x ∈ T' ∧ prev ∉ T' then g x last else 0)]
  have claim2 : cutVal V g S = A + B + C := by
    have h1 : cutVal V g S = ∑ x ∈ Finset.range V, ∑ y ∈ Finset.range V,
        crossF g S x y := rfl
    rw [h1]
    rw [← Finset.add_sum_erase (Finset.range V) (fun x => ∑ y ∈ Finset.range V, crossF g S x y) hlastR]
    have hrow : ∑ y ∈ Finset.range V, crossF g S last y = B := by
      rw [← Finset.add_sum_erase (Finset.range V) (fun y => crossF g S last y) hlastR]
      have hz : crossF g S last last = 0 := by
        unfold crossF
        rw [if_neg (fun hc => hc.2 hc.1)]
      rw [hz, zero_add, hB]
      apply Finset.sum_congr rfl
      intro y hy
      rcases Finset.mem_erase.mp hy with ⟨hyl, _⟩
      unfold crossF
      apply if_congr _ rfl rfl
      constructor
      · intro hc
        exact ⟨hSlast.mp hc.1, fun h2 => hc.2 ((hSne y hyl).mpr h2)⟩
      · intro hc
        exact ⟨hSlast.mpr hc.1, fun h2 => hc.2 ((hSne y hyl).mp h2)⟩
    have hrest : ∑ x ∈ E, ∑ y ∈ Finset.range V, crossF g S x y = C + A := by
      have hinner : ∀ x ∈ E, ∑ y ∈ Finset.range V, crossF g S x y =
          (if x ∈ T' ∧ prev ∉ T' then g x last else 0) + ∑ y ∈ E, crossF g T' x y := by
        intro x hx
        rcases Finset.mem_erase.mp hx with ⟨hxl, _⟩
        rw [← Finset.add_sum_erase (Finset.range V) (fun y => crossF g S x y) hlastR]
        congr 1
        · unfold crossF
          apply if_congr _ rfl rfl
          constructor
          · intro hc
            exact ⟨(hSne x hxl).mp hc.1, fun h2 => hc.2 (hSlast.mpr h2)⟩
          · intro hc
            exact ⟨(hSne x hxl).mpr hc.1, fun h2 => hc.2 (hSlast.mp h2)⟩
        · apply Finset.sum_congr rfl
          intro y hy
          rcases Finset.mem_erase.mp hy with ⟨hyl, _⟩
          unfold crossF
          apply if_congr _ rfl rfl
          constructor
          · intro hc
            exact ⟨(hSne x hxl).mp hc.1, fun h2 => hc.2 ((hSne y hyl).mpr h2)⟩
          · intro hc
            exact ⟨(hSne x hxl).mpr hc.1, fun h2 => hc.2 ((hSne y hyl).mp h2)⟩
      rw [Finset.sum_congr rfl hinner, Finset.sum_add_distrib]
    rw [hrow, hrest]
    ring
  rw [claim1, claim2]

/-! ### Minimum-cut recursion -/

theorem mem_properCuts {V : ℕ} {S : Finset ℕ} :
    S ∈ properCuts V ↔ S ⊆ Finset.range V ∧ S.Nonempty ∧ S ≠ Finset.range V := by
  unfold properCuts
  rw [Finset.mem_filter, Finset.mem_powerset]

theorem properCuts_nonempty {V : ℕ} (hV : 2 ≤ V) : (properCuts V).Nonempty := by
  refine ⟨{0}, mem_properCuts.mpr ⟨?_, ⟨0, Finset.mem_singleton_self 0⟩, ?_⟩⟩
  · intro x hx
    rw [Finset.mem_singleton.mp hx]
    exact Finset.mem_range.mpr (by omega)
  · intro hc
    have h1 : (1 : ℕ) ∈ Finset.range V := Finset.mem_range.mpr (by omega)
    rw [← hc] at h1
    exact absurd (Finset.mem_singleton.mp h1) one_ne_zero

theorem minCut_le {V : ℕ} {g : Mat} {S : Finset ℕ} (hS : S ∈ properCuts V) :
    minCut V g ≤ cutVal V g S := by
  unfold minCut
  have hne : ((properCuts V).image (cutVal V g)).Nonempty := ⟨cutVal V g S, Finset.mem_image_of_mem _ hS⟩
  rw [dif_pos hne]
  exact Finset.min'_le _ _ (Finset.mem_image_of_mem _ hS)

theorem exists_minCut {V : ℕ} (g : Mat) (h : (properCuts V).Nonempty) :
    ∃ S ∈ properCuts V, minCut V g = cutVal V g S := by
  unfold minCut
  have hne : ((properCuts V).image (cutVal V g)).Nonempty := h.image _
  rw [dif_pos hne]
  rcases Finset.mem_image.mp (Finset.min'_mem _ hne) with ⟨S, hS, hSe⟩
  exact ⟨S, hS, hSe.symm⟩

theorem isolate_mem_properCuts {V last : ℕ} (hV : 2 ≤ V) (hl : last < V) :
    (Finset.range V).erase last ∈ properCuts V := by
  refine mem_properCuts.mpr ⟨Finset.erase_subset _ _, ?_, ?_⟩
  · have hcard : ((Finset.range V).erase last).card = V - 1 := by
      rw [Finset.card_erase_of_mem (Finset.mem_range.mpr hl), Finset.card_range]
    rw [← Finset.card_pos, hcard]
    omega
  · intro hc
    have h2 : last ∈ Finset.range V := Finset.mem_range.mpr hl
    rw [← hc] at h2
    exact absurd ((Finset.mem_erase.mp h2).1) (fun h3 => h3 rfl)

theorem keyW_eq_cutVal_isolate (V : ℕ) (g : Mat) (a : ℕ → ℕ)
    (h : IsMAOrder V g a) (hV : 2 ≤ V) :
    keyW g a (V - 1) (a (V - 1)) = cutVal V g ((Finset.range V).erase (a (V - 1))) := by
  set last := a (V - 1) with hlast
  have hlV : last < V := h.lt (V - 1) (by omega)
  have hlastR : last ∈ Finset.range V := Finset.mem_range.mpr hlV
  -- the image of the first V-1 order entries is exactly the complement of last
  have himg : (Finset.range (V - 1)).image a = (Finset.range V).erase last := by
    apply Finset.eq_of_subset_of_card_le
    · intro x hx
      rcases Finset.mem_image.mp hx with ⟨t, ht, hte⟩
      have htV : t < V - 1 := Finset.mem_range.mp ht
      refine Finset.mem_erase.mpr ⟨?_, Finset.mem_range.mpr (hte ▸ h.lt t (by omega))⟩
      intro hc
      have : t = V - 1 := h.inj t (by omega) (V - 1) (by omega) (by rw [hte, hc])
      omega
    · rw [Finset.card_erase_of_mem hlastR, Finset.card_range]
      rw [Finset.card_image_of_injOn, Finset.card_range]
      intro x hx y hy he
      exact h.inj x (by have := Finset.mem_range.mp hx; omega)
        y (by have := Finset.mem_range.mp hy; omega) he
  have hrhs : cutVal V g ((Finset.range V).erase last) =
      ∑ i ∈ (Finset.range V).erase last, g i last := by
    unfold cutVal
    have hinner : ∀ i ∈ Finset.range V,
        (∑ j ∈ Finset.range V,
          if i ∈ (Finset.range V).erase last ∧ j ∉ (Finset.range V).erase last
          then g i j else 0) =
        (if i ∈ (Finset.range V).erase last then g i last else 0) := by
      intro i _
      by_cases hi : i ∈ (Finset.range V).erase last
      · rw [if_pos hi]
        have hpt : ∀ j ∈ Finset.range V,
            (if i ∈ (Finset.range V).erase last ∧ j ∉ (Finset.range V).erase last
             then g i j else 0) = (if j = last then g i j else 0) := by
          intro j hj
          by_cases hjl : j = last
          · rw [if_pos hjl, if_pos ⟨hi, fun hc => (Finset.mem_erase.mp hc).1 hjl⟩]
          · rw [if_neg hjl, if_neg (fun hc => hc.2 (Finset.mem_erase.mpr ⟨hjl, hj⟩))]
        rw [Finset.sum_congr rfl hpt]
        rw [sum_ite_eq_of_mem (Finset.range V) last hlastR (fun j => g i j)]
      · rw [if_neg hi]
        apply Finset.sum_eq_zero
        intro j _
        rw [if_neg (fun hc => hi hc.1)]
    rw [Finset.sum_congr rfl hinner]
    rw [← Finset.sum_filter]
    congr 1
    apply Finset.filter_mem_eq_inter.trans
    rw [Finset.inter_eq_right.mpr (Finset.erase_subset _ _)]
  rw [hrhs, ← himg]
  rw [Finset.sum_image (fun x hx y hy he => h.inj x
    (by have := Finset.mem_range.mp hx; omega) y (by have := Finset.mem_range.mp hy; omega) he)]
  rfl

theorem contractSet_proper {V prev last : ℕ} {T : Finset ℕ}
    (hpV : prev < V) (hlV : last < V)
    (hT : T ∈ properCuts (V - 1)) :
    contractSet prev last T ∈ properCuts V := by
  rcases mem_properCuts.mp hT with ⟨hsub, hne, hneq⟩
  have hT'sub : T.image (shUp last) ⊆ (Finset.range V).erase last := by
    intro x hx
    rcases Finset.mem_image.mp hx with ⟨i, hi, he⟩
    have hiV : i < V - 1 := Finset.mem_range.mp (hsub hi)
    exact Finset.mem_erase.mpr ⟨he ▸ shUp_ne last i,
      Finset.mem_range.mpr (he ▸ shUp_lt hiV hlV)⟩
  refine mem_properCuts.mpr ⟨?_, ?_, ?_⟩
  · intro x hx
    by_cases hxl : x = last
    · exact Finset.mem_range.mpr (hxl ▸ hlV)
    · have := (mem_contractSet_ne hxl).mp hx
      exact (Finset.mem_erase.mp (hT'sub this)).2
  · rcases hne with ⟨w, hw⟩
    refine ⟨shUp last w, ?_⟩
    rw [mem_contractSet_ne (shUp_ne last w)]
    exact mem_image_shUp.mpr hw
  · intro hc
    rcases Finset.exists_of_ssubset (hsub.ssubset_of_ne hneq) with ⟨w, hw1, hw2⟩
    have hwV : w < V - 1 := Finset.mem_range.mp hw1
    have hz1 : shUp last w ∈ Finset.range V := Finset.mem_range.mpr (shUp_lt hwV hlV)
    rw [← hc] at hz1
    rw [mem_contractSet_ne (shUp_ne last w)] at hz1
    exact hw2 (mem_image_shUp.mp hz1)

theorem uncontract_eq {prev last : ℕ} {S : Finset ℕ} (hpl : prev ≠ last)
    (hnonsep : last ∈ S ↔ prev ∈ S) :
    contractSet prev last ((S.erase last).image (shDown last)) = S := by
  have himg : ((S.erase last).image (shDown last)).image (shUp last) = S.erase last := by
    rw [Finset.image_image]
    have hcong : ∀ y ∈ S.erase last, (shUp last ∘ shDown last) y = id y := by
      intro y hy
      exact shUp_shDown (Finset.mem_erase.mp hy).1
    rw [Finset.image_congr hcong, Finset.image_id]
  unfold contractSet
  rw [himg]
  by_cases hp : prev ∈ S
  · have hpe : prev ∈ S.erase last := Finset.mem_erase.mpr ⟨hpl, hp⟩
    rw [if_pos hpe]
    exact Finset.insert_erase (hnonsep.mpr hp)
  · have hpe : prev ∉ S.erase last := fun hc => hp (Finset.mem_erase.mp hc).2
    rw [if_neg hpe]
    exact Finset.erase_eq_of_not_mem (fun hc => hp (hnonsep.mp hc))

theorem uncontract_proper {V prev last : ℕ} {S : Finset ℕ} (hpl : prev ≠ last)
    (hpV : prev < V) (hlV : last < V)
    (hS : S ∈ properCuts V) (hnonsep : last ∈ S ↔ prev ∈ S) :
    (S.erase last).image (shDown last) ∈ properCuts (V - 1) := by
  rcases mem_properCuts.mp hS with ⟨hsub, hne, hneq⟩
  refine mem_properCuts.mpr ⟨?_, ?_, ?_⟩
  · intro x hx
    rcases Finset.mem_image.mp hx with ⟨y, hy, he⟩
    rcases Finset.mem_erase.mp hy with ⟨hyl, hyS⟩
    have hyV : y < V := Finset.mem_range.mp (hsub hyS)
    exact Finset.mem_range.mpr (he ▸ shDown_lt hyV hlV hyl)
  · have herase : (S.erase last).Nonempty := by
      by_cases hl : last ∈ S
      · exact ⟨prev, Finset.mem_erase.mpr ⟨hpl, hnonsep.mp hl⟩⟩
      · rw [Finset.erase_eq_of_not_mem hl]
        exact hne
    exact herase.image _
  · intro hc
    have hSeq : S = Finset.range V := by
      have := uncontract_eq hpl hnonsep
      rw [hc] at this
      rw [← this]
      unfold contractSet
      rw [image_shUp_range hlV]
      have hprevE : prev ∈ (Finset.range V).erase last :=
        Finset.mem_erase.mpr ⟨hpl, Finset.mem_range.mpr hpV⟩
      rw [if_pos hprevE]
      exact Finset.insert_erase (Finset.mem_range.mpr hlV)
    exact hneq hSeq

theorem minCut_phase_step (V : ℕ) (g : Mat) (hV : 3 ≤ V)
    (hs : symmOn V g) (hn : nonnegOn V g) (a : ℕ → ℕ) (hMA : IsMAOrder V g a) :
    minCut V g = min (keyW g a (V - 1) (a (V - 1)))
      (minCut (V - 1) (contractMat (a (V - 2)) (a (V - 1)) V g)) := by
  set prev := a (V - 2) with hprev
  set last := a (V - 1) with hlast
  have hpV : prev < V := hMA.lt (V - 2) (by omega)
  have hlV : last < V := hMA.lt (V - 1) (by omega)
  have hpl : prev ≠ last := by
    intro hc
    have : V - 2 = V - 1 := hMA.inj (V - 2) (by omega) (V - 1) (by omega) hc
    omega
  set cM := contractMat prev last V g with hcM
  have hiso : keyW g a (V - 1) last = cutVal V g ((Finset.range V).erase last) :=
    keyW_eq_cutVal_isolate V g a hMA (by omega)
  apply le_antisymm
  · apply le_min
    · rw [hiso]
      exact minCut_le (isolate_mem_properCuts (by omega) hlV)
    · rcases exists_minCut cM (properCuts_nonempty (by omega : 2 ≤ V - 1)) with ⟨T, hT, hTe⟩
      rw [hTe, cutVal_contract V prev last g hpV hlV hpl hs T]
      exact minCut_le (contractSet_proper hpV hlV hT)
  · rcases exists_minCut g (properCuts_nonempty (by omega : 2 ≤ V)) with ⟨S, hS, hSe⟩
    rw [hSe]
    by_cases hsep : (last ∈ S) ↔ (prev ∈ S)
    · -- the minimising cut does not separate prev and last: it survives contraction
      have hT := uncontract_proper hpl hpV hlV hS hsep
      have he := uncontract_eq hpl hsep
      have hval : cutVal V g S = cutVal (V - 1) cM ((S.erase last).image (shDown last)) := by
        rw [cutVal_contract V prev last g hpV hlV hpl hs, he]
      rw [hval]
      exact le_trans (min_le_right _ _) (minCut_le hT)
    · -- the minimising cut separates prev and last: bounded by the phase key
      have hkey := ma_key V g S a hs hn hMA (by omega) hsep
      exact le_trans (min_le_left _ _) hkey

theorem minCut_two (g : Mat) (hs : symmOn 2 g) (a : ℕ → ℕ) (hMA : IsMAOrder 2 g a) :
    minCut 2 g = keyW g a 1 (a 1) := by
  have ha0 : a 0 = 0 := hMA.start
  have ha1 : a 1 = 1 := by
    have h1 : a 1 < 2 := hMA.lt 1 (by omega)
    have hne : a 1 ≠ 0 := by
      intro hc
      have : (1 : ℕ) = 0 := hMA.inj 1 (by omega) 0 (by omega) (by rw [hc, ha0])
      omega
    omega
  have hkey : keyW g a 1 (a 1) = g 0 1 := by
    unfold keyW
    rw [Finset.sum_range_one, ha0, ha1]
  have hc0 : cutVal 2 g {0} = g 0 1 := by
    unfold cutVal
    simp [Finset.sum_range_succ]
  have hc1 : cutVal 2 g {1} = g 0 1 := by
    unfold cutVal
    simp [Finset.sum_range_succ]
    exact hs 1 (by omega) 0 (by omega)
  rw [hkey]
  apply le_antisymm
  · have h0 : ({0} : Finset ℕ) ∈ properCuts 2 := by
      refine mem_properCuts.mpr ⟨?_, ⟨0, Finset.mem_singleton_self 0⟩, ?_⟩
      · intro x hx
        rw [Finset.mem_singleton.mp hx]
        exact Finset.mem_range.mpr (by omega)
      · intro hc
        have h1 : (1 : ℕ) ∈ Finset.range 2 := Finset.mem_range.mpr (by omega)
        rw [← hc] at h1
        exact absurd (Finset.mem_singleton.mp h1) one_ne_zero
    have := minCut_le (g := g) h0
    rw [hc0] at this
    exact this
  · rcases exists_minCut g (properCuts_nonempty (by omega : 2 ≤ 2)) with ⟨S, hS, hSe⟩
    rcases mem_properCuts.mp hS with ⟨hsub, hne, hneq⟩
    have hScases : S = {0} ∨ S = {1} := by
      have hmem : ∀ x ∈ S, x = 0 ∨ x = 1 := by
        intro x hx
        have := Finset.mem_range.mp (hsub hx)
        omega
      by_cases h0 : 0 ∈ S <;> by_cases h1 : 1 ∈ S
      · exfalso
        apply hneq
        apply Finset.eq_of_subset_of_card_le hsub
        have : ({0, 1} : Finset ℕ) ⊆ S := by
          intro x hx
          rcases Finset.mem_insert.mp hx with h | h
          · rw [h]; exact h0
          · rw [Finset.mem_singleton.mp h]; exact h1
        have hcard : ({0, 1} : Finset ℕ).card ≤ S.card := Finset.card_le_card this
        simpa using hcard
      · left
        apply Finset.ext
        intro x
        constructor
        · intro hx
          rcases hmem x hx with h | h
          · rw [h]; exact Finset.mem_singleton_self 0
          · exact absurd (h ▸ hx) h1
        · intro hx
          rw [Finset.mem_singleton.mp hx]
          exact h0
      · right
        apply Finset.ext
        intro x
        constructor
        · intro hx
          rcases hmem x hx with h | h
          · exact absurd (h ▸ hx) h0
          · rw [h]; exact Finset.mem_singleton_self 1
        · intro hx
          rw [Finset.mem_singleton.mp hx]
          exact h1
      · exfalso
        rcases hne with ⟨w, hw⟩
        rcases hmem w hw with h | h
        · exact h0 (h ▸ hw)
        · exact h1 (h ▸ hw)
    rw [hSe]
    rcases hScases with h | h
    · rw [h, hc0]
    · rw [h, hc1]

/-! ### The linear-scan phase implements a maximum-adjacency order -/

namespace SWLin

theorem stepPhase_added (V : ℕ) (g : Mat) (s : PhaseState) (i : ℕ) :
    (stepPhase V g s).added i =
      if i = (scanLoop s.added s.wt V (-1, -1)).1.toNat then true else s.added i := rfl

theorem stepPhase_wt (V : ℕ) (g : Mat) (s : PhaseState) (i : ℕ) :
    (stepPhase V g s).wt i =
      if i < V ∧ (stepPhase V g s).added i = false
      then s.wt i + g ((scanLoop s.added s.wt V (-1, -1)).1.toNat) i
      else s.wt i := rfl

theorem stepPhase_prev (V : ℕ) (g : Mat) (s : PhaseState) :
    (stepPhase V g s).prev = s.last := rfl

theorem stepPhase_last (V : ℕ) (g : Mat) (s : PhaseState) :
    (stepPhase V g s).last = (scanLoop s.added s.wt V (-1, -1)).1 := rfl

theorem scanLoop_le_snd (added : ℕ → Bool) (wt : ℕ → ℤ) :
    ∀ n st, st.2 ≤ (scanLoop added wt n st).2 := by
  intro n
  induction n with
  | zero => intro st; exact le_refl _
  | succ n ih =>
      intro st
      show st.2 ≤ (if wt n > (scanLoop added wt n st).2 ∧ added n = false
        then ((n : ℤ), wt n) else scanLoop added wt n st).2
      split
      · rename_i hcond
        exact le_of_lt (lt_of_le_of_lt (ih st) hcond.1)
      · exact ih st

theorem scanLoop_ub (added : ℕ → Bool) (wt : ℕ → ℤ) :
    ∀ n st j, j < n → added j = false → wt j ≤ (scanLoop added wt n st).2 := by
  intro n
  induction n with
  | zero => intro st j hj; omega
  | succ n ih =>
      intro st j hj hja
      show wt j ≤ (if wt n > (scanLoop added wt n st).2 ∧ added n = false
        then ((n : ℤ), wt n) else scanLoop added wt n st).2
      by_cases hjn : j = n
      · subst hjn
        split
        · exact le_refl _
        · rename_i hcond
          rw [Classical.not_and_iff_or_not_not] at hcond
          rcases hcond with h | h
          · exact le_of_not_lt h
          · exact absurd hja h
      · have hj' : j < n := by omega
        split
        · rename_i hcond
          exact le_of_lt (lt_of_le_of_lt (ih st j hj' hja) hcond.1)
        · exact ih st j hj' hja

theorem scanLoop_cases (added : ℕ → Bool) (wt : ℕ → ℤ) :
    ∀ n st, scanLoop added wt n st = st ∨
      ∃ m, m < n ∧ added m = false ∧ scanLoop added wt n st = ((m : ℤ), wt m) := by
  intro n
  induction n with
  | zero => intro st; exact Or.inl rfl
  | succ n ih =>
      intro st
      have hstep : scanLoop added wt (n + 1) st =
          (if wt n > (scanLoop added wt n st).2 ∧ added n = false
           then ((n : ℤ), wt n) else scanLoop added wt n st) := rfl
      rw [hstep]
      split
      · rename_i hcond
        exact Or.inr ⟨n, by omega, hcond.2, rfl⟩
      · rcases ih st with h | ⟨m, hm, hma, hme⟩
        · exact Or.inl h
        · exact Or.inr ⟨m, by omega, hma, hme⟩

theorem scan_spec (added : ℕ → Bool) (wt : ℕ → ℤ) (V : ℕ)
    (hex : ∃ i, i < V ∧ added i = false ∧ -1 < wt i) :
    ∃ m, m < V ∧ added m = false ∧
      scanLoop added wt V (-1, -1) = ((m : ℤ), wt m) ∧
      ∀ j, j < V → added j = false → wt j ≤ wt m := by
  rcases hex with ⟨i, hi, hia, hiw⟩
  rcases scanLoop_cases added wt V (-1, -1) with h | ⟨m, hm, hma, hme⟩
  · exfalso
    have := scanLoop_ub added wt V (-1, -1) i hi hia
    rw [h] at this
    exact absurd (lt_of_lt_of_le hiw this) (lt_irrefl _)
  · refine ⟨m, hm, hma, hme, ?_⟩
    intro j hj hja
    have := scanLoop_ub added wt V (-1, -1) j hj hja
    rw [hme] at this
    exact this

/-- The order in which the linear-scan phase adds the vertices:
`ord V g k` is the vertex recorded in `last` after `k` loop iterations. -/
def ord (V : ℕ) (g : Mat) (k : ℕ) : ℕ := (phaseRun V g k).last.toNat

/-- Loop invariant of the linear-scan phase after `k` iterations. -/
structure PInv (V : ℕ) (g : Mat) (k : ℕ) (s : PhaseState) : Prop where
  hadded : ∀ i, s.added i = true ↔ ∃ t, t ≤ k ∧ ord V g t = i
  hlt : ∀ t, t ≤ k → ord V g t < V
  hinj : ∀ t, t ≤ k → ∀ u, u ≤ k → ord V g t = ord V g u → t = u
  hwt : ∀ i, i < V → s.added i = false → s.wt i = keyW g (ord V g) (k + 1) i
  hwtadd : ∀ t, t ≤ k → 1 ≤ t → s.wt (ord V g t) = keyW g (ord V g) t (ord V g t)
  hwtout : ∀ i, ¬ (i < V) → s.wt i = 0
  hlast : s.last = ((ord V g k : ℕ) : ℤ)
  hprev : 1 ≤ k → s.prev = ((ord V g (k - 1) : ℕ) : ℤ)
  hmax : ∀ t, t ≤ k → 1 ≤ t → ∀ m, m < V → (∀ u, u < t → ord V g u ≠ m) →
    keyW g (ord V g) t m ≤ keyW g (ord V g) t (ord V g t)

theorem ord_zero (V : ℕ) (g : Mat) : ord V g 0 = 0 := rfl

theorem phase_inv (V : ℕ) (g : Mat) (hV : 2 ≤ V) (hs : symmOn V g) (hn : nonnegOn V g) :
    ∀ k, k ≤ V - 1 → PInv V g k (phaseRun V g k) := by
  intro k
  induction k with
  | zero =>
      intro _
      refine ⟨?_, ?_, ?_, ?_, ?_, ?_, ?_, ?_, ?_⟩
      · intro i
        show (if i = 0 then true else false) = true ↔ _
        constructor
        · intro h
          split at h
          · exact ⟨0, le_refl 0, by rw [ord_zero]; omega⟩
          · exact absurd h (by simp)
        · intro ⟨t, ht, hte⟩
          have ht0 : t = 0 := Nat.le_zero.mp ht
          rw [ht0, ord_zero] at hte
          rw [if_pos hte.symm]
      · intro t ht
        rw [Nat.le_zero.mp ht, ord_zero]
        omega
      · intro t ht u hu _
        rw [Nat.le_zero.mp ht, Nat.le_zero.mp hu]
      · intro i hi hia
        show (if i < V then g i 0 else 0) = _
        rw [if_pos hi]
        unfold keyW
        rw [Finset.sum_range_one, ord_zero]
        exact hs i hi 0 (by omega)
      · intro t ht h1
        omega
      · intro i hi
        show (if i < V then g i 0 else 0) = 0
        rw [if_neg hi]
      · show (0 : ℤ) = ((ord V g 0 : ℕ) : ℤ)
        rw [ord_zero]
        rfl
      · intro h
        omega
      · intro t ht h1
        omega
  | succ k ih =>
      intro hk1
      have hk : k ≤ V - 1 := by omega
      have hI := ih hk
      set s := phaseRun V g k with hsdef
      -- the added set so far has k + 1 < V elements, so an un-added vertex exists
      have hex : ∃ i, i < V ∧ s.added i = false ∧ -1 < s.wt i := by
        have hsub : (Finset.range V).filter (fun i => s.added i = true) ⊆
            (Finset.range (k + 1)).image (ord V g) := by
          intro i hi
          rcases Finset.mem_filter.mp hi with ⟨_, hadd⟩
          rcases (hI.hadded i).mp hadd with ⟨t, ht, hte⟩
          exact Finset.mem_image.mpr ⟨t, Finset.mem_range.mpr (by omega), hte⟩
        have hcard : ((Finset.range V).filter (fun i => s.added i = true)).card ≤ k + 1 := by
          calc ((Finset.range V).filter (fun i => s.added i = true)).card
              ≤ ((Finset.range (k + 1)).image (ord V g)).card := Finset.card_le_card hsub
            _ ≤ (Finset.range (k + 1)).card := Finset.card_image_le
            _ = k + 1 := Finset.card_range _
        have hlt : ((Finset.range V).filter (fun i => s.added i = true)).card <
            (Finset.range V).card := by
          rw [Finset.card_range]
          omega
        have hne2 : (Finset.range V).filter (fun i => s.added i = true) ≠ Finset.range V := by
          intro hc
          rw [hc, Finset.card_range] at hcard
          omega
        have hss : (Finset.range V).filter (fun i => s.added i = true) ⊂ Finset.range V :=
          Finset.ssubset_iff_subset_ne.mpr ⟨Finset.filter_subset _ _, hne2⟩
        rcases Finset.exists_of_ssubset hss with ⟨i, hi, hni⟩
        have hiV : i < V := Finset.mem_range.mp hi
        have hia : s.added i = false := by
          by_contra hb
          rw [Bool.not_eq_false] at hb
          exact hni (Finset.mem_filter.mpr ⟨hi, hb⟩)
        refine ⟨i, hiV, hia, ?_⟩
        rw [hI.hwt i hiV hia]
        have : (0 : ℤ) ≤ keyW g (ord V g) (k + 1) i := by
          apply Finset.sum_nonneg
          intro t ht
          exact hn _ (hI.hlt t (by have := Finset.mem_range.mp ht; omega)) i hiV
        omega
      rcases scan_spec s.added s.wt V hex with ⟨m, hmV, hma, hscan, hmaxw⟩
      have hance : phaseRun V g (k + 1) = stepPhase V g s := by
        rw [hsdef]
        exact Function.iterate_succ_apply' _ _ _
      have hordk1 : ord V g (k + 1) = m := by
        unfold ord
        rw [hance, stepPhase_last, hscan]
        exact Int.toNat_natCast m
      have hmtv : (scanLoop s.added s.wt V (-1, -1)).1.toNat = m := by
        rw [hscan]
        exact Int.toNat_natCast m
      -- previously added vertices stay added and distinct from m
      have holdadded : ∀ t, t ≤ k → s.added (ord V g t) = true :=
        fun t ht => (hI.hadded _).mpr ⟨t, ht, rfl⟩
      have hmne : ∀ t, t ≤ k → ord V g t ≠ m := by
        intro t ht hc
        have h2 := holdadded t ht
        rw [hc] at h2
        rw [h2] at hma
        exact absurd hma (by simp)
      refine ⟨?_, ?_, ?_, ?_, ?_, ?_, ?_, ?_, ?_⟩
      · intro i
        rw [hance, stepPhase_added, hmtv]
        constructor
        · intro h
          split at h
          · rename_i him
            exact ⟨k + 1, le_refl _, by rw [hordk1, him]⟩
          · rcases (hI.hadded i).mp h with ⟨t, ht, hte⟩
            exact ⟨t, by omega, hte⟩
        · intro ⟨t, ht, hte⟩
          by_cases him : i = m
          · rw [if_pos him]
          · rw [if_neg him]
            have htk : t ≤ k := by
              rcases Nat.lt_or_ge t (k + 1) with h | h
              · omega
              · exfalso
                have : t = k + 1 := by omega
                rw [this, hordk1] at hte
                exact him hte.symm
            exact (hI.hadded i).mpr ⟨t, htk, hte⟩
      · intro t ht
        rcases Nat.lt_or_ge t (k + 1) with h | h
        · exact hI.hlt t (by omega)
        · have : t = k + 1 := by omega
          rw [this, hordk1]
          exact hmV
      · intro t ht u hu hte
        rcases Nat.lt_or_ge t (k + 1) with h1 | h1 <;> rcases Nat.lt_or_ge u (k + 1) with h2 | h2
        · exact hI.hinj t (by omega) u (by omega) hte
        · exfalso
          have hu1 : u = k + 1 := by omega
          rw [hu1, hordk1] at hte
          exact hmne t (by omega) hte
        · exfalso
          have ht1 : t = k + 1 := by omega
          rw [ht1, hordk1] at hte
          exact hmne u (by omega) hte.symm
        · omega
      · intro i hi hia
        rw [hance] at hia
        rw [hance, stepPhase_wt, hmtv]
        rw [if_pos ⟨hi, hia⟩]
        have hsia : s.added i = false := by
          rw [stepPhase_added, hmtv] at hia
          split at hia
          · exact absurd hia (by simp)
          · exact hia
        rw [hI.hwt i hi hsia]
        unfold keyW
        rw [Finset.sum_range_succ (fun t => g (ord V g t) i) (k + 1)]
        rw [hordk1]
      · intro t ht h1
        rw [hance, stepPhase_wt, hmtv]
        rcases Nat.lt_or_ge t (k + 1) with h | h
        · have htk : t ≤ k := by omega
          have haddt : (stepPhase V g s).added (ord V g t) = true := by
            rw [stepPhase_added, hmtv]
            split
            · rfl
            · exact holdadded t htk
          rw [if_neg (fun hc => by rw [haddt] at hc; exact absurd hc.2 (by simp))]
          exact hI.hwtadd t htk h1
        · have ht1 : t = k + 1 := by omega
          have haddm : (stepPhase V g s).added (ord V g t) = true := by
            rw [stepPhase_added, hmtv, ht1, hordk1, if_pos rfl]
          rw [if_neg (fun hc => by rw [haddm] at hc; exact absurd hc.2 (by simp))]
          rw [ht1, hordk1]
          rw [hI.hwt m hmV hma]
      · intro i hi
        rw [hance, stepPhase_wt, hmtv]
        rw [if_neg (fun hc => hi hc.1)]
        exact hI.hwtout i hi
      · rw [hance, stepPhase_last, hscan, hordk1]
      · intro _
        rw [hance, stepPhase_prev, hI.hlast]
        have : k + 1 - 1 = k := by omega
        rw [this]
      · intro t ht h1 mm hmm hnotm
        rcases Nat.lt_or_ge t (k + 1) with h | h
        · exact hI.hmax t (by omega) h1 mm hmm hnotm
        · have ht1 : t = k + 1 := by omega
          subst ht1
          rw [hordk1]
          have hmm_unadded : s.added mm = false := by
            by_contra hb
            rw [Bool.not_eq_false] at hb
            rcases (hI.hadded mm).mp hb with ⟨u, hu, hue⟩
            exact hnotm u (by omega) hue
          have h1' : s.wt mm = keyW g (ord V g) (k + 1) mm := hI.hwt mm hmm hmm_unadded
          have h2' : s.wt m = keyW g (ord V g) (k + 1) m := hI.hwt m hmV hma
          have := hmaxw mm hmm hmm_unadded
          rw [h1', h2'] at this
          exact this

end SWLin

namespace SWLin

theorem phase_ma (V : ℕ) (g : Mat) (hV : 2 ≤ V) (hs : symmOn V g) (hn : nonnegOn V g) :
    IsMAOrder V g (ord V g) ∧
    (phaseRun V g (V - 1)).last = ((ord V g (V - 1) : ℕ) : ℤ) ∧
    (phaseRun V g (V - 1)).prev = ((ord V g (V - 2) : ℕ) : ℤ) ∧
    (phaseRun V g (V - 1)).wt (ord V g (V - 1)) =
      keyW g (ord V g) (V - 1) (ord V g (V - 1)) := by
  have hI := phase_inv V g hV hs hn (V - 1) (le_refl _)
  refine ⟨⟨ord_zero V g, ?_, ?_, ?_⟩, hI.hlast, ?_, ?_⟩
  · intro k hk
    exact hI.hlt k (by omega)
  · intro k hk l hl he
    exact hI.hinj k (by omega) l (by omega) he
  · intro k h1 hk m hm hnot
    exact hI.hmax k (by omega) h1 m hm hnot
  · have hp := hI.hprev (by omega)
    have he : V - 1 - 1 = V - 2 := by omega
    rw [hp, he]
  · exact hI.hwtadd (V - 1) (le_refl _) (by omega)

theorem swLoop_eq : ∀ V (g : Mat) (mc : ℤ), 2 ≤ V → symmOn V g → nonnegOn V g →
    (swLoop V g mc).1 = min mc (minCut V g) := by
  intro V
  induction V using Nat.strong_induction_on with
  | _ V IH =>
    intro g mc hV hs hn
    obtain ⟨W, rfl⟩ : ∃ W, V = W + 2 := ⟨V - 2, by omega⟩
    obtain ⟨hMA, hlast, hprev, hwt⟩ := phase_ma (W + 2) g (by omega) hs hn
    set s := phaseRun (W + 2) g (W + 1) with hsdef
    have hltn : s.last.toNat = ord (W + 2) g (W + 1) := by
      rw [show s.last = ((ord (W + 2) g (W + 1) : ℕ) : ℤ) from hlast]
      exact Int.toNat_natCast _
    have hptn : s.prev.toNat = ord (W + 2) g W := by
      rw [show s.prev = ((ord (W + 2) g W : ℕ) : ℤ) from hprev]
      exact Int.toNat_natCast _
    have hcand : s.wt s.last.toNat = keyW g (ord (W + 2) g) (W + 1) (ord (W + 2) g (W + 1)) := by
      rw [hltn]
      exact hwt
    have hstep : swLoop (W + 2) g mc =
        swLoop (W + 1)
          (delIdx s.last.toNat (mergeLoop s.prev.toNat s.last.toNat (W + 2) g))
          (min mc (s.wt s.last.toNat)) := rfl
    have hmat : delIdx s.last.toNat (mergeLoop s.prev.toNat s.last.toNat (W + 2) g) =
        contractMat (ord (W + 2) g W) (ord (W + 2) g (W + 1)) (W + 2) g := by
      rw [hltn, hptn]
      rfl
    have hpl : ord (W + 2) g W ≠ ord (W + 2) g (W + 1) := by
      intro hc
      have : W = W + 1 := hMA.inj W (by omega) (W + 1) (by omega) hc
      omega
    have hpV : ord (W + 2) g W < W + 2 := hMA.lt W (by omega)
    have hlV : ord (W + 2) g (W + 1) < W + 2 := hMA.lt (W + 1) (by omega)
    rcases Nat.eq_zero_or_pos W with hW0 | hWpos
    · subst hW0
      rw [hstep]
      have hres : (swLoop 1
          (delIdx s.last.toNat (mergeLoop s.prev.toNat s.last.toNat 2 g))
          (min mc (s.wt s.last.toNat))).1 = min mc (s.wt s.last.toNat) := rfl
      rw [hres, hcand]
      rw [minCut_two g hs (ord 2 g) hMA]
    · rw [hstep, hmat]
      have hsym' : symmOn (W + 1) (contractMat (ord (W + 2) g W) (ord (W + 2) g (W + 1)) (W + 2) g) :=
        contract_symm g hpl hpV hlV hs
      have hnn' : nonnegOn (W + 1) (contractMat (ord (W + 2) g W) (ord (W + 2) g (W + 1)) (W + 2) g) :=
        contract_nonneg g hpV hlV hn
      rw [IH (W + 1) (by omega) _ _ (by omega) hsym' hnn']
      have hrec := minCut_phase_step (W + 2) g (by omega) hs hn (ord (W + 2) g) hMA
      rw [hcand]
      rw [show (W + 2 : ℕ) - 1 = W + 1 from rfl] at hrec
      rw [show (W + 2 : ℕ) - 2 = W from rfl] at hrec
      rw [hrec]
      rw [min_assoc]

/-- The linear-scan engine of `stoer_wagner.cpp` returns exactly
`min INT_MAX (minCut V g)` on symmetric non-negative inputs with `V ≥ 2`,
and `INT_MAX` when `V < 2`. -/
theorem stoer_wagner_exact (V : ℕ) (g : Mat) (hV : 2 ≤ V)
    (hs : symmOn V g) (hn : nonnegOn V g) :
    (stoer_wagner V g).1 = min INT_MAX (minCut V g) := by
  unfold stoer_wagner
  exact swLoop_eq V g INT_MAX hV hs hn

end SWLin

/-! ### The priority-queue variant (`stoer_wagner_pq.cpp`) -/

namespace SWPQ

/-- The `std::pair<int,int>` ordering used by `priority_queue<pair<int,int>>`:
lexicographic on (weight, vertex). -/
def pLe (p q : ℤ × ℕ) : Prop := p.1 < q.1 ∨ (p.1 = q.1 ∧ p.2 ≤ q.2)

instance (p q : ℤ × ℕ) : Decidable (pLe p q) := by
  unfold pLe
  infer_instance

/-- Maximum entry of the queue contents, mirroring which element
`priority_queue::top()` yields.  The queue is modelled as the multiset of
its entries (a list); equal pairs are indistinguishable, so taking the
lexicographic maximum reproduces the heap's behaviour exactly. -/
def pqMaxAux : (ℤ × ℕ) → List (ℤ × ℕ) → (ℤ × ℕ)
  | m, [] => m
  | m, p :: rest => pqMaxAux (if pLe m p then p else m) rest

/-- One `top(); pop()` on the queue: returns the maximal entry and the
remaining entries. -/
def popMax (l : List (ℤ × ℕ)) : Option ((ℤ × ℕ) × List (ℤ × ℕ)) :=
  match l with
  | [] => none
  | p :: rest =>
      let m := pqMaxAux p rest
      some (m, (p :: rest).erase m)

/-- The lazy-deletion loop of `stoer_wagner_pq.cpp`: pop until an entry
whose vertex is not yet added appears (returning it and the remaining
queue), or the queue runs empty (returning `none`, the `mosttightvertex
== -1` case).  The fuel is the queue length, which bounds the number of
pops. -/
def popValid (added : ℕ → Bool) : ℕ → List (ℤ × ℕ) → Option (ℕ × List (ℤ × ℕ))
  | 0, _ => none
  | fuel + 1, l =>
      match popMax l with
      | none => none
      | some (m, l') =>
          if added m.2 = false then some (m.2, l') else popValid added fuel l'

/-- The initialisation loop of the phase: for `i = 1, …, n-1`,
`weight[i] += G[0][i]; pq.push({weight[i], i})`. -/
def initLoop (V : ℕ) (g : Mat) : ℕ → (ℕ → ℤ) × List (ℤ × ℕ)
  | 0 => (fun _ => 0, [])
  | n + 1 =>
      let p := initLoop V g n
      if n ≠ 0 then
        (fun i => if i = n then p.1 n + g 0 n else p.1 i, (p.1 n + g 0 n, n) :: p.2)
      else p

/-- The weight-update loop after adding `mtv`: for each not-yet-added
`i < n`, `weight[i] += G[mtv][i]; pq.push({weight[i], i})`. -/
def pushLoop (g : Mat) (mtv : ℕ) (added : ℕ → Bool) :
    ℕ → (ℕ → ℤ) → List (ℤ × ℕ) → (ℕ → ℤ) × List (ℤ × ℕ)
  | 0, wt, pq => (wt, pq)
  | n + 1, wt, pq =>
      let p := pushLoop g mtv added n wt pq
      if added n = false then
        (fun i => if i = n then p.1 n + g mtv n else p.1 i, (p.1 n + g mtv n, n) :: p.2)
      else p

/-- State of one phase of the priority-queue variant. -/
structure PQState where
  added : ℕ → Bool
  wt : ℕ → ℤ
  prev : ℤ
  last : ℤ
  pq : List (ℤ × ℕ)
  unadded : ℕ

/-- Initial phase state: vertex `0` added, weights and queue from the
initialisation loop, `prev = -1`, `last = 0`, `unadded = V - 1`. -/
def initPQ (V : ℕ) (g : Mat) : PQState :=
  ⟨fun i => if i = 0 then true else false,
   (initLoop V g V).1, -1, 0, (initLoop V g V).2, V - 1⟩

/-- One iteration of the `while (unadded > 0)` loop: pop a valid vertex
(lazy deletion); if none exists the state is left unchanged (the loop
breaks with `mosttightvertex == -1`), otherwise the vertex is added and
the weights updated and re-pushed. -/
def stepPQ (V : ℕ) (g : Mat) (s : PQState) : PQState :=
  match popValid s.added s.pq.length s.pq with
  | none => s
  | some (mtv, pq') =>
      let added' := fun i => if i = mtv then true else s.added i
      let p := pushLoop g mtv added' V s.wt pq'
      ⟨added', p.1, s.last, (mtv : ℤ), p.2, s.unadded - 1⟩

/-- The phase state after `k` iterations of the inner loop; the loop of
`stoer_wagner_pq.cpp` makes `V - 1` successful iterations unless it
breaks early. -/
def pqPhaseRun (V : ℕ) (g : Mat) (k : ℕ) : PQState :=
  (stepPQ V g)^[k] (initPQ V g)

/-- The outer `while (V > 1)` loop of `stoer_wagner_pq.cpp`: the phase
result is only used as a cut candidate when `unadded == 0`, and the loop
breaks when `prev == -1`; otherwise `last` is merged into `prev` and the
matrix shrunk, exactly as in the linear variant. -/
def swLoopPQ : ℕ → Mat → ℤ → ℤ
  | 0, _, mc => mc
  | 1, _, mc => mc
  | V + 2, g, mc =>
      let s := pqPhaseRun (V + 2) g (V + 1)
      let mc' := if s.unadded = 0 then min mc (s.wt s.last.toNat) else mc
      if s.prev = -1 then mc'
      else swLoopPQ (V + 1) (contractMat s.prev.toNat s.last.toNat (V + 2) g) mc'

/-- The function `stoer_wagner` of `stoer_wagner_pq.cpp`.  It copies the
caller's matrix (`vector<vector<int>> G = G_mat;`) and mutates only the
copy, so the caller's matrix is returned unchanged. -/
def stoer_wagner (V : ℕ) (g_mat : Mat) : ℤ × Mat :=
  (swLoopPQ V g_mat INT_MAX, g_mat)

end SWPQ

namespace SWPQ

theorem pLe_refl (p : ℤ × ℕ) : pLe p p := Or.inr ⟨rfl, le_refl _⟩

theorem pLe_trans {p q r : ℤ × ℕ} (h1 : pLe p q) (h2 : pLe q r) : pLe p r := by
  unfold pLe at h1 h2 ⊢
  rcases h1 with h1 | ⟨h1a, h1b⟩ <;> rcases h2 with h2 | ⟨h2a, h2b⟩
  · exact Or.inl (lt_trans h1 h2)
  · exact Or.inl (h2a ▸ h1)
  · exact Or.inl (h1a ▸ h2)
  · exact Or.inr ⟨h1a.trans h2a, le_trans h1b h2b⟩

theorem pLe_total (p q : ℤ × ℕ) : pLe p q ∨ pLe q p := by
  unfold pLe
  rcases lt_trichotomy p.1 q.1 with h | h | h
  · exact Or.inl (Or.inl h)
  · rcases le_total p.2 q.2 with h2 | h2
    · exact Or.inl (Or.inr ⟨h, h2⟩)
    · exact Or.inr (Or.inr ⟨h.symm, h2⟩)
  · exact Or.inr (Or.inl h)

theorem pLe_fst {p q : ℤ × ℕ} (h : pLe p q) : p.1 ≤ q.1 := by
  rcases h with h | ⟨h, _⟩
  · exact le_of_lt h
  · exact le_of_eq h

theorem pqMaxAux_spec : ∀ (l : List (ℤ × ℕ)) (m : ℤ × ℕ),
    pLe m (pqMaxAux m l) ∧ ∀ p ∈ l, pLe p (pqMaxAux m l) := by
  intro l
  induction l with
  | nil => intro m; exact ⟨pLe_refl m, fun p hp => absurd hp (List.not_mem_nil p)⟩
  | cons a rest ih =>
      intro m
      show pLe m (pqMaxAux (if pLe m a then a else m) rest) ∧ _
      rcases ih (if pLe m a then a else m) with ⟨h1, h2⟩
      have hm : pLe m (if pLe m a then a else m) := by
        split
        · rename_i hc; exact hc
        · exact pLe_refl m
      have ha : pLe a (if pLe m a then a else m) := by
        split
        · exact pLe_refl a
        · rename_i hc
          rcases pLe_total a m with h | h
          · exact h
          · exact absurd h hc
      refine ⟨pLe_trans hm h1, ?_⟩
      intro p hp
      rcases List.mem_cons.mp hp with h | h
      · exact pLe_trans (h ▸ ha) h1
      · exact h2 p h

theorem pqMaxAux_mem : ∀ (l : List (ℤ × ℕ)) (m : ℤ × ℕ),
    pqMaxAux m l = m ∨ pqMaxAux m l ∈ l := by
  intro l
  induction l with
  | nil => intro m; exact Or.inl rfl
  | cons a rest ih =>
      intro m
      show pqMaxAux (if pLe m a then a else m) rest = m ∨
        pqMaxAux (if pLe m a then a else m) rest ∈ a :: rest
      rcases ih (if pLe m a then a else m) with h | h
      · rw [h]
        split
        · exact Or.inr (List.mem_cons_self _ _)
        · exact Or.inl rfl
      · exact Or.inr (List.mem_cons_of_mem _ h)

theorem popMax_spec (l : List (ℤ × ℕ)) (hne : l ≠ []) :
    ∃ m, popMax l = some (m, l.erase m) ∧ m ∈ l ∧ ∀ p ∈ l, pLe p m := by
  match l with
  | [] => exact absurd rfl hne
  | p :: rest =>
      refine ⟨pqMaxAux p rest, rfl, ?_, ?_⟩
      · rcases pqMaxAux_mem rest p with h | h
        · rw [h]; exact List.mem_cons_self _ _
        · exact List.mem_cons_of_mem _ h
      · intro q hq
        rcases pqMaxAux_spec rest p with ⟨h1, h2⟩
        rcases List.mem_cons.mp hq with h | h
        · exact h ▸ h1
        · exact h2 q h

theorem popValid_spec (added : ℕ → Bool) (wt : ℕ → ℤ) :
    ∀ fuel (l : List (ℤ × ℕ)), l.length ≤ fuel →
    (∃ p ∈ l, added p.2 = false) →
    (∀ p ∈ l, p.1 ≤ wt p.2) →
    ∃ v l', popValid added fuel l = some (v, l') ∧
      added v = false ∧
      (∃ w, (w, v) ∈ l) ∧
      (∀ p ∈ l, added p.2 = false → p.1 ≤ wt v) ∧
      (∀ q ∈ l', q ∈ l) ∧
      (∀ q ∈ l, added q.2 = false → q.2 ≠ v → q ∈ l') := by
  intro fuel
  induction fuel with
  | zero =>
      intro l hlen hex _
      rcases hex with ⟨p, hp, _⟩
      rw [List.length_eq_zero.mp (Nat.le_zero.mp hlen)] at hp
      exact absurd hp (List.not_mem_nil p)
  | succ fuel ih =>
      intro l hlen hex hIw
      have hlne : l ≠ [] := by
        intro hc
        rcases hex with ⟨p, hp, _⟩
        rw [hc] at hp
        exact absurd hp (List.not_mem_nil p)
      rcases popMax_spec l hlne with ⟨m, hpop, hmem, hmax⟩
      have hstep : popValid added (fuel + 1) l =
          (if added m.2 = false then some (m.2, l.erase m)
           else popValid added fuel (l.erase m)) := by
        show (match popMax l with
          | none => none
          | some (m, l') =>
              if added m.2 = false then some (m.2, l') else popValid added fuel l') =
          (if added m.2 = false then some (m.2, l.erase m)
           else popValid added fuel (l.erase m))
        rw [hpop]
      by_cases hvm : added m.2 = false
      · refine ⟨m.2, l.erase m, ?_, hvm, ⟨m.1, by simpa using hmem⟩, ?_, ?_, ?_⟩
        · rw [hstep, if_pos hvm]
        · intro p hp _
          exact le_trans (pLe_fst (hmax p hp)) (hIw m hmem)
        · intro q hq
          exact List.mem_of_mem_erase hq
        · intro q hq _ hqv
          refine (List.mem_erase_of_ne ?_).mpr hq
          intro hc
          exact hqv (by rw [hc])
      · have hlen' : (l.erase m).length ≤ fuel := by
          rw [List.length_erase_of_mem hmem]
          omega
        have hex' : ∃ p ∈ l.erase m, added p.2 = false := by
          rcases hex with ⟨p, hp, hpa⟩
          refine ⟨p, (List.mem_erase_of_ne ?_).mpr hp, hpa⟩
          intro hc
          rw [hc] at hpa
          exact hvm hpa
        have hIw' : ∀ p ∈ l.erase m, p.1 ≤ wt p.2 :=
          fun p hp => hIw p (List.mem_of_mem_erase hp)
        rcases ih (l.erase m) hlen' hex' hIw' with
          ⟨v, l', hrun, hva, hw, hmaxv, hsub, hsurv⟩
        refine ⟨v, l', ?_, hva, ?_, ?_, ?_, ?_⟩
        · rw [hstep, if_neg hvm]
          exact hrun
        · rcases hw with ⟨w, hw⟩
          exact ⟨w, List.mem_of_mem_erase hw⟩
        · intro p hp hpa
          have hpm : p ≠ m := by
            intro hc
            rw [hc] at hpa
            exact hvm hpa
          exact hmaxv p ((List.mem_erase_of_ne hpm).mpr hp) hpa
        · intro q hq
          exact List.mem_of_mem_erase (hsub q hq)
        · intro q hq hqa hqv
          have hqm : q ≠ m := by
            intro hc
            rw [hc] at hqa
            exact hvm hqa
          exact hsurv q ((List.mem_erase_of_ne hqm).mpr hq) hqa hqv

theorem initLoop_wt (V : ℕ) (g : Mat) :
    ∀ n i, (initLoop V g n).1 i = if 1 ≤ i ∧ i < n then g 0 i else 0 := by
  intro n
  induction n with
  | zero => intro i; rw [if_neg (by omega)]; rfl
  | succ n ih =>
      intro i
      show (if n ≠ 0 then
        ((fun i => if i = n then (initLoop V g n).1 n + g 0 n else (initLoop V g n).1 i),
          ((initLoop V g n).1 n + g 0 n, n) :: (initLoop V g n).2)
        else initLoop V g n).1 i = _
      by_cases hn : n ≠ 0
      · rw [if_pos hn]
        show (if i = n then (initLoop V g n).1 n + g 0 n else (initLoop V g n).1 i) = _
        by_cases hin : i = n
        · rw [if_pos hin, ih n, if_neg (by omega), hin, if_pos (by omega)]
          ring
        · rw [if_neg hin, ih i]
          by_cases hi : 1 ≤ i ∧ i < n
          · rw [if_pos hi, if_pos (by omega)]
          · rw [if_neg hi, if_neg (by omega)]
      · rw [if_neg hn, ih i, if_neg (by omega)]
        by_cases hi : 1 ≤ i ∧ i < n
        · omega
        · rw [if_neg (by omega)]

theorem initLoop_pq (V : ℕ) (g : Mat) :
    ∀ n p, p ∈ (initLoop V g n).2 ↔ ∃ i, 1 ≤ i ∧ i < n ∧ p = (g 0 i, i) := by
  intro n
  induction n with
  | zero =>
      intro p
      constructor
      · intro hp; exact absurd hp (List.not_mem_nil p)
      · intro ⟨i, h1, h2, _⟩; omega
  | succ n ih =>
      intro p
      show p ∈ (if n ≠ 0 then
        ((fun i => if i = n then (initLoop V g n).1 n + g 0 n else (initLoop V g n).1 i),
          ((initLoop V g n).1 n + g 0 n, n) :: (initLoop V g n).2)
        else initLoop V g n).2 ↔ _
      by_cases hn : n ≠ 0
      · rw [if_pos hn]
        show p ∈ ((initLoop V g n).1 n + g 0 n, n) :: (initLoop V g n).2 ↔ _
        rw [List.mem_cons, ih p]
        have hv : (initLoop V g n).1 n + g 0 n = g 0 n := by
          rw [initLoop_wt V g n n, if_neg (by omega)]
          ring
        constructor
        · intro h
          rcases h with h | ⟨i, h1, h2, h3⟩
          · exact ⟨n, by omega, by omega, by rw [h, hv]⟩
          · exact ⟨i, h1, by omega, h3⟩
        · intro ⟨i, h1, h2, h3⟩
          by_cases hin : i = n
          · left
            rw [h3, hin, hv]
          · right
            exact ⟨i, h1, by omega, h3⟩
      · rw [if_neg hn, ih p]
        constructor
        · intro ⟨i, h1, h2, h3⟩
          exact ⟨i, h1, by omega, h3⟩
        · intro ⟨i, h1, h2, h3⟩
          exact ⟨i, h1, by omega, h3⟩

theorem pushLoop_wt (g : Mat) (mtv : ℕ) (added : ℕ → Bool) :
    ∀ n (wt : ℕ → ℤ) (pq : List (ℤ × ℕ)) i,
      (pushLoop g mtv added n wt pq).1 i =
        if i < n ∧ added i = false then wt i + g mtv i else wt i := by
  intro n
  induction n with
  | zero => intro wt pq i; rw [if_neg (by omega)]; rfl
  | succ n ih =>
      intro wt pq i
      show (if added n = false then
        ((fun i => if i = n then (pushLoop g mtv added n wt pq).1 n + g mtv n
          else (pushLoop g mtv added n wt pq).1 i),
         ((pushLoop g mtv added n wt pq).1 n + g mtv n, n) :: (pushLoop g mtv added n wt pq).2)
        else pushLoop g mtv added n wt pq).1 i = _
      by_cases ha : added n = false
      · rw [if_pos ha]
        show (if i = n then (pushLoop g mtv added n wt pq).1 n + g mtv n
          else (pushLoop g mtv added n wt pq).1 i) = _
        by_cases hin : i = n
        · rw [if_pos hin, ih wt pq n, if_neg (by omega), hin, if_pos ⟨by omega, ha⟩]
        · rw [if_neg hin, ih wt pq i]
          by_cases hi : i < n ∧ added i = false
          · rw [if_pos hi, if_pos ⟨by omega, hi.2⟩]
          · rw [if_neg hi, if_neg (by intro hc; exact hi ⟨by omega, hc.2⟩)]
      · rw [if_neg ha, ih wt pq i]
        by_cases hi : i < n ∧ added i = false
        · rw [if_pos hi, if_pos ⟨by omega, hi.2⟩]
        · rw [if_neg hi]
          by_cases hin : i = n
          · rw [if_neg (by intro hc; rw [hin] at hc; exact ha hc.2)]
          · rw [if_neg (by intro hc; exact hi ⟨by omega, hc.2⟩)]

theorem pushLoop_pq (g : Mat) (mtv : ℕ) (added : ℕ → Bool) :
    ∀ n (wt : ℕ → ℤ) (pq : List (ℤ × ℕ)) p,
      p ∈ (pushLoop g mtv added n wt pq).2 ↔
        p ∈ pq ∨ ∃ i, i < n ∧ added i = false ∧ p = (wt i + g mtv i, i) := by
  intro n
  induction n with
  | zero =>
      intro wt pq p
      constructor
      · intro h; exact Or.inl h
      · intro h
        rcases h with h | ⟨i, h1, _, _⟩
        · exact h
        · omega
  | succ n ih =>
      intro wt pq p
      show p ∈ (if added n = false then
        ((fun i => if i = n then (pushLoop g mtv added n wt pq).1 n + g mtv n
          else (pushLoop g mtv added n wt pq).1 i),
         ((pushLoop g mtv added n wt pq).1 n + g mtv n, n) :: (pushLoop g mtv added n wt pq).2)
        else pushLoop g mtv added n wt pq).2 ↔ _
      by_cases ha : added n = false
      · rw [if_pos ha]
        show p ∈ ((pushLoop g mtv added n wt pq).1 n + g mtv n, n) ::
          (pushLoop g mtv added n wt pq).2 ↔ _
        rw [List.mem_cons, ih wt pq p]
        have hv : (pushLoop g mtv added n wt pq).1 n + g mtv n = wt n + g mtv n := by
          rw [pushLoop_wt g mtv added n wt pq n, if_neg (by omega)]
        constructor
        · intro h
          rcases h with h | (h | ⟨i, h1, h2, h3⟩)
          · exact Or.inr ⟨n, by omega, ha, by rw [h, hv]⟩
          · exact Or.inl h
          · exact Or.inr ⟨i, by omega, h2, h3⟩
        · intro h
          rcases h with h | ⟨i, h1, h2, h3⟩
          · exact Or.inr (Or.inl h)
          · by_cases hin : i = n
            · exact Or.inl (by rw [h3, hin, hv])
            · exact Or.inr (Or.inr ⟨i, by omega, h2, h3⟩)
      · rw [if_neg ha, ih wt pq p]
        constructor
        · intro h
          rcases h with h | ⟨i, h1, h2, h3⟩
          · exact Or.inl h
          · exact Or.inr ⟨i, by omega, h2, h3⟩
        · intro h
          rcases h with h | ⟨i, h1, h2, h3⟩
          · exact Or.inl h
          · by_cases hin : i = n
            · rw [hin] at h2
              exact absurd h2 ha
            · exact Or.inr ⟨i, by omega, h2, h3⟩

end SWPQ

namespace SWPQ

/-- The order in which the priority-queue phase adds the vertices. -/
def ordPQ (V : ℕ) (g : Mat) (k : ℕ) : ℕ := (pqPhaseRun V g k).last.toNat

/-- Loop invariant of the priority-queue phase after `k` iterations:
the same adjacency bookkeeping as the linear scan, plus the queue facts
that every un-added vertex has a current entry and no entry exceeds the
current weight of its vertex. -/
structure PQInv (V : ℕ) (g : Mat) (k : ℕ) (s : PQState) : Prop where
  hadded : ∀ i, s.added i = true ↔ ∃ t, t ≤ k ∧ ordPQ V g t = i
  hlt : ∀ t, t ≤ k → ordPQ V g t < V
  hinj : ∀ t, t ≤ k → ∀ u, u ≤ k → ordPQ V g t = ordPQ V g u → t = u
  hwt : ∀ i, i < V → s.added i = false → s.wt i = keyW g (ordPQ V g) (k + 1) i
  hwtadd : ∀ t, t ≤ k → 1 ≤ t → s.wt (ordPQ V g t) = keyW g (ordPQ V g) t (ordPQ V g t)
  hlast : s.last = ((ordPQ V g k : ℕ) : ℤ)
  hprev : 1 ≤ k → s.prev = ((ordPQ V g (k - 1) : ℕ) : ℤ)
  hmax : ∀ t, t ≤ k → 1 ≤ t → ∀ m, m < V → (∀ u, u < t → ordPQ V g u ≠ m) →
    keyW g (ordPQ V g) t m ≤ keyW g (ordPQ V g) t (ordPQ V g t)
  hI1 : ∀ i, i < V → s.added i = false → (s.wt i, i) ∈ s.pq
  hI2 : ∀ p, p ∈ s.pq → p.2 < V ∧ p.1 ≤ s.wt p.2
  hunadded : s.unadded = V - 1 - k

theorem ordPQ_zero (V : ℕ) (g : Mat) : ordPQ V g 0 = 0 := rfl


theorem pq_phase_inv (V : ℕ) (g : Mat) (hV : 2 ≤ V) (hn : nonnegOn V g) :
    ∀ k, k ≤ V - 1 → PQInv V g k (pqPhaseRun V g k) := by
  intro k
  induction k with
  | zero =>
      intro _
      refine ⟨?_, ?_, ?_, ?_, ?_, ?_, ?_, ?_, ?_, ?_, ?_⟩
      · intro i
        show (if i = 0 then true else false) = true ↔ _
        constructor
        · intro h
          split at h
          · exact ⟨0, le_refl 0, by rw [ordPQ_zero]; omega⟩
          · exact absurd h (by simp)
        · intro ⟨t, ht, hte⟩
          have ht0 : t = 0 := Nat.le_zero.mp ht
          rw [ht0, ordPQ_zero] at hte
          rw [if_pos hte.symm]
      · intro t ht
        rw [Nat.le_zero.mp ht, ordPQ_zero]
        omega
      · intro t ht u hu _
        rw [Nat.le_zero.mp ht, Nat.le_zero.mp hu]
      · intro i hi hia
        have hi0 : i ≠ 0 := by
          intro hc
          rw [hc] at hia
          exact absurd hia (by simp [initPQ, pqPhaseRun])
        show (initLoop V g V).1 i = _
        rw [initLoop_wt V g V i, if_pos ⟨by omega, hi⟩]
        unfold keyW
        rw [Finset.sum_range_one, ordPQ_zero]
      · intro t ht h1
        omega
      · show (0 : ℤ) = ((ordPQ V g 0 : ℕ) : ℤ)
        rw [ordPQ_zero]
        rfl
      · intro h
        omega
      · intro t ht h1
        omega
      · intro i hi hia
        have hi0 : i ≠ 0 := by
          intro hc
          rw [hc] at hia
          exact absurd hia (by simp [initPQ, pqPhaseRun])
        show ((initPQ V g).wt i, i) ∈ (initLoop V g V).2
        rw [initLoop_pq V g V]
        refine ⟨i, by omega, hi, ?_⟩
        show ((initLoop V g V).1 i, i) = _
        rw [initLoop_wt V g V i, if_pos ⟨by omega, hi⟩]
      · intro p hp
        rcases (initLoop_pq V g V p).mp hp with ⟨i, h1, h2, h3⟩
        rw [h3]
        refine ⟨h2, ?_⟩
        show g 0 i ≤ (initLoop V g V).1 i
        rw [initLoop_wt V g V i, if_pos ⟨h1, h2⟩]
      · rfl
  | succ k ih =>
      intro hk1
      have hk : k ≤ V - 1 := by omega
      have hI := ih hk
      set s := pqPhaseRun V g k with hsdef
      have hex : ∃ i, i < V ∧ s.added i = false := by
        have hsub : (Finset.range V).filter (fun i => s.added i = true) ⊆
            (Finset.range (k + 1)).image (ordPQ V g) := by
          intro i hi
          rcases Finset.mem_filter.mp hi with ⟨_, hadd⟩
          rcases (hI.hadded i).mp hadd with ⟨t, ht, hte⟩
          exact Finset.mem_image.mpr ⟨t, Finset.mem_range.mpr (by omega), hte⟩
        have hcard : ((Finset.range V).filter (fun i => s.added i = true)).card ≤ k + 1 := by
          calc ((Finset.range V).filter (fun i => s.added i = true)).card
              ≤ ((Finset.range (k + 1)).image (ordPQ V g)).card := Finset.card_le_card hsub
            _ ≤ (Finset.range (k + 1)).card := Finset.card_image_le
            _ = k + 1 := Finset.card_range _
        have hne2 : (Finset.range V).filter (fun i => s.added i = true) ≠ Finset.range V := by
          intro hc
          rw [hc, Finset.card_range] at hcard
          omega
        have hss : (Finset.range V).filter (fun i => s.added i = true) ⊂ Finset.range V :=
          Finset.ssubset_iff_subset_ne.mpr ⟨Finset.filter_subset _ _, hne2⟩
        rcases Finset.exists_of_ssubset hss with ⟨i, hi, hni⟩
        have hiV : i < V := Finset.mem_range.mp hi
        have hia : s.added i = false := by
          by_contra hb
          rw [Bool.not_eq_false] at hb
          exact hni (Finset.mem_filter.mpr ⟨hi, hb⟩)
        exact ⟨i, hiV, hia⟩
      rcases hex with ⟨i0, hi0V, hi0a⟩
      have hexpq : ∃ p ∈ s.pq, s.added p.2 = false :=
        ⟨(s.wt i0, i0), hI.hI1 i0 hi0V hi0a, hi0a⟩
      have hIw : ∀ p ∈ s.pq, p.1 ≤ s.wt p.2 := fun p hp => (hI.hI2 p hp).2
      rcases popValid_spec s.added s.wt s.pq.length s.pq (le_refl _) hexpq hIw with
        ⟨v, pq', hrun, hva, hwmem, hmaxv, hsub, hsurv⟩
      have hvV : v < V := by
        rcases hwmem with ⟨w, hw⟩
        exact (hI.hI2 (w, v) hw).1
      have hance : pqPhaseRun V g (k + 1) = stepPQ V g s := by
        rw [hsdef]
        exact Function.iterate_succ_apply' _ _ _
      have hsteps : stepPQ V g s = ⟨fun i => if i = v then true else s.added i,
          (pushLoop g v (fun i => if i = v then true else s.added i) V s.wt pq').1,
          s.last, (v : ℤ),
          (pushLoop g v (fun i => if i = v then true else s.added i) V s.wt pq').2,
          s.unadded - 1⟩ := by
        unfold stepPQ
        rw [hrun]
      have haddval : ∀ i, (pqPhaseRun V g (k + 1)).added i =
          if i = v then true else s.added i := by
        intro i
        rw [hance, hsteps]
      have hwtval : ∀ i, (pqPhaseRun V g (k + 1)).wt i =
          if i < V ∧ (if i = v then true else s.added i) = false
          then s.wt i + g v i else s.wt i := by
        intro i
        rw [hance, hsteps]
        exact pushLoop_wt g v _ V s.wt pq' i
      have hpqval : (pqPhaseRun V g (k + 1)).pq =
          (pushLoop g v (fun i => if i = v then true else s.added i) V s.wt pq').2 := by
        rw [hance, hsteps]
      have hordk1 : ordPQ V g (k + 1) = v := by
        unfold ordPQ
        rw [hance, hsteps]
        exact Int.toNat_natCast v
      have holdadded : ∀ t, t ≤ k → s.added (ordPQ V g t) = true :=
        fun t ht => (hI.hadded _).mpr ⟨t, ht, rfl⟩
      have hvne : ∀ t, t ≤ k → ordPQ V g t ≠ v := by
        intro t ht hc
        have h2 := holdadded t ht
        rw [hc] at h2
        rw [h2] at hva
        exact absurd hva (by simp)
      -- weights never decrease
      have hwtmono : ∀ i, i < V → s.wt i ≤ (pqPhaseRun V g (k + 1)).wt i := by
        intro i hi
        rw [hwtval i]
        by_cases hc : i < V ∧ (if i = v then true else s.added i) = false
        · rw [if_pos hc]
          have : (0 : ℤ) ≤ g v i := hn v hvV i hi
          omega
        · rw [if_neg hc]
      refine ⟨?_, ?_, ?_, ?_, ?_, ?_, ?_, ?_, ?_, ?_, ?_⟩
      · intro i
        rw [haddval i]
        constructor
        · intro h
          split at h
          · rename_i him
            exact ⟨k + 1, le_refl _, by rw [hordk1, him]⟩
          · rcases (hI.hadded i).mp h with ⟨t, ht, hte⟩
            exact ⟨t, by omega, hte⟩
        · intro ⟨t, ht, hte⟩
          by_cases him : i = v
          · rw [if_pos him]
          · rw [if_neg him]
            have htk : t ≤ k := by
              rcases Nat.lt_or_ge t (k + 1) with h | h
              · omega
              · exfalso
                have : t = k + 1 := by omega
                rw [this, hordk1] at hte
                exact him hte.symm
            exact (hI.hadded i).mpr ⟨t, htk, hte⟩
      · intro t ht
        rcases Nat.lt_or_ge t (k + 1) with h | h
        · exact hI.hlt t (by omega)
        · have : t = k + 1 := by omega
          rw [this, hordk1]
          exact hvV
      · intro t ht u hu hte
        rcases Nat.lt_or_ge t (k + 1) with h1 | h1 <;> rcases Nat.lt_or_ge u (k + 1) with h2 | h2
        · exact hI.hinj t (by omega) u (by omega) hte
        · exfalso
          have hu1 : u = k + 1 := by omega
          rw [hu1, hordk1] at hte
          exact hvne t (by omega) hte
        · exfalso
          have ht1 : t = k + 1 := by omega
          rw [ht1, hordk1] at hte
          exact hvne u (by omega) hte.symm
        · omega
      · intro i hi hia
        rw [haddval i] at hia
        have hiv : i ≠ v := by
          intro hc
          rw [if_pos hc] at hia
          exact absurd hia (by simp)
        rw [if_neg hiv] at hia
        rw [hwtval i, if_pos ⟨hi, by rw [if_neg hiv]; exact hia⟩]
        rw [hI.hwt i hi hia]
        unfold keyW
        rw [Finset.sum_range_succ (fun t => g (ordPQ V g t) i) (k + 1)]
        rw [hordk1]
      · intro t ht h1
        rcases Nat.lt_or_ge t (k + 1) with h | h
        · have htk : t ≤ k := by omega
          rw [hwtval _]
          have haddt : (if ordPQ V g t = v then true else s.added (ordPQ V g t)) = true := by
            by_cases hc : ordPQ V g t = v
            · rw [if_pos hc]
            · rw [if_neg hc]
              exact holdadded t htk
          rw [if_neg (fun hc => by rw [haddt] at hc; exact absurd hc.2 (by simp))]
          exact hI.hwtadd t htk h1
        · have ht1 : t = k + 1 := by omega
          subst ht1
          rw [hordk1, hwtval v]
          rw [if_neg (fun hc => by rw [if_pos rfl] at hc; exact absurd hc.2 (by simp))]
          exact hI.hwt v hvV hva
      · unfold ordPQ
        rw [hance, hsteps]
        show ((v : ℕ) : ℤ) = _
        rw [Int.toNat_natCast v]
      · intro _
        rw [hance, hsteps]
        show s.last = ((ordPQ V g (k + 1 - 1) : ℕ) : ℤ)
        rw [hI.hlast]
        have he : k + 1 - 1 = k := by omega
        rw [he]
      · intro t ht h1 mm hmm hnotm
        rcases Nat.lt_or_ge t (k + 1) with h | h
        · exact hI.hmax t (by omega) h1 mm hmm hnotm
        · have ht1 : t = k + 1 := by omega
          subst ht1
          rw [hordk1]
          have hmm_unadded : s.added mm = false := by
            by_contra hb
            rw [Bool.not_eq_false] at hb
            rcases (hI.hadded mm).mp hb with ⟨u, hu, hue⟩
            exact hnotm u (by omega) hue
          have hin : (s.wt mm, mm) ∈ s.pq := hI.hI1 mm hmm hmm_unadded
          have hle := hmaxv (s.wt mm, mm) hin hmm_unadded
          have h1' : s.wt mm = keyW g (ordPQ V g) (k + 1) mm := hI.hwt mm hmm hmm_unadded
          have h2' : s.wt v = keyW g (ordPQ V g) (k + 1) v := hI.hwt v hvV hva
          rw [h1', h2'] at hle
          exact hle
      · intro j hj hja
        rw [haddval j] at hja
        have hjv : j ≠ v := by
          intro hc
          rw [if_pos hc] at hja
          exact absurd hja (by simp)
        rw [if_neg hjv] at hja
        have hmem : ((s.wt j + g v j, j) : ℤ × ℕ) ∈
            (pushLoop g v (fun i => if i = v then true else s.added i) V s.wt pq').2 := by
          rw [pushLoop_pq]
          exact Or.inr ⟨j, hj, by rw [if_neg hjv]; exact hja, rfl⟩
        have hwtj : (pqPhaseRun V g (k + 1)).wt j = s.wt j + g v j := by
          rw [hwtval j, if_pos ⟨hj, by rw [if_neg hjv]; exact hja⟩]
        rw [hwtj, hpqval]
        exact hmem
      · intro p hp
        rw [hpqval] at hp
        rcases (pushLoop_pq g v _ V s.wt pq' p).mp hp with h | ⟨i, hiV, hia, he⟩
        · have hpq : p ∈ s.pq := hsub p h
          rcases hI.hI2 p hpq with ⟨hp2, hp1⟩
          exact ⟨hp2, le_trans hp1 (hwtmono p.2 hp2)⟩
        · rw [he]
          refine ⟨hiV, ?_⟩
          show s.wt i + g v i ≤ (pqPhaseRun V g (k + 1)).wt i
          rw [hwtval i, if_pos ⟨hiV, hia⟩]
      · rw [hance, hsteps]
        show s.unadded - 1 = V - 1 - (k + 1)
        rw [hI.hunadded]
        omega

end SWPQ

namespace SWPQ

theorem pq_phase_ma (V : ℕ) (g : Mat) (hV : 2 ≤ V) (hn : nonnegOn V g) :
    IsMAOrder V g (ordPQ V g) ∧
    (pqPhaseRun V g (V - 1)).unadded = 0 ∧
    (pqPhaseRun V g (V - 1)).last = ((ordPQ V g (V - 1) : ℕ) : ℤ) ∧
    (pqPhaseRun V g (V - 1)).prev = ((ordPQ V g (V - 2) : ℕ) : ℤ) ∧
    (pqPhaseRun V g (V - 1)).wt (ordPQ V g (V - 1)) =
      keyW g (ordPQ V g) (V - 1) (ordPQ V g (V - 1)) := by
  have hI := pq_phase_inv V g hV hn (V - 1) (le_refl _)
  refine ⟨⟨ordPQ_zero V g, ?_, ?_, ?_⟩, ?_, hI.hlast, ?_, ?_⟩
  · intro k hk
    exact hI.hlt k (by omega)
  · intro k hk l hl he
    exact hI.hinj k (by omega) l (by omega) he
  · intro k h1 hk m hm hnot
    exact hI.hmax k (by omega) h1 m hm hnot
  · rw [hI.hunadded]
    omega
  · have hp := hI.hprev (by omega)
    have he : V - 1 - 1 = V - 2 := by omega
    rw [hp, he]
  · exact hI.hwtadd (V - 1) (le_refl _) (by omega)

theorem swLoopPQ_eq : ∀ V (g : Mat) (mc : ℤ), 2 ≤ V → symmOn V g → nonnegOn V g →
    swLoopPQ V g mc = min mc (minCut V g) := by
  intro V
  induction V using Nat.strong_induction_on with
  | _ V IH =>
    intro g mc hV hs hn
    obtain ⟨W, rfl⟩ : ∃ W, V = W + 2 := ⟨V - 2, by omega⟩
    obtain ⟨hMA, hunadd, hlast, hprev, hwt⟩ := pq_phase_ma (W + 2) g (by omega) hn
    rw [show (W + 2 : ℕ) - 1 = W + 1 from rfl] at hunadd hlast hprev hwt
    rw [show (W + 2 : ℕ) - 2 = W from rfl] at hprev
    set s := pqPhaseRun (W + 2) g (W + 1) with hsdef
    have hltn : s.last.toNat = ordPQ (W + 2) g (W + 1) := by
      rw [show s.last = ((ordPQ (W + 2) g (W + 1) : ℕ) : ℤ) from hlast]
      exact Int.toNat_natCast _
    have hptn : s.prev.toNat = ordPQ (W + 2) g W := by
      rw [show s.prev = ((ordPQ (W + 2) g W : ℕ) : ℤ) from hprev]
      exact Int.toNat_natCast _
    have hcand : s.wt s.last.toNat =
        keyW g (ordPQ (W + 2) g) (W + 1) (ordPQ (W + 2) g (W + 1)) := by
      rw [hltn]
      exact hwt
    have hprevne : ¬ (s.prev = -1) := by
      rw [show s.prev = ((ordPQ (W + 2) g W : ℕ) : ℤ) from hprev]
      intro hc
      have h0 : (0 : ℤ) ≤ ((ordPQ (W + 2) g W : ℕ) : ℤ) := Int.natCast_nonneg _
      omega
    have hstep : swLoopPQ (W + 2) g mc =
        (if s.prev = -1 then (if s.unadded = 0 then min mc (s.wt s.last.toNat) else mc)
         else swLoopPQ (W + 1) (contractMat s.prev.toNat s.last.toNat (W + 2) g)
           (if s.unadded = 0 then min mc (s.wt s.last.toNat) else mc)) := rfl
    rw [hstep, if_neg hprevne, if_pos hunadd]
    have hpl : ordPQ (W + 2) g W ≠ ordPQ (W + 2) g (W + 1) := by
      intro hc
      have : W = W + 1 := hMA.inj W (by omega) (W + 1) (by omega) hc
      omega
    have hpV : ordPQ (W + 2) g W < W + 2 := hMA.lt W (by omega)
    have hlV : ordPQ (W + 2) g (W + 1) < W + 2 := hMA.lt (W + 1) (by omega)
    rcases Nat.eq_zero_or_pos W with hW0 | hWpos
    · subst hW0
      have hres : swLoopPQ 1 (contractMat s.prev.toNat s.last.toNat 2 g)
          (min mc (s.wt s.last.toNat)) = min mc (s.wt s.last.toNat) := rfl
      rw [hres, hcand]
      rw [minCut_two g hs (ordPQ 2 g) hMA]
    · rw [hptn, hltn]
      have hsym' : symmOn (W + 1)
          (contractMat (ordPQ (W + 2) g W) (ordPQ (W + 2) g (W + 1)) (W + 2) g) :=
        contract_symm g hpl hpV hlV hs
      have hnn' : nonnegOn (W + 1)
          (contractMat (ordPQ (W + 2) g W) (ordPQ (W + 2) g (W + 1)) (W + 2) g) :=
        contract_nonneg g hpV hlV hn
      rw [IH (W + 1) (by omega) _ _ (by omega) hsym' hnn']
      have hrec := minCut_phase_step (W + 2) g (by omega) hs hn (ordPQ (W + 2) g) hMA
      rw [hwt]
      rw [show (W + 2 : ℕ) - 1 = W + 1 from rfl] at hrec
      rw [show (W + 2 : ℕ) - 2 = W from rfl] at hrec
      rw [hrec]
      rw [min_assoc]

/-- The priority-queue engine of `stoer_wagner_pq.cpp` returns exactly
`min INT_MAX (minCut V g)` on symmetric non-negative inputs with `V ≥ 2`. -/
theorem stoer_wagner_pq_exact (V : ℕ) (g : Mat) (hV : 2 ≤ V)
    (hs : symmOn V g) (hn : nonnegOn V g) :
    (stoer_wagner V g).1 = min INT_MAX (minCut V g) := by
  unfold stoer_wagner
  exact swLoopPQ_eq V g INT_MAX hV hs hn

end SWPQ

/-! ### Union-find and the randomized contraction engines -/

/-- The `DisjointUnionSets` class shared verbatim by `kargercppver.cpp`
and `kargercppopt.cpp`: a parent map and a rank map over vertex indices. -/
structure DisjointUnionSets where
  rank : ℕ → ℕ
  parent : ℕ → ℕ

/-- The constructor `DisjointUnionSets(n)`: every rank `0`, every vertex
its own parent. -/
def dusInit : DisjointUnionSets := ⟨fun _ => 0, fun i => i⟩

/-- The recursive `find` with path compression.  The C++ recursion
terminates because parent chains are acyclic; the embedding makes the
recursion depth explicit as fuel, and the union-by-rank invariant proves
that fuel `n + 1` never runs out on a structure over `n` vertices. -/
def findAux : ℕ → DisjointUnionSets → ℕ → ℕ × DisjointUnionSets
  | 0, d, i => (i, d)
  | fuel + 1, d, i =>
      if d.parent i = i then (i, d)
      else
        let r := findAux fuel d (d.parent i)
        (r.1, ⟨r.2.rank, fun j => if j = i then r.1 else r.2.parent j⟩)

/-- `find` on a structure over `n` vertices. -/
def dusFind (n : ℕ) (d : DisjointUnionSets) (i : ℕ) : ℕ × DisjointUnionSets :=
  findAux (n + 1) d i

/-- The pure root of `i` (no compression), used to state invariants. -/
def rootAux : ℕ → (ℕ → ℕ) → ℕ → ℕ
  | 0, _, i => i
  | fuel + 1, p, i => if p i = i then i else rootAux fuel p (p i)

/-- Root of `i` in a structure over `n` vertices. -/
def dusRoot (n : ℕ) (d : DisjointUnionSets) (i : ℕ) : ℕ :=
  rootAux (n + 1) d.parent i

/-- `unionSets(x, y)`: union by rank, attaching the lower-rank root
under the higher-rank root, breaking rank ties toward `x`'s root. -/
def unionSets (n : ℕ) (d : DisjointUnionSets) (x y : ℕ) : DisjointUnionSets :=
  let fx := dusFind n d x
  let fy := dusFind n fx.2 y
  let xRoot := fx.1
  let yRoot := fy.1
  let d2 := fy.2
  if xRoot = yRoot then d2
  else if d2.rank xRoot < d2.rank yRoot then
    ⟨d2.rank, fun j => if j = xRoot then yRoot else d2.parent j⟩
  else if d2.rank yRoot < d2.rank xRoot then
    ⟨d2.rank, fun j => if j = yRoot then xRoot else d2.parent j⟩
  else
    ⟨fun j => if j = xRoot then d2.rank xRoot + 1 else d2.rank j,
     fun j => if j = yRoot then xRoot else d2.parent j⟩

/-- The adjacency-matrix-to-edge-list conversion shared verbatim by both
Karger drivers: for `i < V` and `j` from `i + 1` to `V - 1`, the pair
`(i, j)` is emitted exactly when `G[i][j] == 1`. -/
def buildEdges (V : ℕ) (g : Mat) : List (ℕ × ℕ) :=
  (List.range V).flatMap (fun i =>
    ((List.range V).filter (fun j => decide (i < j))).filterMap
      (fun j => if g i j = 1 then some (i, j) else none))

namespace KOpt

/-- The contraction loop of `karger_min_cut_trial` in `kargercppopt.cpp`:
scan the pre-shuffled edge list, break when two super-vertices remain,
union distinct components and decrement the counter. -/
def contractFold (n : ℕ) : List (ℕ × ℕ) → DisjointUnionSets × ℕ → DisjointUnionSets × ℕ
  | [], st => st
  | (u, v) :: rest, st =>
      if st.2 ≤ 2 then st
      else
        let f1 := dusFind n st.1 u
        let f2 := dusFind n f1.2 v
        if f1.1 ≠ f2.1 then
          contractFold n rest (unionSets n f2.2 f1.1 f2.1, st.2 - 1)
        else contractFold n rest (f2.2, st.2)

/-- The final counting loop shared by both trial versions: count edges
whose endpoints lie in different components. -/
def countFold (n : ℕ) : List (ℕ × ℕ) → DisjointUnionSets → ℕ → DisjointUnionSets × ℕ
  | [], d, c => (d, c)
  | (u, v) :: rest, d, c =>
      let f1 := dusFind n d u
      let f2 := dusFind n f1.2 v
      countFold n rest f2.2 (if f1.1 ≠ f2.1 then c + 1 else c)

/-- `karger_min_cut_trial` of `kargercppopt.cpp`: one trial over a
pre-shuffled edge list. -/
def karger_min_cut_trial (V E : ℕ) (shuffled_edges : List (ℕ × ℕ)) : ℕ :=
  let st := contractFold V shuffled_edges (dusInit, V)
  (countFold V (shuffled_edges.take E) st.1 0).2

/-- `karger_min_cut` of `kargercppopt.cpp`.  The per-trial calls to
`std::shuffle` are modelled by passing the sequence of shuffled edge
lists explicitly (one list per trial); theorems about the driver
hypothesise that each is a permutation of the built edge list. -/
def karger_min_cut (V : ℕ) (g : Mat) (shuffles : List (List (ℕ × ℕ))) : ℤ :=
  let edges := buildEdges V g
  let E := edges.length
  shuffles.foldl
    (fun mc s =>
      let cut_size := (karger_min_cut_trial V E s : ℤ)
      if cut_size < mc then cut_size else mc)
    INT_MAX

end KOpt

namespace KVer

/-- The `while (vertices > 2)` loop of `karger_min_cut_trial` in
`kargercppver.cpp`, consuming one `rand()` draw per iteration
(`i = rand() % E`); the loop in the C++ has no other exit, so a run that
consumes every available draw with more than two components left is a
run on which the C++ loop is still spinning. -/
def trialLoop (V E : ℕ) (edges : List (ℕ × ℕ)) :
    List ℕ → DisjointUnionSets × ℕ → DisjointUnionSets × ℕ
  | [], st => st
  | r :: rest, st =>
      if st.2 ≤ 2 then st
      else
        let e := edges.getD (r % E) (0, 0)
        let f1 := dusFind V st.1 e.1
        let f2 := dusFind V f1.2 e.2
        if f1.1 = f2.1 then trialLoop V E edges rest (f2.2, st.2)
        else trialLoop V E edges rest (unionSets V f2.2 f1.1 f2.1, st.2 - 1)

/-- `karger_min_cut_trial` of `kargercppver.cpp` on a given sequence of
random draws: `none` when the draws are exhausted with more than two
components remaining — the state in which the C++ `while` loop never
exits. -/
def karger_min_cut_trial (V E : ℕ) (edges : List (ℕ × ℕ)) (draws : List ℕ) : Option ℕ :=
  let st := trialLoop V E edges draws (dusInit, V)
  if st.2 ≤ 2 then some (KOpt.countFold V (edges.take E) st.1 0).2
  else none

end KVer

namespace KVer

/-- The trial loop of `karger_min_cut` in `kargercppver.cpp`, threading
the running minimum; `none` when some trial never terminates (so the
driver itself never returns). -/
def kvFold (V E : ℕ) (edges : List (ℕ × ℕ)) : List (List ℕ) → ℤ → Option ℤ
  | [], mc => some mc
  | ds :: rest, mc =>
      match karger_min_cut_trial V E edges ds with
      | none => none
      | some c => kvFold V E edges rest (if (c : ℤ) < mc then (c : ℤ) else mc)

/-- `karger_min_cut` of `kargercppver.cpp`, with the `rand()` stream of
each trial passed explicitly. -/
def karger_min_cut (V : ℕ) (g : Mat) (drawss : List (List ℕ)) : Option ℤ :=
  kvFold V (buildEdges V g).length (buildEdges V g) drawss INT_MAX

theorem kvFold_append (V E : ℕ) (edges : List (ℕ × ℕ)) (ds : List ℕ) :
    ∀ l mc v', kvFold V E edges (l ++ [ds]) mc = some v' →
      ∃ v, kvFold V E edges l mc = some v ∧ v' ≤ v := by
  intro l
  induction l with
  | nil =>
      intro mc v' h
      show ∃ v, some mc = some v ∧ v' ≤ v
      refine ⟨mc, rfl, ?_⟩
      have hstep : kvFold V E edges ([] ++ [ds]) mc =
          (match karger_min_cut_trial V E edges ds with
           | none => none
           | some c => some (if (c : ℤ) < mc then (c : ℤ) else mc)) := rfl
      rw [hstep] at h
      match hm : karger_min_cut_trial V E edges ds with
      | none =>
          rw [hm] at h
          exact absurd h (by simp)
      | some c =>
          rw [hm] at h
          have : (if (c : ℤ) < mc then (c : ℤ) else mc) = v' := by
            have := h
            simpa using this
          rw [← this]
          split
          · rename_i hlt
            exact le_of_lt hlt
          · exact le_refl mc
  | cons d0 rest ih =>
      intro mc v' h
      have hstep : kvFold V E edges ((d0 :: rest) ++ [ds]) mc =
          (match karger_min_cut_trial V E edges d0 with
           | none => none
           | some c => kvFold V E edges (rest ++ [ds]) (if (c : ℤ) < mc then (c : ℤ) else mc)) := rfl
      have hstep2 : kvFold V E edges (d0 :: rest) mc =
          (match karger_min_cut_trial V E edges d0 with
           | none => none
           | some c => kvFold V E edges rest (if (c : ℤ) < mc then (c : ℤ) else mc)) := rfl
      rw [hstep] at h
      match hm : karger_min_cut_trial V E edges d0 with
      | none =>
          rw [hm] at h
          exact absurd h (by simp)
      | some c =>
          rw [hm] at h
          rcases ih _ v' h with ⟨v, hv, hle⟩
          refine ⟨v, ?_, hle⟩
          rw [hstep2, hm]
          exact hv

end KVer

/-- Concrete matrix built from a list of rows (missing entries `0`),
used to evaluate the engines on specific inputs. -/
def matOfLists (l : List (List ℤ)) : Mat :=
  fun i j => ((l.getD i []).getD j 0)

theorem mem_buildEdges (V : ℕ) (g : Mat) (a b : ℕ) :
    (a, b) ∈ buildEdges V g ↔ (a < V ∧ b < V ∧ a < b ∧ g a b = 1) := by
  unfold buildEdges
  rw [List.mem_flatMap]
  constructor
  · intro ⟨i, hi, hmem⟩
    rcases List.mem_filterMap.mp hmem with ⟨j, hj, he⟩
    rcases List.mem_filter.mp hj with ⟨hjr, hjlt⟩
    have hij : i < j := of_decide_eq_true hjlt
    split at he
    · rename_i hg
      have h1 : i = a ∧ j = b := by
        have := Option.some.inj he
        exact ⟨congrArg Prod.fst this, congrArg Prod.snd this⟩
      rcases h1 with ⟨hia, hjb⟩
      subst hia
      subst hjb
      exact ⟨List.mem_range.mp hi, List.mem_range.mp hjr, hij, hg⟩
    · exact absurd he (by simp)
  · intro ⟨h1, h2, h3, h4⟩
    refine ⟨a, List.mem_range.mpr h1, ?_⟩
    apply List.mem_filterMap.mpr
    refine ⟨b, List.mem_filter.mpr ⟨List.mem_range.mpr h2, decide_eq_true h3⟩, ?_⟩
    rw [if_pos h4]

/-- Claim C10: for every `V × V` adjacency matrix, the edge-list
construction of the randomized engines contains the pair `(a, b)`
exactly when `a < b < V` and the entry `G[a][b]` equals exactly `1`;
any other entry value (`0`, or a non-unit weight such as `2`)
contributes no edge. -/
theorem karger_edges_unit_weight_only (V : ℕ) (g : Mat) (a b : ℕ) :
    (a, b) ∈ buildEdges V g ↔ (a < V ∧ b < V ∧ a < b ∧ g a b = 1) :=
  mem_buildEdges V g a b

/-- Claim C9: for the same graph and the same random draws, the minimum
cut value returned by the trial driver over `N + 1` trials is at most
the value returned over the first `N` of those trials — unconditionally
for the shuffle-based driver of `kargercppopt.cpp`, and for the
rejection-sampling driver of `kargercppver.cpp` whenever its runs
return at all. -/
theorem karger_trials_monotone :
    (∀ (V : ℕ) (g : Mat) (shuffles : List (List (ℕ × ℕ))) (s : List (ℕ × ℕ)),
      KOpt.karger_min_cut V g (shuffles ++ [s]) ≤ KOpt.karger_min_cut V g shuffles) ∧
    (∀ (V : ℕ) (g : Mat) (dss : List (List ℕ)) (ds : List ℕ) (v' : ℤ),
      KVer.karger_min_cut V g (dss ++ [ds]) = some v' →
      ∃ v, KVer.karger_min_cut V g dss = some v ∧ v' ≤ v) := by
  constructor
  · intro V g shuffles s
    have hrw : ∀ sh, KOpt.karger_min_cut V g sh =
        List.foldl (fun mc t =>
          if (KOpt.karger_min_cut_trial V (buildEdges V g).length t : ℤ) < mc
          then (KOpt.karger_min_cut_trial V (buildEdges V g).length t : ℤ) else mc)
          INT_MAX sh := fun sh => rfl
    rw [hrw, hrw, List.foldl_append]
    set acc := List.foldl _ INT_MAX shuffles
    show (if (KOpt.karger_min_cut_trial V (buildEdges V g).length s : ℤ) < acc
      then (KOpt.karger_min_cut_trial V (buildEdges V g).length s : ℤ) else acc) ≤ acc
    split
    · rename_i hlt
      exact le_of_lt hlt
    · exact le_refl acc
  · intro V g dss ds v' h
    exact KVer.kvFold_append _ _ _ ds dss INT_MAX v' h

/-- Witness for claim C9 at a concrete two-vertex graph: both driver
conjuncts instantiated at explicit trial sequences, with the
rejection-sampling premise discharged by evaluation. -/
theorem karger_trials_monotone_witness :
    KOpt.karger_min_cut 2 (matOfLists [[0, 1], [1, 0]]) ([[(0, 1)]] ++ [[(0, 1)]]) ≤
      KOpt.karger_min_cut 2 (matOfLists [[0, 1], [1, 0]]) [[(0, 1)]] ∧
    (1 : ℤ) ≤ 1 := by
  constructor
  · exact karger_trials_monotone.1 2 (matOfLists [[0, 1], [1, 0]]) [[(0, 1)]] [(0, 1)]
  · rcases karger_trials_monotone.2 2 (matOfLists [[0, 1], [1, 0]]) [[0]] [0] 1 (by decide)
      with ⟨v, hv, hle⟩
    have hc : KVer.karger_min_cut 2 (matOfLists [[0, 1], [1, 0]]) [[0]] = some 1 := by decide
    rw [hv] at hc

theorem buildEdges_eq_nil {V : ℕ} {g : Mat} (h : V < 2) : buildEdges V g = [] := by
  apply List.eq_nil_iff_forall_not_mem.mpr
  intro p hp
  have := (mem_buildEdges V g p.1 p.2).mp (by rw [Prod.mk.eta]; exact hp)
  omega

theorem trial_empty_edges (V : ℕ) : KOpt.karger_min_cut_trial V 0 [] = 0 := rfl

theorem foldl_trial_zero (V : ℕ) (E : ℕ) :
    ∀ (l : List (List (ℕ × ℕ))), (∀ s ∈ l, KOpt.karger_min_cut_trial V E s = 0) →
      List.foldl (fun mc t =>
        if (KOpt.karger_min_cut_trial V E t : ℤ) < mc
        then (KOpt.karger_min_cut_trial V E t : ℤ) else mc) 0 l = 0 := by
  intro l
  induction l with
  | nil => intro _; rfl
  | cons s rest ih =>
      intro h
      have hs : KOpt.karger_min_cut_trial V E s = 0 := h s (List.mem_cons_self _ _)
      show List.foldl _ (if (KOpt.karger_min_cut_trial V E s : ℤ) < 0
        then (KOpt.karger_min_cut_trial V E s : ℤ) else 0) rest = 0
      rw [hs]
      rw [if_neg (by omega)]
      exact ih (fun t ht => h t (List.mem_cons_of_mem _ ht))

set_option maxRecDepth 10000 in
/-- Counterexample for claim C3: on the degenerate one-vertex graph with
one trial, the randomized entry point returns the plain value `0` — the
same value as a legitimate zero-weight cut — rather than any distinct
"undefined result" outcome. -/
theorem karger_randomized_degenerate_zero_cex :
    KOpt.karger_min_cut 1 (matOfLists [[0]]) [[]] = 0 := by decide

set_option maxRecDepth 10000 in
/-- Claim C3 as amended: when `vertex_count < 2`, or the built edge list
is empty, the randomized entry point of `kargercppopt.cpp` with at least
one trial returns `0`, indistinguishable from a legitimate cut of weight
`0`; no distinct "undefined" outcome is produced (that would require
`trials = 0`, which returns `INT_MAX`). -/
theorem karger_randomized_degenerate_returns_zero (V : ℕ) (g : Mat)
    (shuffles : List (List (ℕ × ℕ)))
    (hdeg : V < 2 ∨ buildEdges V g = [])
    (hne : shuffles ≠ [])
    (hperm : ∀ s ∈ shuffles, s.Perm (buildEdges V g)) :
    KOpt.karger_min_cut V g shuffles = 0 := by
  have hedges : buildEdges V g = [] := by
    rcases hdeg with h | h
    · exact buildEdges_eq_nil h
    · exact h
  have htrial : ∀ s ∈ shuffles, KOpt.karger_min_cut_trial V (buildEdges V g).length s = 0 := by
    intro s hs
    have hsnil : s = [] := by
      have := hperm s hs
      rw [hedges] at this
      exact this.eq_nil
    rw [hsnil, hedges]
    rfl
  have hrw : KOpt.karger_min_cut V g shuffles =
      List.foldl (fun mc t =>
        if (KOpt.karger_min_cut_trial V (buildEdges V g).length t : ℤ) < mc
        then (KOpt.karger_min_cut_trial V (buildEdges V g).length t : ℤ) else mc)
        INT_MAX shuffles := rfl
  rw [hrw]
  rcases shuffles with _ | ⟨s, rest⟩
  · exact absurd rfl hne
  · have hs : KOpt.karger_min_cut_trial V (buildEdges V g).length s = 0 :=
      htrial s (List.mem_cons_self _ _)
    have h0 : ((0 : ℕ) : ℤ) < INT_MAX := by unfold INT_MAX; omega
    simp only [List.foldl_cons, hs, if_pos h0, Nat.cast_zero]
    exact foldl_trial_zero V (buildEdges V g).length rest
      (fun t ht => htrial t (List.mem_cons_of_mem _ ht))

set_option maxRecDepth 10000 in
/-- Witness for amended claim C3 at a two-vertex graph with no edges and
one trial: the entry point returns `0`. -/
theorem karger_randomized_degenerate_returns_zero_witness :
    KOpt.karger_min_cut 2 (matOfLists [[0, 0], [0, 0]]) [[]] = 0 :=
  karger_randomized_degenerate_returns_zero 2 (matOfLists [[0, 0], [0, 0]]) [[]]
    (Or.inr (by decide)) (by decide) (by decide)

/-! ### Termination of the rejection-sampling contraction loop (claim C2) -/

theorem findAux_root (fuel : ℕ) (d : DisjointUnionSets) (i : ℕ) (h : d.parent i = i) :
    findAux (fuel + 1) d i = (i, d) := by
  have hstep : findAux (fuel + 1) d i =
      (if d.parent i = i then (i, d)
       else
         ((findAux fuel d (d.parent i)).1,
          ⟨(findAux fuel d (d.parent i)).2.rank,
           fun j => if j = i then (findAux fuel d (d.parent i)).1
           else (findAux fuel d (d.parent i)).2.parent j⟩)) := rfl
  rw [hstep, if_pos h]

theorem findAux_child (fuel : ℕ) (d : DisjointUnionSets) (i r : ℕ)
    (hpi : d.parent i = r) (hir : d.parent i ≠ i) (hr : d.parent r = r) :
    findAux (fuel + 2) d i = (r, ⟨d.rank, fun j => if j = i then r else d.parent j⟩) := by
  have hstep : findAux (fuel + 2) d i =
      (if d.parent i = i then (i, d)
       else
         ((findAux (fuel + 1) d (d.parent i)).1,
          ⟨(findAux (fuel + 1) d (d.parent i)).2.rank,
           fun j => if j = i then (findAux (fuel + 1) d (d.parent i)).1
           else (findAux (fuel + 1) d (d.parent i)).2.parent j⟩)) := rfl
  rw [hstep, if_neg hir, hpi, findAux_root fuel d r hr]

theorem dusFind_root (n : ℕ) (d : DisjointUnionSets) (i : ℕ) (h : d.parent i = i) :
    dusFind n d i = (i, d) :=
  findAux_root n d i h

theorem dusFind_child (n : ℕ) (hn : n ≠ 0) (d : DisjointUnionSets) (i r : ℕ)
    (hpi : d.parent i = r) (hir : d.parent i ≠ i) (hr : d.parent r = r) :
    dusFind n d i = (r, ⟨d.rank, fun j => if j = i then r else d.parent j⟩) := by
  obtain ⟨m, rfl⟩ : ∃ m, n = m + 1 := ⟨n - 1, by omega⟩
  exact findAux_child m d i r hpi hir hr

theorem unionTie_parents (d : DisjointUnionSets) (hp0 : d.parent 0 = 0)
    (hp1 : d.parent 1 = 1) (hr : d.rank 0 = d.rank 1) :
    (unionSets 4 d 0 1).parent 0 = 0 ∧ (unionSets 4 d 0 1).parent 1 = 0 := by
  have h1 : dusFind 4 d 0 = (0, d) := dusFind_root 4 d 0 hp0
  have h2 : dusFind 4 d 1 = (1, d) := dusFind_root 4 d 1 hp1
  unfold unionSets
  simp only [h1, h2]
  rw [if_neg (by decide : ¬(0 : ℕ) = 1)]
  rw [if_neg (by rw [hr]; exact lt_irrefl _)]
  rw [if_neg (by rw [hr]; exact lt_irrefl _)]
  refine ⟨?_, ?_⟩
  · show (if (0 : ℕ) = 1 then 0 else d.parent 0) = 0
    rw [if_neg (by decide : ¬(0 : ℕ) = 1)]
    exact hp0
  · show (if (1 : ℕ) = 1 then 0 else d.parent 1) = 0
    rw [if_pos rfl]

theorem kv_stepA (d : DisjointUnionSets) (hp0 : d.parent 0 = 0) (hp1 : d.parent 1 = 1)
    (r : ℕ) (rest : List ℕ) :
    KVer.trialLoop 4 1 [(0, 1)] (r :: rest) (d, 4) =
      KVer.trialLoop 4 1 [(0, 1)] rest (unionSets 4 d 0 1, 3) := by
  have h1 : dusFind 4 d 0 = (0, d) := dusFind_root 4 d 0 hp0
  have h2 : dusFind 4 d 1 = (1, d) := dusFind_root 4 d 1 hp1
  have hstep : KVer.trialLoop 4 1 [(0, 1)] (r :: rest) (d, 4) =
      (if (4 : ℕ) ≤ 2 then ((d, 4) : DisjointUnionSets × ℕ)
       else
         let e := ([((0 : ℕ), (1 : ℕ))]).getD (r % 1) ((0 : ℕ), (0 : ℕ))
         let f1 := dusFind 4 d e.1
         let f2 := dusFind 4 f1.2 e.2
         if f1.1 = f2.1 then KVer.trialLoop 4 1 [(0, 1)] rest (f2.2, 4)
         else KVer.trialLoop 4 1 [(0, 1)] rest (unionSets 4 f2.2 f1.1 f2.1, 4 - 1)) := rfl
  rw [hstep, if_neg (by decide : ¬(4 : ℕ) ≤ 2), Nat.mod_one]
  simp only [List.getD_cons_zero, h1, h2]
  rw [if_neg (by decide : ¬(0 : ℕ) = 1)]

theorem kv_stepB (d : DisjointUnionSets) (hp0 : d.parent 0 = 0) (hp1 : d.parent 1 = 0)
    (r : ℕ) (rest : List ℕ) :
    KVer.trialLoop 4 1 [(0, 1)] (r :: rest) (d, 3) =
      KVer.trialLoop 4 1 [(0, 1)] rest
        (⟨d.rank, fun j => if j = 1 then 0 else d.parent j⟩, 3) := by
  have h1 : dusFind 4 d 0 = (0, d) := dusFind_root 4 d 0 hp0
  have h2 : dusFind 4 d 1 = (0, ⟨d.rank, fun j => if j = 1 then 0 else d.parent j⟩) :=
    dusFind_child 4 (by decide) d 1 0 hp1 (by rw [hp1]; decide) hp0
  have hstep : KVer.trialLoop 4 1 [(0, 1)] (r :: rest) (d, 3) =
      (if (3 : ℕ) ≤ 2 then ((d, 3) : DisjointUnionSets × ℕ)
       else
         let e := ([((0 : ℕ), (1 : ℕ))]).getD (r % 1) ((0 : ℕ), (0 : ℕ))
         let f1 := dusFind 4 d e.1
         let f2 := dusFind 4 f1.2 e.2
         if f1.1 = f2.1 then KVer.trialLoop 4 1 [(0, 1)] rest (f2.2, 3)
         else KVer.trialLoop 4 1 [(0, 1)] rest (unionSets 4 f2.2 f1.1 f2.1, 3 - 1)) := rfl
  rw [hstep, if_neg (by decide : ¬(3 : ℕ) ≤ 2), Nat.mod_one]
  simp only [List.getD_cons_zero, h1, h2]
  rw [if_pos trivial]

theorem kv_trialLoop_inv (draws : List ℕ) :
    ∀ d : DisjointUnionSets, ∀ v : ℕ,
      ((v = 4 ∧ d.parent 0 = 0 ∧ d.parent 1 = 1 ∧ d.rank 0 = d.rank 1) ∨
       (v = 3 ∧ d.parent 0 = 0 ∧ d.parent 1 = 0)) →
      2 < (KVer.trialLoop 4 1 [(0, 1)] draws (d, v)).2 := by
  induction draws with
  | nil =>
      intro d v h
      show 2 < v
      rcases h with ⟨h2, _⟩ | ⟨h2, _⟩ <;> omega
  | cons r rest ih =>
      intro d v h
      rcases h with ⟨h2, hp0, hp1, hr⟩ | ⟨h2, hp0, hp1⟩
      · subst h2
        rw [kv_stepA d hp0 hp1 r rest]
        exact ih _ _ (Or.inr ⟨rfl, (unionTie_parents d hp0 hp1 hr).1,
          (unionTie_parents d hp0 hp1 hr).2⟩)
      · subst h2
        rw [kv_stepB d hp0 hp1 r rest]
        refine ih _ _ (Or.inr ⟨rfl, ?_, ?_⟩)
        · show (if (0 : ℕ) = 1 then 0 else d.parent 0) = 0
          rw [if_neg (by decide : ¬(0 : ℕ) = 1)]
          exact hp0
        · show (if (1 : ℕ) = 1 then 0 else d.parent 1) = 0
          rw [if_pos rfl]

/-- Claim C2 is false of the code: on the 4-vertex graph whose only edge is
`(0, 1)` (three connected components), a single contraction trial of
`kargercppver.cpp` can never bring the component counter below 3, so its
`while (vertices > 2)` loop spins forever: no finite sequence of `rand()`
draws makes the trial terminate. -/
theorem karger_ver_trial_nonterminating :
    ∀ draws : List ℕ, KVer.karger_min_cut_trial 4 1 [(0, 1)] draws = none := by
  intro draws
  have h : 2 < (KVer.trialLoop 4 1 [(0, 1)] draws (dusInit, 4)).2 :=
    kv_trialLoop_inv draws dusInit 4 (Or.inl ⟨rfl, rfl, rfl, rfl⟩)
  unfold KVer.karger_min_cut_trial
  rw [if_neg (by omega)]

/-! ### The sentinel-or-exact contract of the linear-scan engine (claim C4) -/

theorem cutVal_nonneg (V : ℕ) (g : Mat) (S : Finset ℕ) (hn : nonnegOn V g) :
    0 ≤ cutVal V g S := by
  unfold cutVal
  apply Finset.sum_nonneg
  intro i hi
  apply Finset.sum_nonneg
  intro j hj
  by_cases hc : i ∈ S ∧ j ∉ S
  · rw [if_pos hc]
    exact hn i (Finset.mem_range.mp hi) j (Finset.mem_range.mp hj)
  · rw [if_neg hc]

theorem minCut_nonneg (V : ℕ) (g : Mat) (hV : 2 ≤ V) (hn : nonnegOn V g) :
    0 ≤ minCut V g := by
  rcases exists_minCut g (properCuts_nonempty hV) with ⟨S, _, hEq⟩
  rw [hEq]
  exact cutVal_nonneg V g S hn

theorem cutVal_le_total (V : ℕ) (g : Mat) (S : Finset ℕ) (hn : nonnegOn V g) :
    cutVal V g S ≤ ∑ i ∈ Finset.range V, ∑ j ∈ Finset.range V, g i j := by
  unfold cutVal
  apply Finset.sum_le_sum
  intro i hi
  apply Finset.sum_le_sum
  intro j hj
  by_cases hc : i ∈ S ∧ j ∉ S
  · rw [if_pos hc]
  · rw [if_neg hc]
    exact hn i (Finset.mem_range.mp hi) j (Finset.mem_range.mp hj)

theorem minCut_le_total (V : ℕ) (g : Mat) (hV : 2 ≤ V) (hn : nonnegOn V g) :
    minCut V g ≤ ∑ i ∈ Finset.range V, ∑ j ∈ Finset.range V, g i j := by
  rcases exists_minCut g (properCuts_nonempty hV) with ⟨S, _, hEq⟩
  rw [hEq]
  exact cutVal_le_total V g S hn

/-- Claim C4: for every weight matrix with `V < 2` the linear-scan engine
of `stoer_wagner.cpp` returns `INT_MAX` as the "undefined" sentinel, and
for every symmetric non-negative matrix with `V ≥ 2` whose total weight
is at most `INT_MAX` — the overflow-free inputs, on which every `int`
quantity the source computes (entries, `weight[i]` accumulations, merged
entries, cut candidates) stays within `int` range, so the ideal-integer
embedding coincides with the `int` arithmetic of the source — it returns
the exact global minimum cut weight as a non-negative integer.  Outside
that regime the source's signed arithmetic can overflow, so no
integer-valued statement about the returned `int` is derivable from the
source. -/
theorem sw_exact_sentinel_and_exact (V : ℕ) (g : Mat) :
    (V < 2 → (SWLin.stoer_wagner V g).1 = INT_MAX) ∧
    (2 ≤ V → symmOn V g → nonnegOn V g →
      (∑ i ∈ Finset.range V, ∑ j ∈ Finset.range V, g i j) ≤ INT_MAX →
      (SWLin.stoer_wagner V g).1 = minCut V g ∧
      0 ≤ (SWLin.stoer_wagner V g).1) := by
  constructor
  · intro hV
    match V, hV with
    | 0, _ => rfl
    | 1, _ => rfl
  · intro hV hs hn htot
    have he := SWLin.stoer_wagner_exact V g hV hs hn
    have hle : minCut V g ≤ INT_MAX := le_trans (minCut_le_total V g hV hn) htot
    rw [he, min_eq_right hle]
    exact ⟨rfl, minCut_nonneg V g hV hn⟩

set_option maxRecDepth 10000 in
/-- Witness for claim C4: the one-vertex case returns the `INT_MAX`
sentinel, and the two-vertex graph with edge weight `7` (total weight
`14`, well within `int` range) gets its exact non-negative minimum
cut. -/
theorem sw_exact_sentinel_and_exact_witness :
    (SWLin.stoer_wagner 1 (matOfLists [[0]])).1 = INT_MAX ∧
    ((SWLin.stoer_wagner 2 (matOfLists [[0, 7], [7, 0]])).1 =
      minCut 2 (matOfLists [[0, 7], [7, 0]]) ∧
     0 ≤ (SWLin.stoer_wagner 2 (matOfLists [[0, 7], [7, 0]])).1) :=
  ⟨(sw_exact_sentinel_and_exact 1 (matOfLists [[0]])).1 (by decide),
   (sw_exact_sentinel_and_exact 2 (matOfLists [[0, 7], [7, 0]])).2
     (by decide) (by unfold symmOn; decide) (by unfold nonnegOn; decide) (by decide)⟩

/-! ### Agreement of the two deterministic engines (claim C1) -/

/-- Connectivity of the `V`-vertex graph: every vertex is reachable from
vertex `0` through edges of non-zero weight. -/
def connectedOn (V : ℕ) (g : Mat) : Prop :=
  ∀ i < V, Relation.ReflTransGen (fun a b => a < V ∧ b < V ∧ g a b ≠ 0) 0 i

/-- Claim C1: on every symmetric non-negative connected input with
`V ≥ 2`, the linear-scan engine (`stoer_wagner.cpp`) and the
priority-queue engine (`stoer_wagner_pq.cpp`) return the same minimum
cut value — both compute `min INT_MAX (minCut V g)` regardless of how
maximum-weight ties are broken. -/
theorem sw_engines_agree (V : ℕ) (g : Mat) (hV : 2 ≤ V)
    (hs : symmOn V g) (hn : nonnegOn V g) (hc : connectedOn V g) :
    (SWLin.stoer_wagner V g).1 = (SWPQ.stoer_wagner V g).1 := by
  rw [SWLin.stoer_wagner_exact V g hV hs hn, SWPQ.stoer_wagner_pq_exact V g hV hs hn]

set_option maxRecDepth 10000 in
/-- Witness for claim C1 at the equal-weight triangle, an input on which
the two engines' tie-breaking orders differ (first-maximum scan versus
last-pushed-maximum pop). -/
theorem sw_engines_agree_witness :
    (SWLin.stoer_wagner 3 (matOfLists [[0, 1, 1], [1, 0, 1], [1, 1, 0]])).1 =
      (SWPQ.stoer_wagner 3 (matOfLists [[0, 1, 1], [1, 0, 1], [1, 1, 0]])).1 :=
  sw_engines_agree 3 (matOfLists [[0, 1, 1], [1, 0, 1], [1, 1, 0]])
    (by decide) (by unfold symmOn; decide) (by unfold nonnegOn; decide)
    (by
      intro i hi
      interval_cases i
      · exact Relation.ReflTransGen.refl
      · exact Relation.ReflTransGen.single ⟨by decide, by decide, by decide⟩
      · exact Relation.ReflTransGen.single ⟨by decide, by decide, by decide⟩)

/-! ### Freshness of the working matrix per top-level call (claim C8) -/

set_option maxRecDepth 10000 in
/-- Counterexample for claim C8: the linear-scan engine of
`stoer_wagner.cpp` receives the caller's matrix by non-const reference
and mutates it in place (merge updates and row/column erasure), so after
the call on `[[0, 7], [7, 0]]` the caller's entry `(0, 0)` holds `7`,
not its original value `0`. -/
theorem sw_linear_mutates_input_cex :
    (SWLin.stoer_wagner 2 (matOfLists [[0, 7], [7, 0]])).2 0 0 = 7 ∧
    matOfLists [[0, 7], [7, 0]] 0 0 = 0 := by
  exact ⟨by decide, by decide⟩

/-- Claim C8 as amended: only the priority-queue engine
(`stoer_wagner_pq.cpp`) creates its working matrix fresh per call (it
copies `G_mat` and mutates the copy), so its caller's matrix is returned
unchanged; the linear-scan engine mutates the caller's matrix itself. -/
theorem sw_pq_fresh_matrix_per_call (V : ℕ) (g : Mat) :
    (SWPQ.stoer_wagner V g).2 = g := rfl

/-! ### The per-phase weight invariant of the linear-scan engine (claim C6) -/

/-- Claim C6: within every phase of the linear-scan engine, after
initialization (`k = 0`) and after each of the `V - 1` vertex additions
(`k = 1, …, V-1`), every not-yet-added vertex `i` has `weight[i]` equal
to the sum of the edge weights from `i` to the vertices currently in the
added set. -/
theorem sw_phase_weight_invariant (V : ℕ) (g : Mat) (hV : 2 ≤ V)
    (hs : symmOn V g) (hn : nonnegOn V g) (k : ℕ) (hk : k ≤ V - 1)
    (i : ℕ) (hi : i < V) (hna : (SWLin.phaseRun V g k).added i = false) :
    (SWLin.phaseRun V g k).wt i =
      ∑ a ∈ (Finset.range V).filter
        (fun a => (SWLin.phaseRun V g k).added a = true), g i a := by
  have hP := SWLin.phase_inv V g hV hs hn k hk
  rw [hP.hwt i hi hna]
  have hset : (Finset.range V).filter
      (fun a => (SWLin.phaseRun V g k).added a = true)
      = (Finset.range (k + 1)).image (SWLin.ord V g) := by
    ext a
    simp only [Finset.mem_filter, Finset.mem_range, Finset.mem_image]
    constructor
    · rintro ⟨_, hadd⟩
      rcases (hP.hadded a).mp hadd with ⟨t, ht, hte⟩
      exact ⟨t, by omega, hte⟩
    · rintro ⟨t, ht, hte⟩
      refine ⟨?_, (hP.hadded a).mpr ⟨t, by omega, hte⟩⟩
      rw [← hte]
      exact hP.hlt t (by omega)
  have hinj : ∀ x ∈ Finset.range (k + 1), ∀ y ∈ Finset.range (k + 1),
      SWLin.ord V g x = SWLin.ord V g y → x = y := by
    intro x hx y hy hxy
    exact hP.hinj x (Nat.lt_succ_iff.mp (Finset.mem_range.mp hx)) y
      (Nat.lt_succ_iff.mp (Finset.mem_range.mp hy)) hxy
  rw [hset, Finset.sum_image hinj]
  unfold keyW
  apply Finset.sum_congr rfl
  intro t ht
  exact hs (SWLin.ord V g t) (hP.hlt t (Nat.lt_succ_iff.mp (Finset.mem_range.mp ht))) i hi

set_option maxRecDepth 10000 in
/-- Witness for claim C6 on the equal-weight triangle after the first
vertex addition (`k = 1`): the remaining vertex `2` carries the summed
weight to the added set `{0, 1}`. -/
theorem sw_phase_weight_invariant_witness :
    (SWLin.phaseRun 3 (matOfLists [[0, 1, 1], [1, 0, 1], [1, 1, 0]]) 1).wt 2 =
      ∑ a ∈ (Finset.range 3).filter
        (fun a => (SWLin.phaseRun 3 (matOfLists [[0, 1, 1], [1, 0, 1], [1, 1, 0]]) 1).added a = true),
        matOfLists [[0, 1, 1], [1, 0, 1], [1, 1, 0]] 2 a :=
  sw_phase_weight_invariant 3 (matOfLists [[0, 1, 1], [1, 0, 1], [1, 1, 0]])
    (by decide) (by unfold symmOn; decide) (by unfold nonnegOn; decide)
    1 (by decide) 2 (by decide) (by decide)

/-! ### The merge invariants (claim C5) -/

/-- Total weight of the ordered off-diagonal entries of the `V × V`
block: the total edge weight sum, excluding self-loop (diagonal) terms. -/
def offDiagSum (V : ℕ) (g : Mat) : ℤ :=
  ∑ i ∈ Finset.range V, ∑ j ∈ Finset.range V, if i ≠ j then g i j else 0

theorem sum_ite_ne_erase (s : Finset ℕ) (c : ℕ) (hc : c ∈ s) (h : ℕ → ℤ) :
    ∑ b ∈ s, (if c ≠ b then h b else 0) = ∑ b ∈ s.erase c, h b := by
  have hsplit := Finset.add_sum_erase s (fun b => if c ≠ b then h b else 0) hc
  simp only [] at hsplit
  rw [← hsplit, if_neg (fun hcc => hcc rfl), zero_add]
  apply Finset.sum_congr rfl
  intro b hb
  exact if_pos (fun hcb => (Finset.mem_erase.mp hb).1 hcb.symm)

theorem offdiag_split (s : Finset ℕ) (c : ℕ) (hc : c ∈ s) (X : ℕ → ℕ → ℤ) :
    ∑ a ∈ s, ∑ b ∈ s, (if a ≠ b then X a b else 0)
      = (∑ b ∈ s.erase c, X c b) + (∑ a ∈ s.erase c, X a c)
        + ∑ a ∈ s.erase c, ∑ b ∈ s.erase c, (if a ≠ b then X a b else 0) := by
  have houter := Finset.add_sum_erase s
    (fun a => ∑ b ∈ s, (if a ≠ b then X a b else 0)) hc
  simp only [] at houter
  rw [← houter, sum_ite_ne_erase s c hc (X c)]
  have hinner : ∀ a ∈ s.erase c,
      ∑ b ∈ s, (if a ≠ b then X a b else 0)
        = X a c + ∑ b ∈ s.erase c, (if a ≠ b then X a b else 0) := by
    intro a ha
    have hsplit := Finset.add_sum_erase s (fun b => if a ≠ b then X a b else 0) hc
    simp only [] at hsplit
    rw [← hsplit, if_pos (Finset.mem_erase.mp ha).1]
  rw [Finset.sum_congr rfl hinner, Finset.sum_add_distrib]
  ring

theorem offDiagSum_contract (V prev last : ℕ) (g : Mat)
    (hs : symmOn V g) (hpV : prev < V) (hlV : last < V) (hpl : prev ≠ last) :
    offDiagSum (V - 1) (contractMat prev last V g) = offDiagSum V g - 2 * g prev last := by
  have hprevR : prev ∈ (Finset.range V).erase last :=
    Finset.mem_erase.mpr ⟨hpl, Finset.mem_range.mpr hpV⟩
  have hlastR : last ∈ Finset.range V := Finset.mem_range.mpr hlV
  have hre : ∑ a ∈ (Finset.range V).erase last, ∑ b ∈ (Finset.range V).erase last,
        (if a ≠ b then mergeLoop prev last V g a b else 0)
      = offDiagSum (V - 1) (contractMat prev last V g) := by
    unfold offDiagSum
    rw [sum_reindex_shUp hlV]
    apply Finset.sum_congr rfl
    intro i hi
    rw [sum_reindex_shUp hlV]
    apply Finset.sum_congr rfl
    intro j hj
    by_cases hij : i = j
    · subst hij
      rw [if_neg (fun hc => hc rfl), if_neg (fun hc => hc rfl)]
    · rw [if_pos (fun hc => hij (shUp_inj hc)), if_pos hij]
      exact (delIdx_apply last (mergeLoop prev last V g) i j).symm
  have hrow : ∀ b ∈ ((Finset.range V).erase last).erase prev,
      mergeLoop prev last V g prev b = g prev b + g last b := by
    intro b hb
    exact mergeLoop_row prev last hpl V g b
      (Finset.mem_range.mp (Finset.mem_erase.mp (Finset.mem_erase.mp hb).2).2)
      (Finset.mem_erase.mp hb).1
  have hcol : ∀ a ∈ ((Finset.range V).erase last).erase prev,
      mergeLoop prev last V g a prev = g prev a + g last a := by
    intro a ha
    exact mergeLoop_col prev last hpl V g a
      (Finset.mem_range.mp (Finset.mem_erase.mp (Finset.mem_erase.mp ha).2).2)
      (Finset.mem_erase.mp ha).1
  have hmid : ∑ a ∈ ((Finset.range V).erase last).erase prev,
      ∑ b ∈ ((Finset.range V).erase last).erase prev,
        (if a ≠ b then mergeLoop prev last V g a b else 0)
      = ∑ a ∈ ((Finset.range V).erase last).erase prev,
        ∑ b ∈ ((Finset.range V).erase last).erase prev,
          (if a ≠ b then g a b else 0) := by
    apply Finset.sum_congr rfl
    intro a ha
    apply Finset.sum_congr rfl
    intro b hb
    by_cases hab : a = b
    · subst hab
      rw [if_neg (fun hc => hc rfl), if_neg (fun hc => hc rfl)]
    · rw [if_pos hab, if_pos hab]
      exact mergeLoop_ne prev last V g a b
        (Finset.mem_erase.mp ha).1 (Finset.mem_erase.mp hb).1
  have hrowS : ∑ b ∈ ((Finset.range V).erase last).erase prev, mergeLoop prev last V g prev b
      = ∑ b ∈ ((Finset.range V).erase last).erase prev, (g prev b + g last b) :=
    Finset.sum_congr rfl hrow
  have hcolS : ∑ a ∈ ((Finset.range V).erase last).erase prev, mergeLoop prev last V g a prev
      = ∑ a ∈ ((Finset.range V).erase last).erase prev, (g prev a + g last a) :=
    Finset.sum_congr rfl hcol
  have hR1 : offDiagSum V g
      = (∑ b ∈ (Finset.range V).erase last, g last b)
        + (∑ a ∈ (Finset.range V).erase last, g a last)
        + ∑ a ∈ (Finset.range V).erase last, ∑ b ∈ (Finset.range V).erase last,
            (if a ≠ b then g a b else 0) := by
    unfold offDiagSum
    exact offdiag_split (Finset.range V) last hlastR g
  have hsplitR2 := offdiag_split ((Finset.range V).erase last) prev hprevR g
  have hsymcolR : ∑ a ∈ (Finset.range V).erase last, g a last
      = ∑ a ∈ (Finset.range V).erase last, g last a := by
    apply Finset.sum_congr rfl
    intro a ha
    exact hs a (Finset.mem_range.mp (Finset.mem_erase.mp ha).2) last hlV
  have hsymcolR2 : ∑ a ∈ ((Finset.range V).erase last).erase prev, g a prev
      = ∑ a ∈ ((Finset.range V).erase last).erase prev, g prev a := by
    apply Finset.sum_congr rfl
    intro a ha
    exact hs a
      (Finset.mem_range.mp (Finset.mem_erase.mp (Finset.mem_erase.mp ha).2).2)
      prev hpV
  have hlrow : ∑ b ∈ (Finset.range V).erase last, g last b
      = g last prev + ∑ b ∈ ((Finset.range V).erase last).erase prev, g last b :=
    (Finset.add_sum_erase ((Finset.range V).erase last) (fun b => g last b) hprevR).symm
  have hsym2 : g last prev = g prev last := hs last hlV prev hpV
  rw [← hre, offdiag_split ((Finset.range V).erase last) prev hprevR
    (mergeLoop prev last V g), hrowS, hcolS, hmid, Finset.sum_add_distrib,
    hR1, hsplitR2, hsymcolR, hsymcolR2, hlrow, hsym2]
  ring

theorem cutVal_offdiag_only (V : ℕ) (g1 g2 : Mat) (S : Finset ℕ)
    (h : ∀ i j, i ≠ j → g1 i j = g2 i j) : cutVal V g1 S = cutVal V g2 S := by
  unfold cutVal
  apply Finset.sum_congr rfl
  intro i _
  apply Finset.sum_congr rfl
  intro j _
  by_cases hc : i ∈ S ∧ j ∉ S
  · rw [if_pos hc, if_pos hc]
    exact h i j (fun he => hc.2 (he ▸ hc.1))
  · rw [if_neg hc, if_neg hc]

/-- Claim C5: after every merge of vertex `last` into vertex `prev` (the
shared merge-and-erase code of both Stoer–Wagner variants), the contracted
matrix is again symmetric on the remaining block, and its off-diagonal
total weight equals the original one minus the collapsed `prev`–`last`
term (which moved onto the diagonal as a self-loop); moreover each
phase's cut candidate equals the cut value of the isolating cut of its
last-added vertex, a quantity that ignores diagonal entries entirely —
so the collapsed self-loop term is never added to any phase's cut
candidate, in either engine. -/
theorem sw_merge_invariants (V prev last : ℕ) (g : Mat)
    (hs : symmOn V g) (hpV : prev < V) (hlV : last < V) (hpl : prev ≠ last) :
    symmOn (V - 1) (contractMat prev last V g) ∧
    offDiagSum (V - 1) (contractMat prev last V g) = offDiagSum V g - 2 * g prev last ∧
    (2 ≤ V → nonnegOn V g →
      ((SWLin.phaseRun V g (V - 1)).wt ((SWLin.phaseRun V g (V - 1)).last.toNat) =
          cutVal V g ((Finset.range V).erase (SWLin.ord V g (V - 1))) ∧
       (SWPQ.pqPhaseRun V g (V - 1)).wt ((SWPQ.pqPhaseRun V g (V - 1)).last.toNat) =
          cutVal V g ((Finset.range V).erase (SWPQ.ordPQ V g (V - 1))) ∧
       ∀ g' : Mat, (∀ i j, i ≠ j → g i j = g' i j) →
         cutVal V g ((Finset.range V).erase (SWLin.ord V g (V - 1))) =
           cutVal V g' ((Finset.range V).erase (SWLin.ord V g (V - 1))) ∧
         cutVal V g ((Finset.range V).erase (SWPQ.ordPQ V g (V - 1))) =
           cutVal V g' ((Finset.range V).erase (SWPQ.ordPQ V g (V - 1))))) := by
  refine ⟨contract_symm g hpl hpV hlV hs,
    offDiagSum_contract V prev last g hs hpV hlV hpl, ?_⟩
  intro hV hn
  obtain ⟨hMA, hlast, _, hwt⟩ := SWLin.phase_ma V g hV hs hn
  obtain ⟨hMAq, _, hlastq, _, hwtq⟩ := SWPQ.pq_phase_ma V g hV hn
  refine ⟨?_, ?_, ?_⟩
  · show (SWLin.phaseRun V g (V - 1)).wt (SWLin.ord V g (V - 1)) = _
    rw [hwt]
    exact keyW_eq_cutVal_isolate V g (SWLin.ord V g) hMA hV
  · show (SWPQ.pqPhaseRun V g (V - 1)).wt (SWPQ.ordPQ V g (V - 1)) = _
    rw [hwtq]
    exact keyW_eq_cutVal_isolate V g (SWPQ.ordPQ V g) hMAq hV
  · intro g' hgg
    exact ⟨cutVal_offdiag_only V g g' _ hgg, cutVal_offdiag_only V g g' _ hgg⟩

set_option maxRecDepth 10000 in
/-- Witness for claim C5 on the equal-weight triangle, merging vertex `2`
into vertex `0`: symmetry survives, the off-diagonal total drops by twice
the collapsed term, and the phase candidate of the linear engine is the
isolating cut value. -/
theorem sw_merge_invariants_witness :
    symmOn 2 (contractMat 0 2 3 (matOfLists [[0, 1, 1], [1, 0, 1], [1, 1, 0]])) ∧
    offDiagSum 2 (contractMat 0 2 3 (matOfLists [[0, 1, 1], [1, 0, 1], [1, 1, 0]])) =
      offDiagSum 3 (matOfLists [[0, 1, 1], [1, 0, 1], [1, 1, 0]]) -
        2 * matOfLists [[0, 1, 1], [1, 0, 1], [1, 1, 0]] 0 2 ∧
    (SWLin.phaseRun 3 (matOfLists [[0, 1, 1], [1, 0, 1], [1, 1, 0]]) 2).wt
        ((SWLin.phaseRun 3 (matOfLists [[0, 1, 1], [1, 0, 1], [1, 1, 0]]) 2).last.toNat) =
      cutVal 3 (matOfLists [[0, 1, 1], [1, 0, 1], [1, 1, 0]])
        ((Finset.range 3).erase (SWLin.ord 3 (matOfLists [[0, 1, 1], [1, 0, 1], [1, 1, 0]]) 2)) :=
  ⟨(sw_merge_invariants 3 0 2 (matOfLists [[0, 1, 1], [1, 0, 1], [1, 1, 0]])
      (by unfold symmOn; decide) (by decide) (by decide) (by decide)).1,
   (sw_merge_invariants 3 0 2 (matOfLists [[0, 1, 1], [1, 0, 1], [1, 1, 0]])
      (by unfold symmOn; decide) (by decide) (by decide) (by decide)).2.1,
   ((sw_merge_invariants 3 0 2 (matOfLists [[0, 1, 1], [1, 0, 1], [1, 1, 0]])
      (by unfold symmOn; decide) (by decide) (by decide) (by decide)).2.2
      (by decide) (by unfold nonnegOn; decide)).1⟩

/-! ### Union-find well-formedness (for the disconnected-graph claim C7) -/

/-- Number of union-find roots among the first `n` vertices. -/
def numRoots (n : ℕ) (d : DisjointUnionSets) : ℕ :=
  ((Finset.range n).filter (fun i => d.parent i = i)).card

/-- Well-formedness of a union-find state over `n` vertices, as
maintained by the `DisjointUnionSets` class: parents stay in range,
ranks strictly increase along parent chains, and the rank of any vertex
plus the number of remaining roots never exceeds `n` (each rank bump
costs one root). -/
structure UFWF (n : ℕ) (d : DisjointUnionSets) : Prop where
  hlt : ∀ i < n, d.parent i < n
  hrank : ∀ i < n, d.parent i ≠ i → d.rank i < d.rank (d.parent i)
  hbound : ∀ i < n, d.rank i + numRoots n d ≤ n

theorem rootAux_fix (p : ℕ → ℕ) (r : ℕ) (h : p r = r) :
    ∀ fuel, rootAux fuel p r = r := by
  intro fuel
  induction fuel with
  | zero => rfl
  | succ f _ =>
      show (if p r = r then r else rootAux f p (p r)) = r
      rw [if_pos h]

theorem rootAux_stable (p : ℕ → ℕ) :
    ∀ fuel i, p (rootAux fuel p i) = rootAux fuel p i →
      rootAux (fuel + 1) p i = rootAux fuel p i := by
  intro fuel
  induction fuel with
  | zero =>
      intro i h
      have h' : p i = i := h
      show (if p i = i then i else rootAux 0 p (p i)) = i
      rw [if_pos h']
  | succ f ih =>
      intro i h
      by_cases hp : p i = i
      · show (if p i = i then i else rootAux (f + 1) p (p i)) = rootAux (f + 1) p i
        rw [if_pos hp]
        exact (rootAux_fix p i hp (f + 1)).symm
      · have hL : rootAux (f + 1 + 1) p i = rootAux (f + 1) p (p i) := by
          show (if p i = i then i else rootAux (f + 1) p (p i)) = _
          rw [if_neg hp]
        have hR : rootAux (f + 1) p i = rootAux f p (p i) := by
          show (if p i = i then i else rootAux f p (p i)) = _
          rw [if_neg hp]
        rw [hL, hR]
        apply ih
        rw [← hR]
        exact h

theorem root_reach (n : ℕ) (d : DisjointUnionSets) (wf : UFWF n d) :
    ∀ fuel i, i < n → n < d.rank i + numRoots n d + fuel →
      d.parent (rootAux fuel d.parent i) = rootAux fuel d.parent i ∧
      rootAux fuel d.parent i < n ∧
      d.rank i ≤ d.rank (rootAux fuel d.parent i) := by
  intro fuel
  induction fuel with
  | zero =>
      intro i hi hfuel
      exact absurd hfuel (by have := wf.hbound i hi; omega)
  | succ f ih =>
      intro i hi hfuel
      by_cases hp : d.parent i = i
      · have he : rootAux (f + 1) d.parent i = i := by
          show (if d.parent i = i then i else rootAux f d.parent (d.parent i)) = i
          rw [if_pos hp]
        rw [he]
        exact ⟨hp, hi, le_refl _⟩
      · have he : rootAux (f + 1) d.parent i = rootAux f d.parent (d.parent i) := by
          show (if d.parent i = i then i else rootAux f d.parent (d.parent i)) = _
          rw [if_neg hp]
        rw [he]
        have hpi : d.parent i < n := wf.hlt i hi
        have hri : d.rank i < d.rank (d.parent i) := wf.hrank i hi hp
        have hrec := ih (d.parent i) hpi (by omega)
        exact ⟨hrec.1, hrec.2.1, le_trans (le_of_lt hri) hrec.2.2⟩

theorem dusRoot_spec (n : ℕ) (d : DisjointUnionSets) (wf : UFWF n d)
    (i : ℕ) (hi : i < n) :
    d.parent (dusRoot n d i) = dusRoot n d i ∧ dusRoot n d i < n ∧
    d.rank i ≤ d.rank (dusRoot n d i) :=
  root_reach n d wf (n + 1) i hi (by omega)

theorem dusRoot_parent (n : ℕ) (d : DisjointUnionSets) (wf : UFWF n d)
    (j : ℕ) (hj : j < n) (hp : d.parent j ≠ j) :
    dusRoot n d j = dusRoot n d (d.parent j) := by
  have hL : dusRoot n d j = rootAux n d.parent (d.parent j) := by
    show (if d.parent j = j then j else rootAux n d.parent (d.parent j)) = _
    rw [if_neg hp]
  have hpj : d.parent j < n := wf.hlt j hj
  have hrk : 1 ≤ d.rank (d.parent j) := by
    have := wf.hrank j hj hp
    omega
  have hreach := root_reach n d wf n (d.parent j) hpj (by omega)
  have hstab : rootAux (n + 1) d.parent (d.parent j) = rootAux n d.parent (d.parent j) :=
    rootAux_stable d.parent n (d.parent j) hreach.1
  rw [hL]
  exact hstab.symm

theorem dusRoot_of_root (n : ℕ) (d : DisjointUnionSets) (r : ℕ)
    (h : d.parent r = r) : dusRoot n d r = r :=
  rootAux_fix d.parent r h (n + 1)

theorem numRoots_congr (n : ℕ) (d d' : DisjointUnionSets)
    (h : ∀ j, d'.parent j = j ↔ d.parent j = j) :
    numRoots n d' = numRoots n d := by
  unfold numRoots
  congr 1
  apply Finset.filter_congr
  intro j _
  exact h j

theorem updateParent_spec (n : ℕ) (d d' : DisjointUnionSets) (wf : UFWF n d)
    (a b : ℕ) (ha : a < n) (hb : b < n) (hab : a ≠ b)
    (hp' : ∀ j, d'.parent j = if j = a then b else d.parent j)
    (hrootb : d.parent b = b)
    (hcase : dusRoot n d a = b ∨ dusRoot n d a = a)
    (hrankab : d.rank a < d'.rank b)
    (hrk_other : ∀ j, j ≠ b → d'.rank j = d.rank j)
    (hrk_mono : ∀ j, d.rank j ≤ d'.rank j)
    (hB : ∀ j, j < n →
      d'.rank j + (if d.parent a = a then numRoots n d - 1 else numRoots n d) ≤ n) :
    (∀ j, d'.parent j = j ↔ (d.parent j = j ∧ j ≠ a)) ∧
    numRoots n d' = (if d.parent a = a then numRoots n d - 1 else numRoots n d) ∧
    UFWF n d' ∧
    (∀ j, j < n → dusRoot n d' j = if dusRoot n d j = a then b else dusRoot n d j) := by
  have hpa : d'.parent a = b := by rw [hp' a, if_pos rfl]
  have hpne : ∀ j, j ≠ a → d'.parent j = d.parent j := by
    intro j hj
    rw [hp' j, if_neg hj]
  have hroots : ∀ j, d'.parent j = j ↔ (d.parent j = j ∧ j ≠ a) := by
    intro j
    by_cases hj : j = a
    · subst hj
      rw [hpa]
      constructor
      · intro hba
        exact absurd hba.symm hab
      · intro hc
        exact absurd rfl hc.2
    · rw [hpne j hj]
      exact ⟨fun h => ⟨h, hj⟩, fun h => h.1⟩
  have hnum : numRoots n d' = (if d.parent a = a then numRoots n d - 1 else numRoots n d) := by
    by_cases hpaa : d.parent a = a
    · rw [if_pos hpaa]
      have hfe : (Finset.range n).filter (fun i => d'.parent i = i)
          = ((Finset.range n).filter (fun i => d.parent i = i)).erase a := by
        ext j
        rw [Finset.mem_erase, Finset.mem_filter, Finset.mem_filter]
        constructor
        · intro ⟨hjr, hjp⟩
          have := (hroots j).mp hjp
          exact ⟨this.2, hjr, this.1⟩
        · intro ⟨hja, hjr, hjp⟩
          exact ⟨hjr, (hroots j).mpr ⟨hjp, hja⟩⟩
      have hmem : a ∈ (Finset.range n).filter (fun i => d.parent i = i) :=
        Finset.mem_filter.mpr ⟨Finset.mem_range.mpr ha, hpaa⟩
      unfold numRoots
      rw [hfe, Finset.card_erase_of_mem hmem]
    · rw [if_neg hpaa]
      apply numRoots_congr
      intro j
      rw [hroots j]
      constructor
      · intro h
        exact h.1
      · intro h
        exact ⟨h, fun hj => hpaa (hj ▸ h)⟩
  have hnr1 : 1 ≤ numRoots n d := by
    have : b ∈ (Finset.range n).filter (fun i => d.parent i = i) :=
      Finset.mem_filter.mpr ⟨Finset.mem_range.mpr hb, hrootb⟩
    unfold numRoots
    exact Finset.card_pos.mpr ⟨b, this⟩
  have wf' : UFWF n d' := by
    refine ⟨?_, ?_, ?_⟩
    · intro j hj
      by_cases hja : j = a
      · rw [hja, hpa]
        exact hb
      · rw [hpne j hja]
        exact wf.hlt j hj
    · intro j hj hne
      by_cases hja : j = a
      · subst hja
        rw [hpa]
        rw [hrk_other j (fun hc => hab hc)]  -- wait j = a here; a ≠ b
        exact hrankab
      · rw [hpne j hja] at hne ⊢
        have hjb : j ≠ b := by
          intro hc
          rw [hc, hrootb] at hne
          exact hne rfl
        rw [hrk_other j hjb]
        exact lt_of_lt_of_le (wf.hrank j hj hne) (hrk_mono (d.parent j))
    · intro j hj
      rw [hnum]
      exact hB j hj
  have hroot_b' : d'.parent b = b := by
    rw [hpne b (fun hc => hab hc.symm)]
    exact hrootb
  have key : ∀ m j, j < n → n - d.rank j ≤ m →
      dusRoot n d' j = if dusRoot n d j = a then b else dusRoot n d j := by
    intro m
    induction m with
    | zero =>
        intro j hj hm
        have h1 := wf.hbound j hj
        omega
    | succ m ih =>
        intro j hj hm
        by_cases hpj : d.parent j = j
        · by_cases hja : j = a
          · subst hja
            have hstep : dusRoot n d' j =
                (if d'.parent j = j then j else rootAux n d'.parent (d'.parent j)) := rfl
            rw [hstep, if_neg (by rw [hpa]; exact fun hc => hab hc.symm), hpa,
              rootAux_fix d'.parent b hroot_b' n]
            rw [dusRoot_of_root n d j hpj, if_pos rfl]
          · have hp'j : d'.parent j = j := (hroots j).mpr ⟨hpj, hja⟩
            rw [dusRoot_of_root n d' j hp'j, dusRoot_of_root n d j hpj, if_neg hja]
        · by_cases hja : j = a
          · subst hja
            have hstep : dusRoot n d' j =
                (if d'.parent j = j then j else rootAux n d'.parent (d'.parent j)) := rfl
            rw [hstep, if_neg (by rw [hpa]; exact fun hc => hab hc.symm), hpa,
              rootAux_fix d'.parent b hroot_b' n]
            have hda : dusRoot n d j = b := by
              rcases hcase with h | h
              · exact h
              · exfalso
                have := (dusRoot_spec n d wf j hj).1
                rw [h] at this
                exact hpj this
            rw [hda, if_neg (fun hc => hab hc.symm)]
          · have hp'j : d'.parent j = d.parent j := hpne j hja
            have hp'ne : d'.parent j ≠ j := by
              rw [hp'j]
              exact hpj
            have hL : dusRoot n d j = dusRoot n d (d.parent j) :=
              dusRoot_parent n d wf j hj hpj
            have hL' : dusRoot n d' j = dusRoot n d' (d.parent j) := by
              have := dusRoot_parent n d' wf' j hj hp'ne
              rw [hp'j] at this
              exact this
            rw [hL, hL']
            have hpjn : d.parent j < n := wf.hlt j hj
            have hrk : d.rank j < d.rank (d.parent j) := wf.hrank j hj hpj
            have hbnd := wf.hbound (d.parent j) hpjn
            exact ih (d.parent j) hpjn (by omega)
  exact ⟨hroots, hnum, wf', fun j hj => key n j hj (by omega)⟩

theorem findAux_spec (n : ℕ) :
    ∀ fuel (d : DisjointUnionSets), UFWF n d → ∀ i, i < n →
      n < d.rank i + numRoots n d + fuel →
      (findAux fuel d i).1 = dusRoot n d i ∧
      (findAux fuel d i).2.rank = d.rank ∧
      (∀ j, (findAux fuel d i).2.parent j = j ↔ d.parent j = j) ∧
      (∀ j, j < n → dusRoot n (findAux fuel d i).2 j = dusRoot n d j) ∧
      UFWF n (findAux fuel d i).2 := by
  intro fuel
  induction fuel with
  | zero =>
      intro d wf i hi hfuel
      exact absurd hfuel (by have := wf.hbound i hi; omega)
  | succ f ih =>
      intro d wf i hi hfuel
      by_cases hp : d.parent i = i
      · have he : findAux (f + 1) d i = (i, d) := by
          show (if d.parent i = i then (i, d)
            else ((findAux f d (d.parent i)).1,
              ⟨(findAux f d (d.parent i)).2.rank,
               fun j => if j = i then (findAux f d (d.parent i)).1
               else (findAux f d (d.parent i)).2.parent j⟩)) = (i, d)
          rw [if_pos hp]
        rw [he]
        exact ⟨(dusRoot_of_root n d i hp).symm, rfl, fun j => Iff.rfl,
          fun j hj => rfl, wf⟩
      · have he : findAux (f + 1) d i =
            ((findAux f d (d.parent i)).1,
             ⟨(findAux f d (d.parent i)).2.rank,
              fun j => if j = i then (findAux f d (d.parent i)).1
              else (findAux f d (d.parent i)).2.parent j⟩) := by
          show (if d.parent i = i then (i, d)
            else ((findAux f d (d.parent i)).1,
              ⟨(findAux f d (d.parent i)).2.rank,
               fun j => if j = i then (findAux f d (d.parent i)).1
               else (findAux f d (d.parent i)).2.parent j⟩)) = _
          rw [if_neg hp]
        have hpi : d.parent i < n := wf.hlt i hi
        have hrk : d.rank i < d.rank (d.parent i) := wf.hrank i hi hp
        obtain ⟨h1, h2, h3, h4, h5⟩ := ih d wf (d.parent i) hpi (by omega)
        have hri : dusRoot n d i = dusRoot n d (d.parent i) :=
          dusRoot_parent n d wf i hi hp
        have hr1 : (findAux f d (d.parent i)).1 = dusRoot n d i := by
          rw [h1, hri]
        have hspec := dusRoot_spec n d wf i hi
        have hrn : dusRoot n d i < n := hspec.2.1
        have hrroot : d.parent (dusRoot n d i) = dusRoot n d i := hspec.1
        have hir : i ≠ dusRoot n d i := by
          intro hc
          rw [← hc] at hrroot
          exact hp hrroot
        have hrroot2 : (findAux f d (d.parent i)).2.parent (dusRoot n d i) = dusRoot n d i :=
          (h3 (dusRoot n d i)).mpr hrroot
        have hpi2 : ¬ (findAux f d (d.parent i)).2.parent i = i :=
          fun hc => hp ((h3 i).mp hc)
        have hranki : d.rank i < d.rank (dusRoot n d i) := by
          have h6 := (dusRoot_spec n d wf (d.parent i) hpi).2.2
          rw [← hri] at h6
          omega
        have hnum2 : numRoots n (findAux f d (d.parent i)).2 = numRoots n d :=
          numRoots_congr n d (findAux f d (d.parent i)).2 h3
        obtain ⟨u1, u2, u3, u4⟩ := updateParent_spec n (findAux f d (d.parent i)).2
          ⟨(findAux f d (d.parent i)).2.rank,
           fun j => if j = i then (findAux f d (d.parent i)).1
           else (findAux f d (d.parent i)).2.parent j⟩
          h5 i (dusRoot n d i) hi hrn hir
          (by
            intro j
            show (if j = i then (findAux f d (d.parent i)).1
              else (findAux f d (d.parent i)).2.parent j) = _
            rw [hr1])
          hrroot2
          (Or.inl (h4 i hi))
          (by
            show (findAux f d (d.parent i)).2.rank i <
              (findAux f d (d.parent i)).2.rank (dusRoot n d i)
            rw [h2]
            exact hranki)
          (fun j _ => rfl)
          (fun j => le_refl _)
          (by
            intro j hj
            rw [if_neg hpi2, hnum2]
            show (findAux f d (d.parent i)).2.rank j + numRoots n d ≤ n
            rw [h2]
            exact wf.hbound j hj)
        rw [he]
        refine ⟨hr1, by rw [h2], ?_, ?_, u3⟩
        · intro j
          have hu := u1 j
          by_cases hji : j = i
          · subst hji
            constructor
            · intro hc
              exact ((hu.mp hc).2 rfl).elim
            · intro hc
              exact absurd hc hp
          · rw [hu]
            constructor
            · intro hc
              exact (h3 j).mp hc.1
            · intro hc
              exact ⟨(h3 j).mpr hc, hji⟩
        · intro j hj
          have hu := u4 j hj
          have hne : dusRoot n (findAux f d (d.parent i)).2 j ≠ i := by
            intro hc
            have := (dusRoot_spec n (findAux f d (d.parent i)).2 h5 j hj).1
            rw [hc] at this
            exact hpi2 this
          rw [hu, if_neg hne]
          exact h4 j hj

theorem dusFind_spec (n : ℕ) (d : DisjointUnionSets) (wf : UFWF n d)
    (i : ℕ) (hi : i < n) :
    (dusFind n d i).1 = dusRoot n d i ∧
    (dusFind n d i).2.rank = d.rank ∧
    (∀ j, (dusFind n d i).2.parent j = j ↔ d.parent j = j) ∧
    (∀ j, j < n → dusRoot n (dusFind n d i).2 j = dusRoot n d j) ∧
    UFWF n (dusFind n d i).2 :=
  findAux_spec n (n + 1) d wf i hi (by omega)

theorem unionRoots_spec (n : ℕ) (d : DisjointUnionSets) (wf : UFWF n d)
    (x y : ℕ) (hx : x < n) (hy : y < n) (hxy : x ≠ y)
    (hrx : d.parent x = x) (hry : d.parent y = y) :
    UFWF n (unionSets n d x y) ∧
    numRoots n (unionSets n d x y) = numRoots n d - 1 ∧
    (∀ j, j < n → dusRoot n (unionSets n d x y) j =
      (if dusRoot n d j = x ∨ dusRoot n d j = y
       then (if d.rank x < d.rank y then y else x)
       else dusRoot n d j)) := by
  have he : unionSets n d x y =
      (if x = y then d
       else if d.rank x < d.rank y then ⟨d.rank, fun j => if j = x then y else d.parent j⟩
       else if d.rank y < d.rank x then ⟨d.rank, fun j => if j = y then x else d.parent j⟩
       else ⟨fun j => if j = x then d.rank x + 1 else d.rank j,
             fun j => if j = y then x else d.parent j⟩) := by
    unfold unionSets
    simp only [dusFind_root n d x hrx, dusFind_root n d y hry]
  rw [he, if_neg hxy]
  have hnr1 : 1 ≤ numRoots n d := by
    have hmem : x ∈ (Finset.range n).filter (fun i => d.parent i = i) :=
      Finset.mem_filter.mpr ⟨Finset.mem_range.mpr hx, hrx⟩
    unfold numRoots
    exact Finset.card_pos.mpr ⟨x, hmem⟩
  by_cases hlt : d.rank x < d.rank y
  · rw [if_pos hlt]
    obtain ⟨u1, u2, u3, u4⟩ := updateParent_spec n d
      ⟨d.rank, fun j => if j = x then y else d.parent j⟩ wf x y hx hy hxy
      (fun j => rfl) hry (Or.inr (dusRoot_of_root n d x hrx))
      (by show d.rank x < d.rank y; exact hlt)
      (fun j _ => rfl) (fun j => le_refl _)
      (by
        intro j hj
        rw [if_pos hrx]
        show d.rank j + (numRoots n d - 1) ≤ n
        have := wf.hbound j hj
        omega)
    rw [if_pos hrx] at u2
    refine ⟨u3, u2, ?_⟩
    intro j hj
    rw [u4 j hj, if_pos hlt]
    by_cases hc : dusRoot n d j = x ∨ dusRoot n d j = y
    · rw [if_pos hc]
      rcases hc with h | h
      · rw [if_pos h]
      · rw [if_neg (by rw [h]; exact fun hc2 => hxy hc2.symm), h]
    · rw [if_neg hc, if_neg (fun h => hc (Or.inl h))]
  · by_cases hgt : d.rank y < d.rank x
    · rw [if_neg hlt, if_pos hgt]
      obtain ⟨u1, u2, u3, u4⟩ := updateParent_spec n d
        ⟨d.rank, fun j => if j = y then x else d.parent j⟩ wf y x hy hx
        (fun hc => hxy hc.symm)
        (fun j => rfl) hrx (Or.inr (dusRoot_of_root n d y hry))
        (by show d.rank y < d.rank x; exact hgt)
        (fun j _ => rfl) (fun j => le_refl _)
        (by
          intro j hj
          rw [if_pos hry]
          show d.rank j + (numRoots n d - 1) ≤ n
          have := wf.hbound j hj
          omega)
      rw [if_pos hry] at u2
      refine ⟨u3, u2, ?_⟩
      intro j hj
      rw [u4 j hj, if_neg hlt]
      by_cases hc : dusRoot n d j = x ∨ dusRoot n d j = y
      · rw [if_pos hc]
        rcases hc with h | h
        · rw [if_neg (by rw [h]; exact hxy), h]
        · rw [if_pos h]
      · rw [if_neg hc, if_neg (fun h => hc (Or.inr h))]
    · rw [if_neg hlt, if_neg hgt]
      obtain ⟨u1, u2, u3, u4⟩ := updateParent_spec n d
        ⟨fun j => if j = x then d.rank x + 1 else d.rank j,
         fun j => if j = y then x else d.parent j⟩ wf y x hy hx
        (fun hc => hxy hc.symm)
        (fun j => rfl) hrx (Or.inr (dusRoot_of_root n d y hry))
        (by
          show d.rank y < (if x = x then d.rank x + 1 else d.rank x)
          rw [if_pos rfl]
          omega)
        (by
          intro j hj
          show (if j = x then d.rank x + 1 else d.rank j) = d.rank j
          rw [if_neg hj])
        (by
          intro j
          show d.rank j ≤ (if j = x then d.rank x + 1 else d.rank j)
          by_cases hjx : j = x
          · rw [if_pos hjx, hjx]
            omega
          · rw [if_neg hjx])
        (by
          intro j hj
          rw [if_pos hry]
          show (if j = x then d.rank x + 1 else d.rank j) + (numRoots n d - 1) ≤ n
          by_cases hjx : j = x
          · rw [if_pos hjx]
            have := wf.hbound x hx
            omega
          · rw [if_neg hjx]
            have := wf.hbound j hj
            omega)
      rw [if_pos hry] at u2
      refine ⟨u3, u2, ?_⟩
      intro j hj
      rw [u4 j hj, if_neg hlt]
      by_cases hc : dusRoot n d j = x ∨ dusRoot n d j = y
      · rw [if_pos hc]
        rcases hc with h | h
        · rw [if_neg (by rw [h]; exact hxy), h]
        · rw [if_pos h]
      · rw [if_neg hc, if_neg (fun h => hc (Or.inr h))]

/-- Invariant of a Karger contraction run over `n` vertices whose true
two-sided component structure is given by `comp`: the union-find state is
well-formed, the `vertices` counter equals the number of union-find
roots, and every vertex's root lies on its own side. -/
structure KInv (n : ℕ) (comp : ℕ → Bool) (d : DisjointUnionSets) (c : ℕ) : Prop where
  wf : UFWF n d
  hcount : numRoots n d = c
  hcomp : ∀ j < n, comp (dusRoot n d j) = comp j

theorem kinv_find (n : ℕ) (comp : ℕ → Bool) (d : DisjointUnionSets) (c : ℕ)
    (hI : KInv n comp d c) (i : ℕ) (hi : i < n) :
    KInv n comp (dusFind n d i).2 c ∧ (dusFind n d i).1 = dusRoot n d i ∧
    (∀ j, j < n → dusRoot n (dusFind n d i).2 j = dusRoot n d j) ∧
    (∀ j, (dusFind n d i).2.parent j = j ↔ d.parent j = j) := by
  obtain ⟨h1, h2, h3, h4, h5⟩ := dusFind_spec n d hI.wf i hi
  refine ⟨⟨h5, ?_, ?_⟩, h1, h4, h3⟩
  · exact (numRoots_congr n d _ h3).trans hI.hcount
  · intro j hj
    rw [h4 j hj]
    exact hI.hcomp j hj

theorem contractFold_spec (n : ℕ) (comp : ℕ → Bool) :
    ∀ (edges : List (ℕ × ℕ)) (d : DisjointUnionSets) (c : ℕ),
      KInv n comp d c →
      (∀ e ∈ edges, e.1 < n ∧ e.2 < n ∧ comp e.1 = comp e.2) →
      KInv n comp (KOpt.contractFold n edges (d, c)).1 (KOpt.contractFold n edges (d, c)).2 ∧
      (∀ a b, a < n → b < n → dusRoot n d a = dusRoot n d b →
        dusRoot n (KOpt.contractFold n edges (d, c)).1 a =
          dusRoot n (KOpt.contractFold n edges (d, c)).1 b) ∧
      ((KOpt.contractFold n edges (d, c)).2 ≤ 2 ∨
        (∀ e ∈ edges, dusRoot n (KOpt.contractFold n edges (d, c)).1 e.1 =
          dusRoot n (KOpt.contractFold n edges (d, c)).1 e.2)) := by
  intro edges
  induction edges with
  | nil =>
      intro d c hI _
      exact ⟨hI, fun a b _ _ h => h, Or.inr (fun e he => absurd he (List.not_mem_nil e))⟩
  | cons e rest ih =>
      obtain ⟨u, v⟩ := e
      intro d c hI hsane
      obtain ⟨hu, hv, hcuv⟩ := hsane (u, v) (List.mem_cons_self _ _)
      have hsane' : ∀ e ∈ rest, e.1 < n ∧ e.2 < n ∧ comp e.1 = comp e.2 :=
        fun e he => hsane e (List.mem_cons_of_mem _ he)
      have hstep : KOpt.contractFold n ((u, v) :: rest) (d, c) =
          (if c ≤ 2 then ((d, c) : DisjointUnionSets × ℕ)
           else
             if (dusFind n d u).1 ≠ (dusFind n (dusFind n d u).2 v).1 then
               KOpt.contractFold n rest
                 (unionSets n (dusFind n (dusFind n d u).2 v).2 (dusFind n d u).1
                   (dusFind n (dusFind n d u).2 v).1, c - 1)
             else KOpt.contractFold n rest ((dusFind n (dusFind n d u).2 v).2, c)) := rfl
      by_cases hc2 : c ≤ 2
      · rw [hstep, if_pos hc2]
        exact ⟨hI, fun a b _ _ h => h, Or.inl hc2⟩
      · rw [hstep, if_neg hc2]
        obtain ⟨hI1, hf1, hmap1, hroots1⟩ := kinv_find n comp d c hI u hu
        obtain ⟨hI2, hf2, hmap2, hroots2⟩ :=
          kinv_find n comp (dusFind n d u).2 c hI1 v hv
        have hxu : dusRoot n d u < n := (dusRoot_spec n d hI.wf u hu).2.1
        have hxroot : d.parent (dusRoot n d u) = dusRoot n d u := (dusRoot_spec n d hI.wf u hu).1
        have hyv : dusRoot n (dusFind n d u).2 v < n :=
          (dusRoot_spec n (dusFind n d u).2 hI1.wf v hv).2.1
        have hyroot : (dusFind n d u).2.parent (dusRoot n (dusFind n d u).2 v) =
            dusRoot n (dusFind n d u).2 v :=
          (dusRoot_spec n (dusFind n d u).2 hI1.wf v hv).1
        have hx2root : (dusFind n (dusFind n d u).2 v).2.parent (dusRoot n d u) =
            dusRoot n d u :=
          (hroots2 _).mpr ((hroots1 _).mpr hxroot)
        have hy2root : (dusFind n (dusFind n d u).2 v).2.parent
            (dusRoot n (dusFind n d u).2 v) = dusRoot n (dusFind n d u).2 v :=
          (hroots2 _).mpr hyroot
        have hduv : dusRoot n (dusFind n d u).2 v = dusRoot n d v := hmap1 v hv
        by_cases hne : (dusFind n d u).1 ≠ (dusFind n (dusFind n d u).2 v).1
        · rw [if_pos hne]
          rw [hf1, hf2]
          have hne' : dusRoot n d u ≠ dusRoot n (dusFind n d u).2 v := by
            rw [← hf1, ← hf2]
            exact hne
          obtain ⟨w1, w2, w3⟩ := unionRoots_spec n (dusFind n (dusFind n d u).2 v).2
            hI2.wf (dusRoot n d u) (dusRoot n (dusFind n d u).2 v) hxu hyv hne'
            hx2root hy2root
          have hmapU : ∀ j, j < n →
              dusRoot n (unionSets n (dusFind n (dusFind n d u).2 v).2 (dusRoot n d u)
                (dusRoot n (dusFind n d u).2 v)) j =
              (if dusRoot n d j = dusRoot n d u ∨ dusRoot n d j = dusRoot n d v
               then (if (dusFind n (dusFind n d u).2 v).2.rank (dusRoot n d u) <
                      (dusFind n (dusFind n d u).2 v).2.rank (dusRoot n (dusFind n d u).2 v)
                     then dusRoot n (dusFind n d u).2 v else dusRoot n d u)
               else dusRoot n d j) := by
            intro j hj
            rw [w3 j hj, hmap2 j hj, hmap1 j hj, hduv]
          have hcx : comp (dusRoot n d u) = comp u := hI.hcomp u hu
          have hcy : comp (dusRoot n (dusFind n d u).2 v) = comp v := hI1.hcomp v hv
          have hIU : KInv n comp
              (unionSets n (dusFind n (dusFind n d u).2 v).2 (dusRoot n d u)
                (dusRoot n (dusFind n d u).2 v)) (c - 1) := by
            refine ⟨w1, ?_, ?_⟩
            · rw [w2, hI2.hcount]
            · intro j hj
              rw [hmapU j hj]
              by_cases hcond : dusRoot n d j = dusRoot n d u ∨ dusRoot n d j = dusRoot n d v
              · rw [if_pos hcond]
                have hcj : comp j = comp u := by
                  rcases hcond with h | h
                  · rw [← hI.hcomp j hj, h]
                    exact hcx
                  · rw [← hI.hcomp j hj, h, hI.hcomp v hv]
                    exact hcuv.symm
                by_cases hrk : (dusFind n (dusFind n d u).2 v).2.rank (dusRoot n d u) <
                    (dusFind n (dusFind n d u).2 v).2.rank (dusRoot n (dusFind n d u).2 v)
                · rw [if_pos hrk, hcy, ← hcuv, ← hcj]
                · rw [if_neg hrk, hcx, ← hcj]
              · rw [if_neg hcond]
                exact hI.hcomp j hj
          obtain ⟨r1, r2, r3⟩ := ih
            (unionSets n (dusFind n (dusFind n d u).2 v).2 (dusRoot n d u)
              (dusRoot n (dusFind n d u).2 v)) (c - 1) hIU hsane'
          have hedge : dusRoot n (unionSets n (dusFind n (dusFind n d u).2 v).2
                (dusRoot n d u) (dusRoot n (dusFind n d u).2 v)) u =
              dusRoot n (unionSets n (dusFind n (dusFind n d u).2 v).2
                (dusRoot n d u) (dusRoot n (dusFind n d u).2 v)) v := by
            rw [hmapU u hu, hmapU v hv, if_pos (Or.inl rfl), if_pos (Or.inr rfl)]
          refine ⟨r1, ?_, ?_⟩
          · intro a b ha hb hab
            refine r2 a b ha hb ?_
            rw [hmapU a ha, hmapU b hb, hab]
          · rcases r3 with h | h
            · exact Or.inl h
            · refine Or.inr ?_
              intro e he
              rcases List.mem_cons.mp he with he1 | he2
              · rw [he1]
                exact r2 u v hu hv hedge
              · exact h e he2
        · rw [if_neg hne]
          have heq : (dusFind n d u).1 = (dusFind n (dusFind n d u).2 v).1 :=
            not_not.mp hne
          obtain ⟨r1, r2, r3⟩ := ih ((dusFind n (dusFind n d u).2 v).2) c hI2 hsane'
          have hpres2 : ∀ a, a < n →
              dusRoot n (dusFind n (dusFind n d u).2 v).2 a = dusRoot n d a := by
            intro a ha
            rw [hmap2 a ha, hmap1 a ha]
          have hedge2 : dusRoot n (dusFind n (dusFind n d u).2 v).2 u =
              dusRoot n (dusFind n (dusFind n d u).2 v).2 v := by
            rw [hpres2 u hu, hpres2 v hv, ← hf1, heq, hf2, hduv]
          refine ⟨r1, ?_, ?_⟩
          · intro a b ha hb hab
            refine r2 a b ha hb ?_
            rw [hpres2 a ha, hpres2 b hb, hab]
          · rcases r3 with h | h
            · exact Or.inl h
            · refine Or.inr ?_
              intro e he
              rcases List.mem_cons.mp he with he1 | he2
              · rw [he1]
                exact r2 u v hu hv hedge2
              · exact h e he2

theorem countFold_zero (n : ℕ) (comp : ℕ → Bool) :
    ∀ (l : List (ℕ × ℕ)) (d : DisjointUnionSets) (c0 c : ℕ),
      KInv n comp d c →
      (∀ e ∈ l, e.1 < n ∧ e.2 < n) →
      (∀ e ∈ l, dusRoot n d e.1 = dusRoot n d e.2) →
      (KOpt.countFold n l d c0).2 = c0 := by
  intro l
  induction l with
  | nil =>
      intro d c0 c _ _ _
      rfl
  | cons e rest ih =>
      obtain ⟨u, v⟩ := e
      intro d c0 c hI hB hsame
      obtain ⟨hu, hv⟩ := hB (u, v) (List.mem_cons_self _ _)
      obtain ⟨hI1, hf1, hmap1, _⟩ := kinv_find n comp d c hI u hu
      obtain ⟨hI2, hf2, hmap2, _⟩ :=
        kinv_find n comp (dusFind n d u).2 c hI1 v hv
      have hduv : dusRoot n (dusFind n d u).2 v = dusRoot n d v := hmap1 v hv
      have hstep : KOpt.countFold n ((u, v) :: rest) d c0 =
          KOpt.countFold n rest (dusFind n (dusFind n d u).2 v).2
            (if (dusFind n d u).1 ≠ (dusFind n (dusFind n d u).2 v).1
             then c0 + 1 else c0) := rfl
      rw [hstep, if_neg (fun hne => hne (by
        rw [hf1, hf2, hduv]
        exact hsame (u, v) (List.mem_cons_self _ _)))]
      have hpres2 : ∀ a, a < n →
          dusRoot n (dusFind n (dusFind n d u).2 v).2 a = dusRoot n d a := by
        intro a ha
        rw [hmap2 a ha, hmap1 a ha]
      refine ih (dusFind n (dusFind n d u).2 v).2 c0 c hI2
        (fun e he => hB e (List.mem_cons_of_mem _ he)) ?_
      intro e he
      obtain ⟨he1, he2⟩ := hB e (List.mem_cons_of_mem _ he)
      rw [hpres2 e.1 he1, hpres2 e.2 he2]
      exact hsame e (List.mem_cons_of_mem _ he)

theorem karger_trial_disconnected_zero (V : ℕ) (comp : ℕ → Bool)
    (s : List (ℕ × ℕ))
    (hB : ∀ e ∈ s, e.1 < V ∧ e.2 < V ∧ comp e.1 = comp e.2)
    (hfalse : ∃ i, i < V ∧ comp i = false)
    (htrue : ∃ i, i < V ∧ comp i = true) :
    KOpt.karger_min_cut_trial V s.length s = 0 := by
  have hnum0 : numRoots V dusInit = V := by
    unfold numRoots
    have hft : (Finset.range V).filter (fun i => dusInit.parent i = i) = Finset.range V :=
      Finset.filter_true_of_mem (fun i _ => rfl)
    rw [hft, Finset.card_range]
  have hI0 : KInv V comp dusInit V := by
    refine ⟨⟨?_, ?_, ?_⟩, hnum0, ?_⟩
    · intro i hi
      exact hi
    · intro i _ hne
      exact absurd rfl hne
    · intro i hi
      rw [hnum0]
      have hr0 : dusInit.rank i = 0 := rfl
      omega
    · intro j _
      rw [dusRoot_of_root V dusInit j rfl]
  obtain ⟨hIF, _, hdisj⟩ := contractFold_spec V comp s dusInit V hI0 hB
  have hall : ∀ e ∈ s,
      dusRoot V (KOpt.contractFold V s (dusInit, V)).1 e.1 =
        dusRoot V (KOpt.contractFold V s (dusInit, V)).1 e.2 := by
    rcases hdisj with hle | hall
    · intro e he
      obtain ⟨heu, hev, hec⟩ := hB e he
      by_contra hnect
      obtain ⟨u0, hu0, hcu0⟩ := hfalse
      obtain ⟨v0, hv0, hcv0⟩ := htrue
      have hwfF := hIF.wf
      have hru := dusRoot_spec V (KOpt.contractFold V s (dusInit, V)).1 hwfF e.1 heu
      have hrv := dusRoot_spec V (KOpt.contractFold V s (dusInit, V)).1 hwfF e.2 hev
      have hr0 := dusRoot_spec V (KOpt.contractFold V s (dusInit, V)).1 hwfF u0 hu0
      have hr1 := dusRoot_spec V (KOpt.contractFold V s (dusInit, V)).1 hwfF v0 hv0
      have hsub : ({dusRoot V (KOpt.contractFold V s (dusInit, V)).1 e.1,
          dusRoot V (KOpt.contractFold V s (dusInit, V)).1 e.2} : Finset ℕ) ⊆
          (Finset.range V).filter
            (fun i => (KOpt.contractFold V s (dusInit, V)).1.parent i = i) := by
        intro x hx
        rcases Finset.mem_insert.mp hx with hx | hx
        · rw [hx]
          exact Finset.mem_filter.mpr ⟨Finset.mem_range.mpr hru.2.1, hru.1⟩
        · rw [Finset.mem_singleton.mp hx]
          exact Finset.mem_filter.mpr ⟨Finset.mem_range.mpr hrv.2.1, hrv.1⟩
      have hcard2 : ({dusRoot V (KOpt.contractFold V s (dusInit, V)).1 e.1,
          dusRoot V (KOpt.contractFold V s (dusInit, V)).1 e.2} : Finset ℕ).card = 2 :=
        Finset.card_pair hnect
      have hcardF : ((Finset.range V).filter
          (fun i => (KOpt.contractFold V s (dusInit, V)).1.parent i = i)).card ≤ 2 := by
        have := hIF.hcount
        unfold numRoots at this
        omega
      have heqF : (Finset.range V).filter
          (fun i => (KOpt.contractFold V s (dusInit, V)).1.parent i = i) =
          {dusRoot V (KOpt.contractFold V s (dusInit, V)).1 e.1,
           dusRoot V (KOpt.contractFold V s (dusInit, V)).1 e.2} :=
        (Finset.eq_of_subset_of_card_le hsub (by omega)).symm
      have hmem0 : dusRoot V (KOpt.contractFold V s (dusInit, V)).1 u0 ∈
          ({dusRoot V (KOpt.contractFold V s (dusInit, V)).1 e.1,
            dusRoot V (KOpt.contractFold V s (dusInit, V)).1 e.2} : Finset ℕ) := by
        rw [← heqF]
        exact Finset.mem_filter.mpr ⟨Finset.mem_range.mpr hr0.2.1, hr0.1⟩
      have hmem1 : dusRoot V (KOpt.contractFold V s (dusInit, V)).1 v0 ∈
          ({dusRoot V (KOpt.contractFold V s (dusInit, V)).1 e.1,
            dusRoot V (KOpt.contractFold V s (dusInit, V)).1 e.2} : Finset ℕ) := by
        rw [← heqF]
        exact Finset.mem_filter.mpr ⟨Finset.mem_range.mpr hr1.2.1, hr1.1⟩
      have hcompu : comp (dusRoot V (KOpt.contractFold V s (dusInit, V)).1 e.1) = comp e.1 :=
        hIF.hcomp e.1 heu
      have hcompv : comp (dusRoot V (KOpt.contractFold V s (dusInit, V)).1 e.2) = comp e.2 :=
        hIF.hcomp e.2 hev
      have hcomp0 : comp (dusRoot V (KOpt.contractFold V s (dusInit, V)).1 u0) = false := by
        rw [hIF.hcomp u0 hu0]
        exact hcu0
      have hcomp1 : comp (dusRoot V (KOpt.contractFold V s (dusInit, V)).1 v0) = true := by
        rw [hIF.hcomp v0 hv0]
        exact hcv0
      have hc0 : comp e.1 = false := by
        rcases Finset.mem_insert.mp hmem0 with hx | hx
        · rw [← hcompu, ← hx]
          exact hcomp0
        · rw [hec, ← hcompv, ← Finset.mem_singleton.mp hx]
          exact hcomp0
      have hc1 : comp e.1 = true := by
        rcases Finset.mem_insert.mp hmem1 with hx | hx
        · rw [← hcompu, ← hx]
          exact hcomp1
        · rw [hec, ← hcompv, ← Finset.mem_singleton.mp hx]
          exact hcomp1
      rw [hc0] at hc1
      exact Bool.false_ne_true hc1
    · exact hall
  show (KOpt.countFold V (s.take s.length)
      (KOpt.contractFold V s (dusInit, V)).1 0).2 = 0
  rw [List.take_length]
  exact countFold_zero V comp s (KOpt.contractFold V s (dusInit, V)).1 0
    (KOpt.contractFold V s (dusInit, V)).2 hIF
    (fun e he => ⟨(hB e he).1, (hB e he).2.1⟩) hall

/-- Claim C7: on every graph splitting into two nonempty sides with no
edges between them, the deterministic linear-scan engine returns cut
value `0`, and the randomized engine of `kargercppopt.cpp` with at least
one trial returns `0` as well — every contraction trial ends with every
edge internal to one union-find class, so the counted cut is `0`. -/
theorem disconnected_two_components_zero (V : ℕ) (g : Mat) (comp : ℕ → Bool)
    (hV : 2 ≤ V) (hs : symmOn V g) (hn : nonnegOn V g)
    (hfalse : ∃ i, i < V ∧ comp i = false)
    (htrue : ∃ i, i < V ∧ comp i = true)
    (hnocross : ∀ i < V, ∀ j < V, comp i ≠ comp j → g i j = 0)
    (shuffles : List (List (ℕ × ℕ))) (hne : shuffles ≠ [])
    (hperm : ∀ s ∈ shuffles, s.Perm (buildEdges V g)) :
    (SWLin.stoer_wagner V g).1 = 0 ∧ KOpt.karger_min_cut V g shuffles = 0 := by
  obtain ⟨u0, hu0, hcu0⟩ := hfalse
  obtain ⟨v0, hv0, hcv0⟩ := htrue
  have hA : (Finset.range V).filter (fun i => comp i = false) ∈ properCuts V := by
    refine mem_properCuts.mpr ⟨Finset.filter_subset _ _, ⟨u0, ?_⟩, ?_⟩
    · exact Finset.mem_filter.mpr ⟨Finset.mem_range.mpr hu0, hcu0⟩
    · intro hc
      have hv0m : v0 ∈ (Finset.range V).filter (fun i => comp i = false) := by
        rw [hc]
        exact Finset.mem_range.mpr hv0
      have := (Finset.mem_filter.mp hv0m).2
      rw [hcv0] at this
      exact absurd this (by decide)
  have hcut0 : cutVal V g ((Finset.range V).filter (fun i => comp i = false)) = 0 := by
    unfold cutVal
    apply Finset.sum_eq_zero
    intro i hi
    apply Finset.sum_eq_zero
    intro j hj
    by_cases hc : i ∈ (Finset.range V).filter (fun i => comp i = false) ∧
        j ∉ (Finset.range V).filter (fun i => comp i = false)
    · rw [if_pos hc]
      have hci : comp i = false := (Finset.mem_filter.mp hc.1).2
      have hcj : comp j ≠ false := by
        intro hcf
        exact hc.2 (Finset.mem_filter.mpr ⟨hj, hcf⟩)
      exact hnocross i (Finset.mem_range.mp hi) j (Finset.mem_range.mp hj)
        (by rw [hci]; exact fun h => hcj h.symm)
    · rw [if_neg hc]
  have hmc0 : minCut V g = 0 := by
    have h1 : minCut V g ≤ 0 := by
      have hle : minCut V g ≤ cutVal V g ((Finset.range V).filter (fun i => comp i = false)) :=
        minCut_le hA
      rw [hcut0] at hle
      exact hle
    have h2 : 0 ≤ minCut V g := minCut_nonneg V g hV hn
    omega
  constructor
  · rw [SWLin.stoer_wagner_exact V g hV hs hn, hmc0]
    exact min_eq_right (by unfold INT_MAX; omega)
  · have hEdges : ∀ e ∈ buildEdges V g, e.1 < V ∧ e.2 < V ∧ comp e.1 = comp e.2 := by
      intro e he
      obtain ⟨a, b⟩ := e
      obtain ⟨haV, hbV, _, hab1⟩ := (mem_buildEdges V g a b).mp he
      refine ⟨haV, hbV, ?_⟩
      by_contra hcc
      rw [hnocross a haV b hbV hcc] at hab1
      exact absurd hab1 (by omega)
    have htrial : ∀ s ∈ shuffles,
        KOpt.karger_min_cut_trial V (buildEdges V g).length s = 0 := by
      intro s hsm
      have hlen : (buildEdges V g).length = s.length := ((hperm s hsm).length_eq).symm
      rw [hlen]
      refine karger_trial_disconnected_zero V comp s ?_ ⟨u0, hu0, hcu0⟩ ⟨v0, hv0, hcv0⟩
      intro e he
      exact hEdges e ((hperm s hsm).mem_iff.mp he)
    have hrw : KOpt.karger_min_cut V g shuffles =
        List.foldl (fun mc t =>
          if (KOpt.karger_min_cut_trial V (buildEdges V g).length t : ℤ) < mc
          then (KOpt.karger_min_cut_trial V (buildEdges V g).length t : ℤ) else mc)
          INT_MAX shuffles := rfl
    rw [hrw]
    rcases shuffles with _ | ⟨s, rest⟩
    · exact absurd rfl hne
    · have hs0 : KOpt.karger_min_cut_trial V (buildEdges V g).length s = 0 :=
        htrial s (List.mem_cons_self _ _)
      have h0 : ((0 : ℕ) : ℤ) < INT_MAX := by unfold INT_MAX; omega
      simp only [List.foldl_cons, hs0, if_pos h0, Nat.cast_zero]
      exact foldl_trial_zero V (buildEdges V g).length rest
        (fun t ht => htrial t (List.mem_cons_of_mem _ ht))

set_option maxRecDepth 10000 in
/-- Witness for claim C7 on the 4-vertex graph with the two components
`{0, 1}` and `{2, 3}` (edges `(0, 1)` and `(2, 3)` only) and one trial:
both engines return `0`. -/
theorem disconnected_two_components_zero_witness :
    (SWLin.stoer_wagner 4 (matOfLists [[0, 1, 0, 0], [1, 0, 0, 0], [0, 0, 0, 1], [0, 0, 1, 0]])).1 = 0 ∧
    KOpt.karger_min_cut 4 (matOfLists [[0, 1, 0, 0], [1, 0, 0, 0], [0, 0, 0, 1], [0, 0, 1, 0]])
      [[(0, 1), (2, 3)]] = 0 :=
  disconnected_two_components_zero 4
    (matOfLists [[0, 1, 0, 0], [1, 0, 0, 0], [0, 0, 0, 1], [0, 0, 1, 0]])
    (fun i => decide (2 ≤ i))
    (by decide) (by unfold symmOn; decide) (by unfold nonnegOn; decide)
    ⟨0, by decide, by decide⟩ ⟨2, by decide, by decide⟩
    (by decide) [[(0, 1), (2, 3)]] (by decide) (by decide)
